import Mathlib

/-!
# Verification of the text-version differential store

Shallow embedding of `src/TextVersion.ts` (class `TextVersion`), a
line-oriented differential text-version store.  Strings are modelled as
`List Char` (JS UTF-16 code-unit sequences; all concrete inputs used below
are ASCII so the unit/scalar distinction is irrelevant).  The optional
compression provider is absent, hence `compress`/`decompress` are the
identity, exactly as in the source.  The external diff provider
(`diff-match-patch`) is modelled as an explicit parameter `dmp`, mirroring
the constructor-injected `this.dmp` of the source; its contract (an
LCS-style diff whose equal/delete parts concatenate to the old text and
whose equal/insert parts concatenate to the new text) is the predicate
`DmpValid` below.
-/

abbrev Str := List Char

/-- JS-style sequential single-character global replace
(`String.prototype.replace` with a one-character pattern and global flag):
every occurrence of `a` is replaced by `r`, left to right; replacement text
is not rescanned (it cannot contain `a` in the uses below anyway). -/
def replace1 (a : Char) (r : Str) : Str → Str
  | [] => []
  | c :: rest => if c = a then r ++ replace1 a r rest else c :: replace1 a r rest

/-- JS-style sequential two-character global replace: every non-overlapping
occurrence of the pattern `a` `b`, scanning left to right, is replaced by
`r`; after a match, scanning resumes after the matched pair (the
replacement is not rescanned). -/
def replace2 (a b : Char) (r : Str) : Str → Str
  | [] => []
  | [c] => [c]
  | c :: d :: rest =>
    if c = a ∧ d = b then r ++ replace2 a b r rest
    else c :: replace2 a b r (d :: rest)

/-- `escapeString` of the source: backslash first, then newline, carriage
return, tab, as four sequential global replaces. -/
def escapeString (s : Str) : Str :=
  replace1 '\t' ['\\', 't']
    (replace1 '\r' ['\\', 'r']
      (replace1 '\n' ['\\', 'n']
        (replace1 '\\' ['\\', '\\'] s)))

/-- `unescapeString` of the source: tab, carriage return, newline, then
double backslash, as four sequential global replaces. -/
def unescapeString (s : Str) : Str :=
  replace2 '\\' '\\' ['\\']
    (replace2 '\\' 'n' ['\n']
      (replace2 '\\' 'r' ['\r']
        (replace2 '\\' 't' ['\t'] s)))

/-- Per-character escape map; `escapeString` is its concatenated extension
(proved below). -/
def escChar (c : Char) : Str :=
  if c = '\\' then ['\\', '\\']
  else if c = '\n' then ['\\', 'n']
  else if c = '\r' then ['\\', 'r']
  else if c = '\t' then ['\\', 't']
  else [c]

/-- A string is *escape-safe* when no backslash character is immediately
followed by a literal `n`, `r` or `t`.  On escape-safe strings the
sequential-replace decoder inverts the encoder (proved below); outside this
set it does not (see the counterexample for C2). -/
def noEsc : Str → Prop
  | [] => True
  | [_] => True
  | c :: d :: rest => ¬(c = '\\' ∧ (d = 'n' ∨ d = 'r' ∨ d = 't')) ∧ noEsc (d :: rest)

def noEscDec : (s : Str) → Decidable (noEsc s)
  | [] => isTrue trivial
  | [_] => isTrue trivial
  | _ :: d :: rest =>
    have hd : Decidable (noEsc (d :: rest)) := noEscDec (d :: rest)
    @instDecidableAnd _ _ _ hd

instance : DecidablePred noEsc := noEscDec

-- ### basic lemmas about the replaces

theorem replace1_append (a : Char) (r : Str) (x y : Str) :
    replace1 a r (x ++ y) = replace1 a r x ++ replace1 a r y := by
  induction x with
  | nil => rfl
  | cons c rest ih =>
    by_cases h : c = a <;> simp [replace1, h, ih]

theorem escapeString_cons (c : Char) (s : Str) :
    escapeString (c :: s) = escChar c ++ escapeString s := by
  unfold escapeString escChar
  by_cases h1 : c = '\\'
  · subst h1
    simp [replace1, replace1_append]
  · by_cases h2 : c = '\n'
    · subst h2
      simp [replace1, replace1_append]
    · by_cases h3 : c = '\r'
      · subst h3
        simp [replace1, replace1_append]
      · by_cases h4 : c = '\t'
        · subst h4
          simp [replace1, replace1_append]
        · simp [replace1, h1, h2, h3, h4]

theorem escapeString_nil : escapeString [] = [] := rfl

theorem escapeString_eq_flatMap (s : Str) :
    escapeString s = s.flatMap escChar := by
  induction s with
  | nil => rfl
  | cons c rest ih => rw [escapeString_cons, ih]; rfl

theorem noEsc_tail {c : Char} {rest : Str} (h : noEsc (c :: rest)) : noEsc rest := by
  cases rest with
  | nil => trivial
  | cons d r => exact h.2

theorem noEsc_head_bs {d : Char} {r : Str} (h : noEsc ('\\' :: d :: r)) :
    ¬(d = 'n' ∨ d = 'r' ∨ d = 't') := fun hd => h.1 ⟨rfl, hd⟩

theorem replace2_cons_ne (x : Char) (r : Str) {c : Char} (hc : c ≠ '\\') (M : Str) :
    replace2 '\\' x r (c :: M) = c :: replace2 '\\' x r M := by
  cases M with
  | nil => rfl
  | cons m M' =>
    show (if c = '\\' ∧ m = x then _ else _) = _
    rw [if_neg (fun hp => hc hp.1)]

theorem replace2_cons_bs (x : Char) (r : Str) {M : Str} (h : M.head? ≠ some x) :
    replace2 '\\' x r ('\\' :: M) = '\\' :: replace2 '\\' x r M := by
  cases M with
  | nil => rfl
  | cons m M' =>
    show (if '\\' = '\\' ∧ m = x then _ else _) = _
    rw [if_neg (fun hp => h (by rw [hp.2]; rfl))]


theorem image_head_ne (x y : Char) (f : Char → Str)
    (hxbs : x ≠ '\\')
    (hfy : f y = ['\\', x]) (hfb : f '\\' = ['\\', '\\'])
    (hshape : ∀ c, c ≠ y → c ≠ '\\' →
      f c = [c] ∨ ∃ z, z ≠ x ∧ z ≠ '\\' ∧ f c = ['\\', z])
    (rest : Str) (hrest : ∀ d rest', rest = d :: rest' → d ≠ x) :
    (rest.flatMap f).head? ≠ some x := by
  cases rest with
  | nil => simp
  | cons d rest' =>
    have hdx : d ≠ x := hrest d rest' rfl
    rw [List.flatMap_cons]
    by_cases hdy : d = y
    · rw [hdy, hfy]
      intro hcon
      exact hxbs (Option.some.inj hcon).symm
    · by_cases hdb : d = '\\'
      · rw [hdb, hfb]
        intro hcon
        exact hxbs (Option.some.inj hcon).symm
      · rcases hshape d hdy hdb with hsh | ⟨z, hz1, _, hsh⟩
        · rw [hsh]
          intro hcon
          exact hdx (Option.some.inj hcon)
        · rw [hsh]
          intro hcon
          exact hxbs (Option.some.inj hcon).symm

theorem replace2_pass (x y : Char) (f g : Char → Str)
    (hx : x = 'n' ∨ x = 'r' ∨ x = 't') (hy : y ≠ '\\')
    (hfy : f y = ['\\', x]) (hgy : g y = [y])
    (hfb : f '\\' = ['\\', '\\']) (hgb : g '\\' = ['\\', '\\'])
    (hfg : ∀ c, c ≠ y → c ≠ '\\' → g c = f c)
    (hshape : ∀ c, c ≠ y → c ≠ '\\' →
      f c = [c] ∨ ∃ z, z ≠ x ∧ z ≠ '\\' ∧ f c = ['\\', z]) :
    ∀ s, noEsc s → replace2 '\\' x [y] (s.flatMap f) = s.flatMap g := by
  have hxbs : x ≠ '\\' := by
    rcases hx with h | h | h <;> subst h <;> decide
  intro s
  induction s with
  | nil => intro _; rfl
  | cons c rest ih =>
    intro hs
    have hrec := ih (noEsc_tail hs)
    by_cases hcy : c = y
    · rw [hcy, List.flatMap_cons, List.flatMap_cons, hfy, hgy]
      have hmatch : replace2 '\\' x [y] ('\\' :: x :: rest.flatMap f)
          = [y] ++ replace2 '\\' x [y] (rest.flatMap f) := by
        show (if '\\' = '\\' ∧ x = x then _ else _) = _
        rw [if_pos ⟨rfl, rfl⟩]
      exact hmatch.trans (by rw [hrec])
    · by_cases hcb : c = '\\'
      · have hs' : noEsc ('\\' :: rest) := hcb ▸ hs
        have hhead : (rest.flatMap f).head? ≠ some x := by
          refine image_head_ne x y f hxbs hfy hfb hshape rest ?_
          intro d rest' hr hdx
          rw [hr] at hs'
          exact noEsc_head_bs hs' (by rw [hdx]; exact hx)
        rw [hcb, List.flatMap_cons, List.flatMap_cons, hfb, hgb]
        have step1 : replace2 '\\' x [y] ('\\' :: '\\' :: rest.flatMap f)
            = '\\' :: replace2 '\\' x [y] ('\\' :: rest.flatMap f) :=
          replace2_cons_bs x [y] (by
            intro hcon
            exact hxbs (Option.some.inj hcon).symm)
        have step2 : replace2 '\\' x [y] ('\\' :: rest.flatMap f)
            = '\\' :: replace2 '\\' x [y] (rest.flatMap f) :=
          replace2_cons_bs x [y] hhead
        calc replace2 '\\' x [y] ('\\' :: '\\' :: rest.flatMap f)
            = '\\' :: replace2 '\\' x [y] ('\\' :: rest.flatMap f) := step1
          _ = '\\' :: '\\' :: replace2 '\\' x [y] (rest.flatMap f) := by rw [step2]
          _ = ['\\', '\\'] ++ rest.flatMap g := by rw [hrec]; rfl
      · rcases hshape c hcy hcb with hsh | ⟨z, hz1, hz2, hsh⟩
        · rw [List.flatMap_cons, List.flatMap_cons, hfg c hcy hcb, hsh]
          show replace2 '\\' x [y] (c :: rest.flatMap f) = c :: rest.flatMap g
          rw [replace2_cons_ne x [y] hcb, hrec]
        · rw [List.flatMap_cons, List.flatMap_cons, hfg c hcy hcb, hsh]
          show replace2 '\\' x [y] ('\\' :: z :: rest.flatMap f)
              = '\\' :: z :: rest.flatMap g
          rw [replace2_cons_bs x [y] (by
            intro hcon
            exact hz1 (Option.some.inj hcon)),
            replace2_cons_ne x [y] hz2, hrec]

/-- `escChar` after decoding tab codewords. -/
def esc1 (c : Char) : Str := if c = '\t' then ['\t'] else escChar c

/-- `esc1` after decoding carriage-return codewords. -/
def esc2 (c : Char) : Str := if c = '\r' then ['\r'] else esc1 c

/-- `esc2` after decoding newline codewords: only backslash stays doubled. -/
def esc3 (c : Char) : Str := if c = '\\' then ['\\', '\\'] else [c]

theorem escPass1 (s : Str) (h : noEsc s) :
    replace2 '\\' 't' ['\t'] (s.flatMap escChar) = s.flatMap esc1 := by
  refine replace2_pass 't' '\t' escChar esc1 (by decide) (by decide)
    (by decide) (by decide) (by decide) (by decide) ?_ ?_ s h
  · intro c h1 h2
    unfold esc1
    rw [if_neg h1]
  · intro c h1 h2
    by_cases hn : c = '\n'
    · subst hn
      exact Or.inr ⟨'n', by decide, by decide, by decide⟩
    · by_cases hr : c = '\r'
      · subst hr
        exact Or.inr ⟨'r', by decide, by decide, by decide⟩
      · refine Or.inl ?_
        unfold escChar
        rw [if_neg h2, if_neg hn, if_neg hr, if_neg h1]

theorem escPass2 (s : Str) (h : noEsc s) :
    replace2 '\\' 'r' ['\r'] (s.flatMap esc1) = s.flatMap esc2 := by
  refine replace2_pass 'r' '\r' esc1 esc2 (by decide) (by decide)
    (by decide) (by decide) (by decide) (by decide) ?_ ?_ s h
  · intro c h1 h2
    unfold esc2
    rw [if_neg h1]
  · intro c h1 h2
    by_cases ht : c = '\t'
    · subst ht
      exact Or.inl (by decide)
    · by_cases hn : c = '\n'
      · subst hn
        exact Or.inr ⟨'n', by decide, by decide, by decide⟩
      · refine Or.inl ?_
        unfold esc1 escChar
        rw [if_neg ht, if_neg h2, if_neg hn, if_neg h1, if_neg ht]

theorem escPass3 (s : Str) (h : noEsc s) :
    replace2 '\\' 'n' ['\n'] (s.flatMap esc2) = s.flatMap esc3 := by
  refine replace2_pass 'n' '\n' esc2 esc3 (by decide) (by decide)
    (by decide) (by decide) (by decide) (by decide) ?_ ?_ s h
  · intro c h1 h2
    by_cases hr : c = '\r'
    · subst hr
      decide
    · by_cases ht : c = '\t'
      · subst ht
        decide
      · unfold esc3 esc2 esc1 escChar
        rw [if_neg h2, if_neg hr, if_neg ht, if_neg h2, if_neg h1, if_neg hr, if_neg ht]
  · intro c h1 h2
    by_cases hr : c = '\r'
    · subst hr
      exact Or.inl (by decide)
    · by_cases ht : c = '\t'
      · subst ht
        exact Or.inl (by decide)
      · refine Or.inl ?_
        unfold esc2 esc1 escChar
        rw [if_neg hr, if_neg ht, if_neg h2, if_neg h1, if_neg hr, if_neg ht]

theorem escPass4 (s : Str) :
    replace2 '\\' '\\' ['\\'] (s.flatMap esc3) = s := by
  induction s with
  | nil => rfl
  | cons c rest ih =>
    rw [List.flatMap_cons]
    by_cases hb : c = '\\'
    · rw [hb]
      unfold esc3
      rw [if_pos rfl]
      have hmatch : replace2 '\\' '\\' ['\\'] ('\\' :: '\\' :: rest.flatMap esc3)
          = ['\\'] ++ replace2 '\\' '\\' ['\\'] (rest.flatMap esc3) := by
        show (if '\\' = '\\' ∧ '\\' = '\\' then _ else _) = _
        rw [if_pos ⟨rfl, rfl⟩]
      refine hmatch.trans ?_
      rw [ih]
      rfl
    · unfold esc3
      rw [if_neg hb]
      show replace2 '\\' '\\' ['\\'] (c :: rest.flatMap esc3) = c :: rest
      rw [replace2_cons_ne '\\' ['\\'] hb, ih]

/-- Main escape-codec inversion: on escape-safe strings, `unescapeString`
inverts `escapeString`. -/
theorem unescape_escape_of_noEsc (s : Str) (h : noEsc s) :
    unescapeString (escapeString s) = s := by
  rw [escapeString_eq_flatMap]
  unfold unescapeString
  rw [escPass1 s h, escPass2 s h, escPass3 s h, escPass4 s]

theorem escChar_ne_nil (c : Char) : escChar c ≠ [] := by
  unfold escChar
  split
  · simp
  · split
    · simp
    · split
      · simp
      · split <;> simp

theorem escapeString_ne_nil {s : Str} (h : s ≠ []) : escapeString s ≠ [] := by
  cases s with
  | nil => exact absurd rfl h
  | cons c rest =>
    rw [escapeString_cons]
    intro hc
    exact escChar_ne_nil c (List.append_eq_nil.mp hc).1

theorem replace2_ne_nil {a b : Char} {r : Str} (hr : r ≠ []) :
    ∀ {s : Str}, s ≠ [] → replace2 a b r s ≠ []
  | [], h => absurd rfl h
  | [c], _ => by
    show [c] ≠ []
    simp
  | c :: d :: rest, _ => by
    show (if c = a ∧ d = b then _ else _) ≠ []
    split
    · intro hc
      exact hr (List.append_eq_nil.mp hc).1
    · simp

theorem unescapeString_ne_nil {s : Str} (h : s ≠ []) : unescapeString s ≠ [] := by
  unfold unescapeString
  exact replace2_ne_nil (by simp)
    (replace2_ne_nil (by simp) (replace2_ne_nil (by simp) (replace2_ne_nil (by simp) h)))

theorem not_mem_escChar_nl (c : Char) : '\n' ∉ escChar c := by
  unfold escChar
  split
  · simp
  · rename_i h1
    split
    · simp
    · rename_i h2
      split
      · simp
      · rename_i h3
        split
        · simp
        · simp
          intro he
          exact h2 he.symm

theorem not_mem_escapeString_nl (s : Str) : '\n' ∉ escapeString s := by
  rw [escapeString_eq_flatMap]
  intro hmem
  rcases List.mem_flatMap.mp hmem with ⟨c, _, hc⟩
  exact not_mem_escChar_nl c hc

theorem noEsc_of_not_mem_bs : ∀ s : Str, '\\' ∉ s → noEsc s
  | [], _ => trivial
  | [_], _ => trivial
  | c :: d :: rest, h =>
    ⟨fun hp => h (hp.1 ▸ List.mem_cons_self c (d :: rest)),
      noEsc_of_not_mem_bs (d :: rest) (fun hm => h (List.mem_cons_of_mem c hm))⟩

/-- C2 counterexample: the escape codec is not a bijective pair.  On the
two-character string backslash-`n`, escaping yields backslash backslash `n`,
and the sequential-replace decoder then turns the second backslash together
with the literal `n` into a newline, so the round trip returns
backslash-newline instead of the original string. -/
theorem c2_cex : unescapeString (escapeString ['\\', 'n']) ≠ ['\\', 'n'] := by
  decide

/-- C2 (amended): the escape codec round-trips on every escape-safe string,
i.e. on every string in which no backslash is immediately followed by a
literal `n`, `r` or `t`; the escape map is backslash to double backslash,
newline to backslash-n, CR to backslash-r, tab to backslash-t. -/
theorem c2_roundtrip (s : Str) (h : noEsc s) :
    unescapeString (escapeString s) = s :=
  unescape_escape_of_noEsc s h

theorem c2_roundtrip_witness :
    noEsc ['a', '\n', '\t', '\\', '\\', 'b'] ∧
      unescapeString (escapeString ['a', '\n', '\t', '\\', '\\', 'b'])
        = ['a', '\n', '\t', '\\', '\\', 'b'] :=
  ⟨by decide, c2_roundtrip ['a', '\n', '\t', '\\', '\\', 'b'] (by decide)⟩

/-- JS `String.prototype.substring s a b`: both indices are clamped into
`[0, length]` (after `NaN` has been mapped to `0` by the caller) and swapped
when the start exceeds the end. -/
def substringJS (s : Str) (a b : Int) : Str :=
  let n : Int := s.length
  let av := min (max a 0) n
  let bv := min (max b 0) n
  let lo := min av bv
  let hi := max av bv
  (s.take hi.toNat).drop lo.toNat

/-- One-argument `substring`: up to the end of the string. -/
def substringFromJS (s : Str) (a : Int) : Str := substringJS s a s.length

/-- Value of a maximal leading run of decimal digits; `none` when there is
no leading digit (JS `NaN`). -/
def digitsVal (s : Str) : Option Nat :=
  let d := s.takeWhile Char.isDigit
  if d = [] then none
  else some (d.foldl (fun acc c => acc * 10 + (c.toNat - '0'.toNat)) 0)

/-- JS `parseInt` in base 10: optional leading whitespace, optional sign,
then a maximal run of decimal digits; `none` models `NaN`. -/
def parseIntJS (s : Str) : Option Int :=
  let t := s.dropWhile Char.isWhitespace
  if t.head? = some '-' then (digitsVal (t.drop 1)).map (fun n => -(n : Int))
  else if t.head? = some '+' then (digitsVal (t.drop 1)).map (fun n => (n : Int))
  else (digitsVal t).map (fun n => (n : Int))

/-- JS `String.prototype.indexOf` for a one-character needle, searching from
position `start`; `none` models `-1`. -/
def idxOfFrom (s : Str) (c : Char) (start : Nat) : Option Nat :=
  match (s.drop start).findIdx? (fun d => d = c) with
  | some i => some (start + i)
  | none => none

def idxOf (s : Str) (c : Char) : Option Nat := idxOfFrom s c 0

/-- Decimal rendering of a natural number (JS number-to-string for the
non-negative integers that occur in this code). -/
def natToStrGo : Nat → Nat → Str
  | 0, _ => []
  | fuel + 1, n =>
    if n < 10 then [Char.ofNat (48 + n)]
    else natToStrGo fuel (n / 10) ++ [Char.ofNat (48 + n % 10)]

def natToStr (n : Nat) : Str := natToStrGo (n + 1) n

theorem natToStrGo_extra (n : Nat) : ∀ fuel1 fuel2, n < fuel1 → n < fuel2 →
    natToStrGo fuel1 n = natToStrGo fuel2 n := by
  induction n using Nat.strong_induction_on with
  | _ n ih =>
    intro fuel1 fuel2 h1 h2
    cases fuel1 with
    | zero => omega
    | succ f1 =>
      cases fuel2 with
      | zero => omega
      | succ f2 =>
        show (if n < 10 then _ else _) = (if n < 10 then _ else _)
        by_cases hlt : n < 10
        · rw [if_pos hlt, if_pos hlt]
        · rw [if_neg hlt, if_neg hlt,
            ih (n / 10) (by omega) f1 f2 (by omega) (by omega)]

theorem natToStr_digits (n : Nat) : ∀ c ∈ natToStr n, c.isDigit := by
  unfold natToStr
  generalize hf : n + 1 = fuel
  have hn : n < fuel := by omega
  clear hf
  induction fuel generalizing n with
  | zero => omega
  | succ f ih =>
    show ∀ c ∈ (if n < 10 then [Char.ofNat (48 + n)]
      else natToStrGo f (n / 10) ++ [Char.ofNat (48 + n % 10)]), Char.isDigit c
    by_cases hlt : n < 10
    · rw [if_pos hlt]
      intro c hc
      rcases List.mem_singleton.mp hc with rfl
      interval_cases n <;> decide
    · rw [if_neg hlt]
      intro c hc
      rcases List.mem_append.mp hc with hc | hc
      · exact ih (n / 10) (by omega) c hc
      · rcases List.mem_singleton.mp hc with rfl
        have : n % 10 < 10 := Nat.mod_lt n (by omega)
        generalize hm : n % 10 = m at this
        interval_cases m <;> decide

theorem natToStr_ne_nil (n : Nat) : natToStr n ≠ [] := by
  unfold natToStr
  show (if n < 10 then _ else _) ≠ []
  by_cases hlt : n < 10
  · rw [if_pos hlt]; simp
  · rw [if_neg hlt]; simp

def digitChars : Str := ['9', '8', '7', '6', '5', '4', '3', '2', '1', '0']

theorem natToStr_mem_digitChars (n : Nat) : ∀ c ∈ natToStr n, c ∈ digitChars := by
  unfold natToStr
  generalize hf : n + 1 = fuel
  have hn : n < fuel := by omega
  clear hf
  induction fuel generalizing n with
  | zero => omega
  | succ f ih =>
    show ∀ c ∈ (if n < 10 then [Char.ofNat (48 + n)]
      else natToStrGo f (n / 10) ++ [Char.ofNat (48 + n % 10)]), c ∈ digitChars
    by_cases hlt : n < 10
    · rw [if_pos hlt]
      intro c hc
      rcases List.mem_singleton.mp hc with rfl
      interval_cases n <;> decide
    · rw [if_neg hlt]
      intro c hc
      rcases List.mem_append.mp hc with hc | hc
      · exact ih (n / 10) (by omega) c hc
      · rcases List.mem_singleton.mp hc with rfl
        have h10 : n % 10 < 10 := Nat.mod_lt n (by omega)
        generalize hm : n % 10 = m at h10
        interval_cases m <;> decide

theorem char_digit_toNat {m : Nat} (h : m < 10) : (Char.ofNat (48 + m)).toNat = 48 + m := by
  interval_cases m <;> decide

theorem takeWhile_all {p : Char → Bool} :
    ∀ {l : Str}, (∀ c ∈ l, p c) → l.takeWhile p = l
  | [], _ => rfl
  | c :: rest, h => by
    rw [List.takeWhile_cons, h c (List.mem_cons_self c rest), if_pos rfl,
      takeWhile_all (fun d hd => h d (List.mem_cons_of_mem c hd))]

theorem foldl_natToStr (n : Nat) : ∀ a : Nat,
    (natToStr n).foldl (fun acc c => acc * 10 + (c.toNat - '0'.toNat)) a
      = a * 10 ^ (natToStr n).length + n := by
  induction n using Nat.strong_induction_on with
  | _ n ih =>
    intro a
    by_cases hlt : n < 10
    · have hs : natToStr n = [Char.ofNat (48 + n)] := by
        unfold natToStr
        show (if n < 10 then _ else _) = _
        rw [if_pos hlt]
      rw [hs]
      show a * 10 + ((Char.ofNat (48 + n)).toNat - '0'.toNat) = a * 10 ^ 1 + n
      rw [char_digit_toNat hlt]
      show a * 10 + (48 + n - 48) = a * 10 ^ 1 + n
      omega
    · have hs : natToStr n = natToStr (n / 10) ++ [Char.ofNat (48 + n % 10)] := by
        unfold natToStr
        show (if n < 10 then _ else _) = _
        rw [if_neg hlt]
        rw [natToStrGo_extra (n / 10) n (n / 10 + 1) (by omega) (by omega)]
      rw [hs, List.foldl_append]
      rw [ih (n / 10) (by omega) a]
      show (a * 10 ^ (natToStr (n / 10)).length + n / 10) * 10
          + ((Char.ofNat (48 + n % 10)).toNat - '0'.toNat) = _
      rw [char_digit_toNat (Nat.mod_lt n (by omega))]
      rw [List.length_append, List.length_singleton, pow_succ]
      have h0 : '0'.toNat = 48 := rfl
      rw [h0]
      have : 10 * (n / 10) + n % 10 = n := Nat.div_add_mod n 10
      ring_nf
      omega

theorem digitsVal_natToStr (n : Nat) : digitsVal (natToStr n) = some n := by
  unfold digitsVal
  rw [takeWhile_all (natToStr_digits n)]
  rw [if_neg (natToStr_ne_nil n)]
  rw [foldl_natToStr n 0]
  simp

/-- Facts about decimal digit characters, used to push `parseIntJS` and the
tokenizers through digit runs. -/
theorem digitChar_facts {c : Char} (hc : c ∈ digitChars) :
    c.isWhitespace = false ∧ c ≠ '-' ∧ c ≠ '+' ∧ c ≠ ':' ∧ c ≠ '=' ∧
      c ≠ '\n' ∧ c ≠ '\\' ∧ c.isDigit = true := by
  have hall : ∀ x ∈ digitChars, x.isWhitespace = false ∧ x ≠ '-' ∧ x ≠ '+' ∧
      x ≠ ':' ∧ x ≠ '=' ∧ x ≠ '\n' ∧ x ≠ '\\' ∧ x.isDigit = true := by decide
  exact hall c hc

theorem parseIntJS_natToStr (n : Nat) : parseIntJS (natToStr n) = some (n : Int) := by
  unfold parseIntJS
  have hne := natToStr_ne_nil n
  have hmem := natToStr_mem_digitChars n
  cases hs : natToStr n with
  | nil => exact absurd hs hne
  | cons c rest =>
    have hc : c ∈ digitChars := by
      rw [hs] at hmem
      exact hmem c (List.mem_cons_self c rest)
    obtain ⟨hws, hm, hp, -, -, -, -, -⟩ := digitChar_facts hc
    have hdw : List.dropWhile Char.isWhitespace (c :: rest) = c :: rest := by
      rw [List.dropWhile_cons, hws]
      simp
    simp only [hdw]
    rw [if_neg (by
        simp only [List.head?_cons, Option.some.injEq]
        exact hm),
      if_neg (by
        simp only [List.head?_cons, Option.some.injEq]
        exact hp)]
    rw [← hs, digitsVal_natToStr n]
    rfl

theorem substringJS_nat (s : Str) (a b : Nat) (hab : a ≤ b) (hb : b ≤ s.length) :
    substringJS s (a : Int) (b : Int) = (s.take b).drop a := by
  unfold substringJS
  have ha' : (a : Int) ≤ (s.length : Int) := by
    have : (b : Int) ≤ (s.length : Int) := by exact_mod_cast hb
    have : (a : Int) ≤ (b : Int) := by exact_mod_cast hab
    omega
  have e1 : min (max (a : Int) 0) (s.length : Int) = (a : Int) := by omega
  have e2 : min (max (b : Int) 0) (s.length : Int) = (b : Int) := by
    have : (b : Int) ≤ (s.length : Int) := by exact_mod_cast hb
    omega
  simp only [e1, e2]
  have e3 : min (a : Int) (b : Int) = (a : Int) := by
    have : (a : Int) ≤ (b : Int) := by exact_mod_cast hab
    omega
  have e4 : max (a : Int) (b : Int) = (b : Int) := by
    have : (a : Int) ≤ (b : Int) := by exact_mod_cast hab
    omega
  simp only [e3, e4, Int.toNat_ofNat]

theorem substringFromJS_nat (s : Str) (a : Nat) (ha : a ≤ s.length) :
    substringFromJS s (a : Int) = s.drop a := by
  unfold substringFromJS
  have : ((s.length : Nat) : Int) = (s.length : Int) := rfl
  rw [substringJS_nat s a s.length ha (le_refl _), List.take_length]

theorem takeWhile_append_stop {p : Char → Bool} :
    ∀ (a : Str) {b : Str}, (∀ c ∈ a, p c) →
      (∀ x, b.head? = some x → p x = false) → (a ++ b).takeWhile p = a
  | [], b, _, hb => by
    cases b with
    | nil => rfl
    | cons x bs =>
      show List.takeWhile p (x :: bs) = []
      rw [List.takeWhile_cons, hb x rfl]
      simp
  | c :: a', b, ha, hb => by
    rw [List.cons_append, List.takeWhile_cons, ha c (List.mem_cons_self c a'), if_pos rfl,
      takeWhile_append_stop a' (fun d hd => ha d (List.mem_cons_of_mem c hd)) hb]

theorem dropWhile_append_stop {p : Char → Bool} :
    ∀ (a : Str) {b : Str}, (∀ c ∈ a, p c) →
      (∀ x, b.head? = some x → p x = false) → (a ++ b).dropWhile p = b
  | [], b, _, hb => by
    cases b with
    | nil => rfl
    | cons x bs =>
      show List.dropWhile p (x :: bs) = x :: bs
      rw [List.dropWhile_cons, hb x rfl]
      simp
  | c :: a', b, ha, hb => by
    rw [List.cons_append, List.dropWhile_cons, ha c (List.mem_cons_self c a')]
    simp only [if_pos rfl]
    exact dropWhile_append_stop a' (fun d hd => ha d (List.mem_cons_of_mem c hd)) hb

theorem findIdx?_colon (pre : Str) (hpre : ∀ c ∈ pre, c ≠ ':') (suf : Str) :
    ∀ i, List.findIdx? (fun d => d = ':') (pre ++ ':' :: suf) i
      = some (i + pre.length) := by
  induction pre with
  | nil =>
    intro i
    rw [List.nil_append, List.findIdx?_cons]
    simp
  | cons c pre' ih =>
    intro i
    rw [List.cons_append, List.findIdx?_cons]
    have hc : (decide (c = ':')) = false := by
      simp only [decide_eq_false_iff_not]
      exact hpre c (List.mem_cons_self c pre')
    simp only [hc]
    rw [if_neg (by simp)]
    rw [ih (fun d hd => hpre d (List.mem_cons_of_mem c hd)) (i + 1)]
    congr 1
    simp
    omega

theorem idxOf_append (pre : Str) (hpre : ∀ c ∈ pre, c ≠ ':') (suf : Str) :
    idxOf (pre ++ ':' :: suf) ':' = some pre.length := by
  unfold idxOf idxOfFrom
  rw [List.drop_zero, findIdx?_colon pre hpre suf 0]
  simp

/-- Record kinds as stored: a snapshot line (leading `:`) or a delta line
(whose payload may additionally encode a pure or hybrid reference via
`=`).  The source keeps `versions : string[]` plus two maps
`snapshots`/`deltas`; under the unique-name invariant of the spec (§3) this
is exactly an ordered record list, which is how we model it.  Behaviour on
duplicate names is undefined per the spec and not modelled. -/
inductive VKind where
  | snap : VKind
  | delta : VKind
deriving DecidableEq

structure VRec where
  name : Str
  kind : VKind
  payload : Str
deriving DecidableEq

/-- The version-name list (`parsedData.versions`). -/
def namesOf (recs : List VRec) : List Str := recs.map VRec.name

/-- `parsedData.snapshots[v]` (first snapshot record named `v`). -/
def snapLookup (recs : List VRec) (v : Str) : Option Str :=
  (recs.find? (fun r => r.name = v && r.kind = VKind.snap)).map VRec.payload

/-- `parsedData.deltas[v]` (first delta record named `v`). -/
def deltaLookup (recs : List VRec) (v : Str) : Option Str :=
  (recs.find? (fun r => r.name = v && r.kind = VKind.delta)).map VRec.payload

/-- JS truthiness of a looked-up string: present and non-empty. -/
def truthy : Option Str → Bool
  | some s => !s.isEmpty
  | none => false

/-- JS `split('\n')`. -/
def splitNl : Str → List Str
  | [] => [[]]
  | c :: rest =>
    if c = '\n' then [] :: splitNl rest
    else
      match splitNl rest with
      | l :: ls => (c :: l) :: ls
      | [] => [[c]]

/-- One line of `parseStorage`: the snapshot branch for lines starting with
`:`, otherwise the delta branch; `none` models the `continue` skips. -/
def parseLine (line : Str) : Option VRec :=
  if line.head? = some ':' then
    let withoutColon := line.drop 1
    match idxOf withoutColon ':' with
    | none => none
    | some firstColon =>
      match parseIntJS (substringJS withoutColon 0 (firstColon : Int)) with
      | none => none
      | some len =>
        let versionName :=
          substringJS withoutColon ((firstColon : Int) + 1) ((firstColon : Int) + 1 + len)
        let remainingPart := substringFromJS withoutColon ((firstColon : Int) + 1 + len)
        if remainingPart.head? = some ':' then
          some ⟨versionName, VKind.snap, unescapeString (remainingPart.drop 1)⟩
        else none
  else
    match idxOf line ':' with
    | none => none
    | some firstColon =>
      match parseIntJS (substringJS line 0 (firstColon : Int)) with
      | none => none
      | some len =>
        let versionName :=
          substringJS line ((firstColon : Int) + 1) ((firstColon : Int) + 1 + len)
        let remainingPart := substringFromJS line ((firstColon : Int) + 1 + len)
        if remainingPart.head? = some ':' then
          some ⟨versionName, VKind.delta, unescapeString (remainingPart.drop 1)⟩
        else none

/-- `parseStorage` of the source: empty for whitespace-only storage, else
split into lines, drop blank lines, parse each line, skipping malformed
ones. -/
def parseStorage (storage : Str) : List VRec :=
  if storage.all Char.isWhitespace then []
  else
    ((splitNl storage).filter (fun l => l.any (fun c => !c.isWhitespace))).filterMap parseLine

/-- The serialized line of one record, or `none` when the payload is falsy
(empty) and the record is silently dropped by `serializeStorage`. -/
def serLine (r : VRec) : Option Str :=
  match r.kind with
  | VKind.snap =>
    if r.payload.isEmpty then none
    else some (':' :: natToStr r.name.length ++ ':' :: r.name ++ ':' :: escapeString r.payload)
  | VKind.delta =>
    if r.payload.isEmpty then none
    else some (natToStr r.name.length ++ ':' :: r.name ++ ':' :: escapeString r.payload)

/-- `serializeStorage` of the source: one line per version with a truthy
snapshot or delta entry, joined by newlines. -/
def serializeStorage (recs : List VRec) : Str :=
  List.intercalate ['\n'] (recs.filterMap serLine)

theorem splitNl_ne_nil : ∀ s : Str, splitNl s ≠ []
  | [] => by simp [splitNl]
  | c :: rest => by
    unfold splitNl
    by_cases h : c = '\n'
    · rw [if_pos h]; simp
    · rw [if_neg h]
      cases hs : splitNl rest with
      | nil => simp
      | cons l ls => simp

theorem splitNl_no_nl : ∀ s : Str, '\n' ∉ s → splitNl s = [s]
  | [], _ => rfl
  | c :: rest, h => by
    unfold splitNl
    have hc : c ≠ '\n' := fun hc => h (hc ▸ List.mem_cons_self c rest)
    rw [if_neg hc, splitNl_no_nl rest (fun hm => h (List.mem_cons_of_mem c hm))]

theorem splitNl_append_nl : ∀ (l : Str), '\n' ∉ l → ∀ t : Str,
    splitNl (l ++ '\n' :: t) = l :: splitNl t
  | [], _, t => by
    show splitNl ('\n' :: t) = [] :: splitNl t
    rw [splitNl.eq_def]
    simp
  | c :: l', h, t => by
    show splitNl (c :: (l' ++ '\n' :: t)) = (c :: l') :: splitNl t
    have hc : c ≠ '\n' := fun hc => h (hc ▸ List.mem_cons_self c l')
    rw [splitNl.eq_def]
    simp only [if_neg hc]
    rw [splitNl_append_nl l' (fun hm => h (List.mem_cons_of_mem c hm)) t]

theorem intercalate_nl_cons (a : Str) (rest : List Str) (hrest : rest ≠ []) :
    List.intercalate ['\n'] (a :: rest) = a ++ '\n' :: List.intercalate ['\n'] rest := by
  cases rest with
  | nil => exact absurd rfl hrest
  | cons b t =>
    show List.intercalate ['\n'] (a :: b :: t) = _
    unfold List.intercalate
    rw [List.intersperse_cons_cons]
    simp

theorem splitNl_intercalate : ∀ (lines : List Str), (∀ l ∈ lines, '\n' ∉ l) →
    lines ≠ [] → splitNl (List.intercalate ['\n'] lines) = lines
  | [], _, h => absurd rfl h
  | [l], hl, _ => by
    have : List.intercalate ['\n'] [l] = l := by
      unfold List.intercalate
      simp
    rw [this, splitNl_no_nl l (hl l (List.mem_cons_self l []))]
  | l :: l2 :: t, hl, _ => by
    rw [intercalate_nl_cons l (l2 :: t) (by simp),
      splitNl_append_nl l (hl l (List.mem_cons_self l (l2 :: t))),
      splitNl_intercalate (l2 :: t) (fun x hx => hl x (List.mem_cons_of_mem l hx)) (by simp)]

/-- The body of a serialized record line: `nameLen:name:escapedPayload`. -/
def recLine (nm p : Str) : Str :=
  natToStr nm.length ++ ':' :: nm ++ ':' :: escapeString p

theorem recLine_slices (nm p : Str) :
    idxOf (recLine nm p) ':' = some (natToStr nm.length).length ∧
      substringJS (recLine nm p) 0 (((natToStr nm.length).length : Nat) : Int)
        = natToStr nm.length ∧
      substringJS (recLine nm p) ((((natToStr nm.length).length : Nat) : Int) + 1)
        ((((natToStr nm.length).length : Nat) : Int) + 1 + ((nm.length : Nat) : Int)) = nm ∧
      substringFromJS (recLine nm p)
        ((((natToStr nm.length).length : Nat) : Int) + 1 + ((nm.length : Nat) : Int))
        = ':' :: escapeString p := by
  set pre := natToStr nm.length with hpre
  set fc := pre.length with hfc
  set esc := escapeString p with hesc
  have hpcolon : ∀ c ∈ pre, c ≠ ':' :=
    fun c hc => (digitChar_facts (natToStr_mem_digitChars nm.length c hc)).2.2.2.1
  have hL : recLine nm p = pre ++ ':' :: (nm ++ ':' :: esc) := by
    unfold recLine
    rw [← hpre, ← hesc]
    simp [List.append_assoc]
  have hlen : (recLine nm p).length = fc + 1 + nm.length + 1 + esc.length := by
    rw [hL]
    simp [List.length_append]
    omega
  refine ⟨?_, ?_, ?_, ?_⟩
  · rw [hL]
    exact idxOf_append pre hpcolon (nm ++ ':' :: esc)
  · have h := substringJS_nat (recLine nm p) 0 fc (Nat.zero_le fc) (by omega)
    simpa using h.trans (by
      rw [List.drop_zero, hL]
      exact List.take_left' (by rw [hfc]))
  · have hc1 : (((fc : Nat) : Int) + 1) = (((fc + 1 : Nat) : Nat) : Int) := by push_cast; ring
    have hc2 : (((fc : Nat) : Int) + 1 + ((nm.length : Nat) : Int))
        = (((fc + 1 + nm.length : Nat) : Nat) : Int) := by push_cast; ring
    rw [hc2, hc1]
    rw [substringJS_nat (recLine nm p) (fc + 1) (fc + 1 + nm.length) (by omega) (by omega)]
    have htake : (recLine nm p).take (fc + 1 + nm.length) = (pre ++ [':']) ++ nm := by
      have hshape : recLine nm p = ((pre ++ [':']) ++ nm) ++ ':' :: esc := by
        rw [hL]
        simp
      rw [hshape]
      refine List.take_left' ?_
      simp [List.length_append]
      omega
    rw [htake]
    refine List.drop_left' ?_
    simp
  · have hc2 : (((fc : Nat) : Int) + 1 + ((nm.length : Nat) : Int))
        = (((fc + 1 + nm.length : Nat) : Nat) : Int) := by push_cast; ring
    rw [hc2]
    rw [substringFromJS_nat (recLine nm p) (fc + 1 + nm.length) (by omega)]
    have hshape : recLine nm p = ((pre ++ [':']) ++ nm) ++ ':' :: esc := by
      rw [hL]
      simp
    rw [hshape]
    refine List.drop_left' ?_
    simp [List.length_append]
    omega

theorem recLine_head (nm p : Str) :
    ∃ c rest, recLine nm p = c :: rest ∧ c ∈ digitChars := by
  unfold recLine
  cases hq : natToStr nm.length with
  | nil => exact absurd hq (natToStr_ne_nil _)
  | cons c r =>
    refine ⟨c, r ++ ':' :: nm ++ ':' :: escapeString p, by simp, ?_⟩
    exact natToStr_mem_digitChars nm.length c (by rw [hq]; exact List.mem_cons_self c r)

theorem parseLine_recLine_delta (nm p : Str) :
    parseLine (recLine nm p) = some ⟨nm, VKind.delta, unescapeString (escapeString p)⟩ := by
  obtain ⟨hidx, hs0, hs1, hs2⟩ := recLine_slices nm p
  obtain ⟨c, rest, hcr, hcd⟩ := recLine_head nm p
  have hhead : (recLine nm p).head? ≠ some ':' := by
    rw [hcr]
    simp only [List.head?_cons, Option.some.injEq]
    intro h
    exact (digitChar_facts hcd).2.2.2.1 (Option.some.inj h)
  unfold parseLine
  rw [if_neg hhead]
  simp only [hidx, hs0, parseIntJS_natToStr, hs1, hs2]
  simp

theorem parseLine_recLine_snap (nm p : Str) :
    parseLine (':' :: recLine nm p)
      = some ⟨nm, VKind.snap, unescapeString (escapeString p)⟩ := by
  obtain ⟨hidx, hs0, hs1, hs2⟩ := recLine_slices nm p
  unfold parseLine
  rw [if_pos (by simp)]
  simp only [List.drop_one, List.tail_cons]
  simp only [hidx, hs0, parseIntJS_natToStr, hs1, hs2]
  simp

/-- The line a record serializes to (when its payload is truthy). -/
def lineOf (r : VRec) : Str :=
  match r.kind with
  | VKind.snap => ':' :: recLine r.name r.payload
  | VKind.delta => recLine r.name r.payload

/-- What a record becomes after one serialize-parse round trip: the payload
goes through escape-then-unescape. -/
def mangle (r : VRec) : VRec :=
  ⟨r.name, r.kind, unescapeString (escapeString r.payload)⟩

theorem serLine_eq (r : VRec) :
    serLine r = if r.payload.isEmpty then none else some (lineOf r) := by
  rcases r with ⟨nm, k, p⟩
  cases k <;> rfl

theorem parseLine_lineOf (r : VRec) : parseLine (lineOf r) = some (mangle r) := by
  rcases r with ⟨nm, k, p⟩
  cases k
  · exact parseLine_recLine_snap nm p
  · exact parseLine_recLine_delta nm p

theorem not_nl_mem_recLine {nm : Str} (p : Str) (hnm : '\n' ∉ nm) :
    '\n' ∉ recLine nm p := by
  unfold recLine
  intro hmem
  rcases List.mem_append.mp hmem with h1 | h2
  · rcases List.mem_append.mp h1 with ha | hb
    · exact (digitChar_facts
        (natToStr_mem_digitChars nm.length '\n' ha)).2.2.2.2.2.1 rfl
    · rcases List.mem_cons.mp hb with he | hn
      · exact absurd he (by decide)
      · exact hnm hn
  · rcases List.mem_cons.mp h2 with he | hesc
    · exact absurd he (by decide)
    · exact not_mem_escapeString_nl p hesc

theorem not_nl_mem_lineOf {r : VRec} (hnm : '\n' ∉ r.name) : '\n' ∉ lineOf r := by
  rcases r with ⟨nm, k, p⟩
  cases k
  · intro hmem
    rcases List.mem_cons.mp hmem with h | h
    · exact absurd h (by decide)
    · exact not_nl_mem_recLine p hnm h
  · exact not_nl_mem_recLine p hnm

theorem lineOf_head (r : VRec) :
    ∃ c rest, lineOf r = c :: rest ∧ (c = ':' ∨ c ∈ digitChars) := by
  rcases r with ⟨nm, k, p⟩
  cases k
  · exact ⟨':', recLine nm p, rfl, Or.inl rfl⟩
  · obtain ⟨c, rest, hcr, hcd⟩ := recLine_head nm p
    exact ⟨c, rest, hcr, Or.inr hcd⟩

theorem lineOf_nonws (r : VRec) :
    (lineOf r).any (fun c => !c.isWhitespace) = true := by
  obtain ⟨c, rest, hcr, hc⟩ := lineOf_head r
  rw [hcr]
  simp only [List.any_cons, Bool.or_eq_true]
  left
  rcases hc with rfl | hc
  · decide
  · rw [(digitChar_facts hc).1]
    rfl

theorem filterMap_serLine (recs : List VRec) :
    recs.filterMap serLine
      = (recs.filter (fun r => !r.payload.isEmpty)).map lineOf := by
  induction recs with
  | nil => rfl
  | cons r t ih =>
    cases hp : r.payload.isEmpty
    · simp [List.filterMap_cons, List.filter_cons, serLine_eq, hp, ih]
    · simp [List.filterMap_cons, List.filter_cons, serLine_eq, hp, ih]

theorem mem_intercalate_first {l : Str} {ls : List Str} {c : Char} (hc : c ∈ l) :
    c ∈ List.intercalate ['\n'] (l :: ls) := by
  cases ls with
  | nil =>
    have : List.intercalate ['\n'] [l] = l := by
      unfold List.intercalate
      simp
    rw [this]
    exact hc
  | cons b t =>
    rw [intercalate_nl_cons l (b :: t) (by simp)]
    exact List.mem_append.mpr (Or.inl hc)

theorem filterMap_all_some {a b : Type} (f : a → Option b) (g : a → b)
    (h : ∀ x, f x = some (g x)) : ∀ l : List a, l.filterMap f = l.map g
  | [] => rfl
  | x :: t => by
    rw [List.filterMap_cons, h x, List.map_cons, filterMap_all_some f g h t]

theorem parseStorage_mapLines (frecs : List VRec)
    (hnm : ∀ r ∈ frecs, '\n' ∉ r.name) :
    parseStorage (List.intercalate ['\n'] (frecs.map lineOf)) = frecs.map mangle := by
  cases frecs with
  | nil => rfl
  | cons r0 rt =>
    rw [List.map_cons]
    unfold parseStorage
    obtain ⟨c0, rest0, hcr0, hc0⟩ := lineOf_head r0
    have hc0ws : c0.isWhitespace = false := by
      rcases hc0 with rfl | hc0
      · rfl
      · exact (digitChar_facts hc0).1
    have hnotall : ¬ (List.intercalate ['\n'] (lineOf r0 :: rt.map lineOf)).all
        Char.isWhitespace = true := by
      intro hall
      have hc0mem : c0 ∈ List.intercalate ['\n'] (lineOf r0 :: rt.map lineOf) :=
        mem_intercalate_first (by rw [hcr0]; exact List.mem_cons_self c0 rest0)
      have := List.all_eq_true.mp hall c0 hc0mem
      rw [hc0ws] at this
      exact Bool.false_ne_true this
    rw [if_neg hnotall]
    have hnl : ∀ l ∈ lineOf r0 :: rt.map lineOf, '\n' ∉ l := by
      intro l hl
      rcases List.mem_cons.mp hl with rfl | hl
      · exact not_nl_mem_lineOf (hnm r0 (List.mem_cons_self r0 rt))
      · rcases List.mem_map.mp hl with ⟨r, hrmem, rfl⟩
        exact not_nl_mem_lineOf (hnm r (List.mem_cons_of_mem r0 hrmem))
    rw [splitNl_intercalate (lineOf r0 :: rt.map lineOf) hnl (by simp)]
    have hkeep : (lineOf r0 :: rt.map lineOf).filter
        (fun l => l.any (fun c => !c.isWhitespace)) = lineOf r0 :: rt.map lineOf := by
      refine List.filter_eq_self.mpr ?_
      intro l hl
      rcases List.mem_cons.mp hl with rfl | hl
      · exact lineOf_nonws r0
      · rcases List.mem_map.mp hl with ⟨r, _, rfl⟩
        exact lineOf_nonws r
    rw [hkeep, ← List.map_cons, List.filterMap_map]
    exact filterMap_all_some (parseLine ∘ lineOf) mangle
      (fun r => parseLine_lineOf r) (r0 :: rt)

/-- Structural round trip of the record codec: serializing then parsing
keeps exactly the records with truthy payloads, in order, with each payload
replaced by its escape-unescape image (names and kinds survive exactly,
provided no name contains a newline). -/
theorem parseStorage_serializeStorage (recs : List VRec)
    (hnm : ∀ r ∈ recs, '\n' ∉ r.name) :
    parseStorage (serializeStorage recs)
      = ((recs.filter (fun r => !r.payload.isEmpty)).map mangle) := by
  unfold serializeStorage
  rw [filterMap_serLine]
  exact parseStorage_mapLines _ (fun r hr => hnm r (List.mem_of_mem_filter hr))

/-- C3 counterexample: the record codec does not round-trip on every list
of well-formed records.  A single snapshot record whose text is the
two-character string backslash-`n` comes back with its payload changed to
backslash-newline by the escape defect. -/
theorem c3_cex :
    parseStorage (serializeStorage [⟨['v', '1'], VKind.snap, ['\\', 'n']⟩])
      ≠ [⟨['v', '1'], VKind.snap, ['\\', 'n']⟩] := by
  decide

/-- Exact round trip (shared helper): with newline-free names and
non-empty escape-safe payloads, parse inverts serialize record-for-record. -/
theorem roundtrip_exact (recs : List VRec)
    (hnm : ∀ r ∈ recs, '\n' ∉ r.name)
    (hp : ∀ r ∈ recs, r.payload ≠ [] ∧ noEsc r.payload) :
    parseStorage (serializeStorage recs) = recs := by
  rw [parseStorage_serializeStorage recs hnm]
  have hfilter : recs.filter (fun r => !r.payload.isEmpty) = recs := by
    refine List.filter_eq_self.mpr ?_
    intro r hr
    have := (hp r hr).1
    simp only [Bool.not_eq_true', List.isEmpty_eq_false]
    exact this
  rw [hfilter]
  have hmangle : ∀ r ∈ recs, mangle r = r := by
    intro r hr
    unfold mangle
    rw [unescape_escape_of_noEsc r.payload (hp r hr).2]
  calc recs.map mangle = recs.map id := List.map_congr_left hmangle
    _ = recs := List.map_id recs

/-- C3 (amended): the record codec round-trips exactly — content-equal and
order-preserved — on every record list whose names are unique and
newline-free and whose payloads are non-empty and escape-safe. -/
theorem c3_roundtrip (recs : List VRec)
    (hdup : (recs.map VRec.name).Nodup)
    (hnm : ∀ r ∈ recs, '\n' ∉ r.name)
    (hp : ∀ r ∈ recs, r.payload ≠ [] ∧ noEsc r.payload) :
    parseStorage (serializeStorage recs) = recs :=
  roundtrip_exact recs hnm hp

theorem c3_roundtrip_witness :
    (([⟨['v'], VKind.snap, ['A', '\n', 'B']⟩,
        ⟨['w'], VKind.delta, ['R', '1', 'I', '1', ':', 'x']⟩] : List VRec).map
          VRec.name).Nodup ∧
      parseStorage (serializeStorage
        [⟨['v'], VKind.snap, ['A', '\n', 'B']⟩,
          ⟨['w'], VKind.delta, ['R', '1', 'I', '1', ':', 'x']⟩])
        = [⟨['v'], VKind.snap, ['A', '\n', 'B']⟩,
            ⟨['w'], VKind.delta, ['R', '1', 'I', '1', ':', 'x']⟩] :=
  ⟨by decide, c3_roundtrip _ (by decide) (by decide)
    (by intro r hr; refine ⟨?_, ?_⟩ <;> fin_cases hr <;> decide)⟩

/-- Edit-script operations (`DiffOperation` of the source).  Retain/delete
lengths are `Option Nat`: `none` models the `NaN` that `parseInt` produces
on a missing length field and that the source stores without complaint. -/
inductive DiffOp where
  | retain : Option Nat → DiffOp
  | delete : Option Nat → DiffOp
  | insert : Str → DiffOp
deriving DecidableEq

/-- JS template rendering of a retain/delete length (`NaN` prints as
`NaN`). -/
def numToStr : Option Nat → Str
  | some n => natToStr n
  | none => ['N', 'a', 'N']

def encodeOp : DiffOp → Str
  | DiffOp.retain len => 'R' :: numToStr len
  | DiffOp.delete len => 'D' :: numToStr len
  | DiffOp.insert t => 'I' :: natToStr t.length ++ ':' :: t

def isRetain : DiffOp → Bool
  | DiffOp.retain _ => true
  | _ => false

/-- The `while (... last is retain) pop()` loop of `encodeDiff`. -/
def dropTrailingRetains (ops : List DiffOp) : List DiffOp :=
  (ops.reverse.dropWhile isRetain).reverse

/-- `encodeDiff`: trailing retains omitted, then each op rendered as
`R<n>`, `D<n>` or `I<len>:<text>`. -/
def encodeDiff (ops : List DiffOp) : Str :=
  (dropTrailingRetains ops).flatMap encodeOp

/-- The scanning loop of `decodeDiff`, carried as (consumed, remaining)
instead of an index.  `done` is everything before the cursor — needed
because a malformed insert length makes JS slice `substring(0, i)` or run
the cursor backwards.  Fueled: on the backward-running pathological inputs
(never produced by `encodeDiff`) the JS loop may not terminate at all;
there the model returns after exhausting fuel. -/
def decodeGo : Nat → Str → Str → List DiffOp
  | 0, _, _ => []
  | _ + 1, _, [] => []
  | fuel + 1, done, c :: rest =>
    if c = 'R' ∨ c = 'D' then
      let digits := rest.takeWhile Char.isDigit
      let rest' := rest.dropWhile Char.isDigit
      let len := digitsVal digits
      (if c = 'R' then DiffOp.retain len else DiffOp.delete len)
        :: decodeGo fuel (done ++ c :: digits) rest'
    else if c = 'I' then
      let lstr := rest.takeWhile (fun d => d ≠ ':')
      let afterL := rest.dropWhile (fun d => d ≠ ':')
      let consumed := done ++ c :: (lstr ++ afterL.take 1)
      let rem := afterL.drop 1
      match parseIntJS lstr with
      | none => [DiffOp.insert consumed]
      | some len =>
        if len < 0 then
          let pos := ((consumed.length : Int) + len).toNat
          DiffOp.insert (consumed.drop pos)
            :: decodeGo fuel (consumed.take pos) (consumed.drop pos ++ rem)
        else
          DiffOp.insert (rem.take len.toNat)
            :: decodeGo fuel (consumed ++ rem.take len.toNat) (rem.drop len.toNat)
    else
      decodeGo fuel (done ++ [c]) rest

/-- `decodeDiff` of the source.  It never reports an error: unknown tags
are skipped one character at a time and malformed lengths become `NaN`
operations. -/
def decodeDiff (encoded : Str) : List DiffOp :=
  decodeGo (encoded.length + 1) [] encoded

/-- `NaN`-respecting cursor value for `substring` (`NaN` clamps to 0). -/
def onat : Option Nat → Nat
  | some n => n
  | none => 0

/-- `substring` with possibly-`NaN` endpoints as used by `applyDiff`. -/
def substringO (s : Str) (a b : Option Nat) : Str :=
  let av := min (onat a) s.length
  let bv := min (onat b) s.length
  (s.take (max av bv)).drop (min av bv)

/-- `NaN`-absorbing addition of cursor and length. -/
def addO : Option Nat → Option Nat → Option Nat
  | some a, some b => some (a + b)
  | _, _ => none

def applyDiffGo (text : Str) : Str → Option Nat → List DiffOp → Str
  | acc, cur, [] =>
    match cur with
    | some i => if i < text.length then acc ++ text.drop i else acc
    | none => acc
  | acc, cur, op :: rest =>
    match op with
    | DiffOp.retain len =>
      applyDiffGo text (acc ++ substringO text cur (addO cur len)) (addO cur len) rest
    | DiffOp.delete len => applyDiffGo text acc (addO cur len) rest
    | DiffOp.insert t => applyDiffGo text (acc ++ t) cur rest

/-- `applyDiff` of the source: walk the base text with a cursor, then
append any unconsumed suffix (the omitted-trailing-retain convention). -/
def applyDiff (text : Str) (operations : List DiffOp) : Str :=
  applyDiffGo text [] (some 0) operations

/-- `optimizeSimpleOperations`: drop empty operations (JS truthiness on the
length/text fields). -/
def optimizeSimpleOperations (operations : List DiffOp) : List DiffOp :=
  operations.filter (fun op =>
    match op with
    | DiffOp.retain len =>
      match len with
      | some n => decide (0 < n)
      | none => false
    | DiffOp.delete len =>
      match len with
      | some n => decide (0 < n)
      | none => false
    | DiffOp.insert t => !t.isEmpty)

/-- `convertDmpDiffsToOperations`: map the provider's (op, text) pairs onto
retain/delete/insert, dropping empty parts, then optimize. -/
def convertDmpDiffsToOperations (diffs : List (Int × Str)) : List DiffOp :=
  optimizeSimpleOperations (diffs.flatMap (fun pr =>
    if pr.1 = 0 then
      (if 0 < pr.2.length then [DiffOp.retain (some pr.2.length)] else [])
    else if pr.1 = -1 then
      (if 0 < pr.2.length then [DiffOp.delete (some pr.2.length)] else [])
    else if pr.1 = 1 then
      (if 0 < pr.2.length then [DiffOp.insert pr.2] else [])
    else []))

/-- `calculateDiff`: the three degenerate direct paths, else the external
provider (`diff_main` plus `diff_cleanupSemantic`, abstracted as `dmp`). -/
def calculateDiff (dmp : Str → Str → List (Int × Str)) (oldText newText : Str) :
    List DiffOp :=
  if oldText = newText then
    (if 0 < oldText.length then [DiffOp.retain (some oldText.length)] else [])
  else if oldText.length = 0 then
    (if 0 < newText.length then [DiffOp.insert newText] else [])
  else if newText.length = 0 then [DiffOp.delete (some oldText.length)]
  else convertDmpDiffsToOperations (dmp oldText newText)

/-- Concatenation of the provider's equal and delete parts (what the diff
claims the old text was). -/
def oldParts (diffs : List (Int × Str)) : Str :=
  (diffs.filterMap (fun pr =>
    if pr.1 = 0 ∨ pr.1 = -1 then some pr.2 else none)).flatten

/-- Concatenation of the provider's equal and insert parts (what the diff
claims the new text is). -/
def newParts (diffs : List (Int × Str)) : Str :=
  (diffs.filterMap (fun pr =>
    if pr.1 = 0 ∨ pr.1 = 1 then some pr.2 else none)).flatten

/-- Contract of the external LCS diff provider (spec §4.3): on the inputs
the engine actually passes it (distinct non-empty texts), its equal/delete
parts reassemble the old text and its equal/insert parts the new text. -/
def DmpValid (dmp : Str → Str → List (Int × Str)) : Prop :=
  ∀ a b : Str, a ≠ b → a ≠ [] → b ≠ [] →
    oldParts (dmp a b) = a ∧ newParts (dmp a b) = b

/-- A trivially correct provider (delete everything, insert everything),
used to instantiate witnesses. -/
def dmpTrivial : Str → Str → List (Int × Str) := fun a b => [(-1, a), (1, b)]

theorem dmpTrivial_valid : DmpValid dmpTrivial := by
  intro a b _ _ _
  constructor
  · show ([(-1, a), (1, b)].filterMap (fun pr =>
      if pr.1 = 0 ∨ pr.1 = -1 then some pr.2 else none)).flatten = a
    simp [List.filterMap_cons]
  · show ([(-1, a), (1, b)].filterMap (fun pr =>
      if pr.1 = 0 ∨ pr.1 = 1 then some pr.2 else none)).flatten = b
    simp [List.filterMap_cons]

/-- C4: the decoder never reports a format error.  An unrecognized tag is
silently skipped (one character at a time) and a missing length field
silently becomes a `NaN` operation, so decoding always produces an
operation list; the spec requires a hard decode failure on both inputs. -/
theorem c4_decode_never_fails :
    decodeDiff ['X'] = [] ∧
      decodeDiff ['R'] = [DiffOp.retain none] ∧
      decodeDiff ['X', 'R', '2'] = [DiffOp.retain (some 2)] := by
  decide

/-- `Array.prototype.indexOf` on the version list. -/
def indexOfName (versions : List Str) (v : Str) : Option Nat :=
  List.findIdx? (fun x => x = v) versions

/-- The backward scan of `getVersionText` for the nearest *truthy* snapshot
at or below index `i` (an empty-payload snapshot is skipped by the JS
truthiness test). -/
def findSnapDown (recs : List VRec) (versions : List Str) : Nat → Option (Nat × Str)
  | 0 =>
    match versions.get? 0 with
    | some v =>
      if truthy (snapLookup recs v) then some (0, (snapLookup recs v).getD []) else none
    | none => none
  | i + 1 =>
    match versions.get? (i + 1) with
    | some v =>
      if truthy (snapLookup recs v) then some (i + 1, (snapLookup recs v).getD [])
      else findSnapDown recs versions i
    | none => findSnapDown recs versions i

/-- The forward replay loop of `getVersionText`: starting at index `lo`,
apply `count` records' delta payloads in order, skipping any record whose
delta payload is falsy or contains `=`. -/
def replayLoop (recs : List VRec) (versions : List Str) : Str → Nat → Nat → Str
  | cur, _, 0 => cur
  | cur, lo, count + 1 =>
    let next :=
      match versions.get? lo with
      | some v =>
        match deltaLookup recs v with
        | some p => if ¬p.isEmpty ∧ '=' ∉ p then applyDiff cur (decodeDiff p) else cur
        | none => cur
      | none => cur
    replayLoop recs versions next (lo + 1) count

/-- The snapshot-then-flat-replay fallback path of `getVersionText`. -/
def replayPath (recs : List VRec) (version : Str) : Option Str :=
  let versions := namesOf recs
  match indexOfName versions version with
  | none => none
  | some vi =>
    match findSnapDown recs versions vi with
    | some (bi, btext) => some (replayLoop recs versions btext (bi + 1) (vi - bi))
    | none => some (replayLoop recs versions [] 0 (vi + 1))

/-- `getVersionText` of the source, fueled for the recursion through
reference targets.  References created by the engine always point backwards,
so `recs.length + 1` fuel is exact for every storage the engine builds; on
hand-crafted forward/cyclic reference chains the JS recursion would not
terminate, and the model returns `none` instead. -/
def resolveFuel : Nat → List VRec → Str → Option Str
  | 0, _, _ => none
  | fuel + 1, recs, version =>
    if version ∈ namesOf recs then
      let snapv := snapLookup recs version
      if truthy snapv then snapv
      else
        let deltav := deltaLookup recs version
        let p := deltav.getD []
        if truthy deltav = true ∧ '=' ∈ p then
          match idxOf p '=' with
          | some 0 =>
            (match idxOfFrom p ':' 1 with
             | some ci =>
               let referencedVersion := substringJS p 1 (ci : Int)
               let diffOperations := substringFromJS p ((ci : Int) + 1)
               let baseText := (resolveFuel fuel recs referencedVersion).getD []
               some (applyDiff baseText (decodeDiff diffOperations))
             | none => resolveFuel fuel recs (substringFromJS p 1))
          | _ => replayPath recs version
        else replayPath recs version
    else none

def getVersionText (recs : List VRec) (version : Str) : Option Str :=
  resolveFuel (recs.length + 1) recs version

-- ### public operations (no compression provider: decompress = id)

def showVersion (storage : Str) (version : Str) : Option Str :=
  getVersionText (parseStorage storage) version

def logVersions (storage : Str) : List (Str × Bool) :=
  let recs := parseStorage storage
  (namesOf recs).map (fun v => (v, truthy (snapLookup recs v)))

def latest (storage : Str) : Str :=
  let recs := parseStorage storage
  if recs.length = 0 then []
  else (getVersionText recs ((namesOf recs).getLast?.getD [])).getD []

def reset (storage : Str) (targetVersion : Str) : Option Str :=
  let recs := parseStorage storage
  match indexOfName (namesOf recs) targetVersion with
  | none => none
  | some targetIndex => some (serializeStorage (recs.take (targetIndex + 1)))

def squash (storage : Str) (targetVersion : Str) : Option Str :=
  let recs := parseStorage storage
  match indexOfName (namesOf recs) targetVersion with
  | none => none
  | some targetIndex =>
    match getVersionText recs targetVersion with
    | none => none
    | some targetText =>
      some (serializeStorage
        (⟨targetVersion, VKind.snap, targetText⟩ :: recs.drop (targetIndex + 1)))

/-- Polynomial rolling hash of `generateHash`, with the `((h << 5) - h) +
c` step truncated to a signed 32-bit integer exactly as JS `<<` and `&`
do. -/
def toInt32 (n : Int) : Int :=
  let m := n % 4294967296
  if m ≥ 2147483648 then m - 4294967296 else m

def hashStep (h : Int) (c : Char) : Int :=
  toInt32 (toInt32 (h * 32) - h + (c.toNat : Int))

def b36digit (d : Nat) : Char :=
  if d < 10 then Char.ofNat (48 + d) else Char.ofNat (87 + d)

def base36Go : Nat → Nat → Str
  | 0, _ => []
  | fuel + 1, n =>
    if n < 36 then [b36digit n] else base36Go fuel (n / 36) ++ [b36digit (n % 36)]

/-- JS `Math.abs(hash).toString(36)`. -/
def natBase36 (n : Nat) : Str := base36Go (n + 1) n

def generateHash (text : Str) : Str := natBase36 ((text.foldl hashStep 0).natAbs)

/-- The `#`-suffixing loop of `resolveVersionName`, fueled (the candidates
have strictly increasing lengths, so at most `existing.length` of them can
collide and the fuel is never exhausted). -/
def resolveNameGo (existing : List Str) : Nat → Str → Str
  | 0, cand => cand
  | fuel + 1, cand =>
    if cand ∈ existing then resolveNameGo existing fuel (cand ++ ['#']) else cand

def resolveVersionName (existing : List Str) (proposed : Str) : Str :=
  if proposed ∈ existing then
    resolveNameGo existing (existing.length + 1) (proposed ++ ['#'])
  else proposed

/-- The version name `commit` actually assigns: the given name when truthy,
else the content hash, both deduplicated with `#` suffixes. -/
def assignedName (recs : List VRec) (text : Str) (version : Option Str) : Str :=
  match version with
  | some v =>
    if ¬v.isEmpty then resolveVersionName (namesOf recs) v
    else resolveVersionName (namesOf recs) (generateHash text)
  | none => resolveVersionName (namesOf recs) (generateHash text)

/-- The dedup scan of `commit`: the first (oldest) existing version whose
resolved text equals the new text. -/
def findDupe (recs : List VRec) (text : Str) : Option Str :=
  (namesOf recs).find? (fun v => decide (getVersionText recs v = some text))

/-- Stable insertion sort by serialized length, modelling
`Array.prototype.sort((a, b) => a.length - b.length)` (stable per the
ECMAScript spec; ties keep insertion order). -/
def insertByLen (x : Str × Nat) : List (Str × Nat) → List (Str × Nat)
  | [] => [x]
  | y :: ys => if x.2 ≤ y.2 then x :: y :: ys else y :: insertByLen x ys

def sortByLen : List (Str × Nat) → List (Str × Nat)
  | [] => []
  | x :: xs => insertByLen x (sortByLen xs)

/-- The candidate list of `findBestDiffOption`, in computation order:
the delta against the immediate predecessor first (when one exists), then
one hybrid per strictly earlier version, in ascending position order.  The
`length` component is the serialized line length
`nameLen:name:escapedContent` that the source compares. -/
def diffCandidates (dmp : Str → Str → List (Int × Str)) (oldRecs : List VRec)
    (text versionName : Str) : List (Str × Nat) :=
  let option1 : List (Str × Nat) :=
    if 0 < oldRecs.length then
      let latestVersion := (namesOf oldRecs).getLast?.getD []
      let latestText := (getVersionText oldRecs latestVersion).getD []
      let diffContent := encodeDiff (calculateDiff dmp latestText text)
      [(diffContent, (recLine versionName diffContent).length)]
    else []
  let hybrids := (namesOf oldRecs).dropLast.map (fun baseVersion =>
    let baseText := (getVersionText oldRecs baseVersion).getD []
    let diffContent := encodeDiff (calculateDiff dmp baseText text)
    let hybridContent := '=' :: baseVersion ++ ':' :: diffContent
    (hybridContent, (recLine versionName hybridContent).length))
  option1 ++ hybrids

/-- `findBestDiffOption`: sort the candidates by serialized length (stable)
and take the first.  `oldRecs` is the storage before the new version; the
source passes `parsedData` with the new name already pushed but the maps
untouched, which this signature captures. -/
def findBestDiffOption (dmp : Str → Str → List (Int × Str)) (oldRecs : List VRec)
    (text versionName : Str) : Option Str :=
  ((sortByLen (diffCandidates dmp oldRecs text versionName)).head?).map Prod.fst

/-- `commit` of the source (without compression provider). -/
def commit (dmp : Str → Str → List (Int × Str)) (storage : Str) (text : Str)
    (version : Option Str) : Str :=
  let recs := parseStorage storage
  let versionName := assignedName recs text version
  match findDupe recs text with
  | some existingVersion =>
    serializeStorage (recs ++ [⟨versionName, VKind.delta, '=' :: existingVersion⟩])
  | none =>
    if recs.length = 0 then
      serializeStorage (recs ++ [⟨versionName, VKind.snap, text⟩])
    else
      let best := (findBestDiffOption dmp recs text versionName).getD []
      serializeStorage (recs ++ [⟨versionName, VKind.delta, best⟩])

/-- Well-formed record: newline-free name, truthy escape-safe payload. -/
def WFRec (r : VRec) : Prop := '\n' ∉ r.name ∧ r.payload ≠ [] ∧ noEsc r.payload

/-- Well-formed storage: unique names, all records well-formed. -/
def WFStore (recs : List VRec) : Prop :=
  (recs.map VRec.name).Nodup ∧ ∀ r ∈ recs, WFRec r

theorem roundtrip_of_wf {recs : List VRec} (h : WFStore recs) :
    parseStorage (serializeStorage recs) = recs :=
  roundtrip_exact recs (fun r hr => (h.2 r hr).1) (fun r hr => (h.2 r hr).2)

theorem resolveFuel_not_mem {recs : List VRec} {v : Str}
    (hv : v ∉ namesOf recs) : ∀ fuel, resolveFuel fuel recs v = none
  | 0 => rfl
  | fuel + 1 => by
    unfold resolveFuel
    rw [if_neg hv]

/-- First-match lookups on a store with unique names: a member record is
found under its own name with its own kind, and nothing is found under its
name with the other kind. -/
theorem lookup_nodup {recs : List VRec} (hnodup : (recs.map VRec.name).Nodup)
    {r : VRec} (hr : r ∈ recs) :
    (r.kind = VKind.snap →
      snapLookup recs r.name = some r.payload ∧ deltaLookup recs r.name = none) ∧
    (r.kind = VKind.delta →
      deltaLookup recs r.name = some r.payload ∧ snapLookup recs r.name = none) := by
  induction recs with
  | nil => cases hr
  | cons q t ih =>
    rcases List.mem_cons.mp hr with rfl | hrt
    · constructor
      · intro hk
        constructor
        · unfold snapLookup
          rw [List.find?_cons_of_pos _ (by simp [hk])]
          rfl
        · unfold deltaLookup
          rw [List.find?_cons_of_neg _ (by simp [hk])]
          have : ∀ q' ∈ t, (q'.name = r.name && q'.kind = VKind.delta) = false := by
            intro q' hq'
            have hne : q'.name ≠ r.name := by
              intro he
              have h1 := List.nodup_cons.mp hnodup
              exact h1.1 (he ▸ List.mem_map_of_mem VRec.name hq')
            simp [hne]
          rw [List.find?_eq_none.mpr (fun q' hq' => by rw [this q' hq']; simp)]
          rfl
      · intro hk
        constructor
        · unfold deltaLookup
          rw [List.find?_cons_of_pos _ (by simp [hk])]
          rfl
        · unfold snapLookup
          rw [List.find?_cons_of_neg _ (by simp [hk])]
          have : ∀ q' ∈ t, (q'.name = r.name && q'.kind = VKind.snap) = false := by
            intro q' hq'
            have hne : q'.name ≠ r.name := by
              intro he
              have h1 := List.nodup_cons.mp hnodup
              exact h1.1 (he ▸ List.mem_map_of_mem VRec.name hq')
            simp [hne]
          rw [List.find?_eq_none.mpr (fun q' hq' => by rw [this q' hq']; simp)]
          rfl
    · have hq : q.name ≠ r.name := by
        intro he
        have h1 := List.nodup_cons.mp hnodup
        exact h1.1 (he.symm ▸ List.mem_map_of_mem VRec.name hrt)
      have ihr := ih (List.nodup_cons.mp hnodup).2 hrt
      constructor
      · intro hk
        refine ⟨?_, ?_⟩
        · unfold snapLookup
          rw [List.find?_cons_of_neg _ (by simp [hq])]
          exact (ihr.1 hk).1
        · unfold deltaLookup
          rw [List.find?_cons_of_neg _ (by simp [hq])]
          exact (ihr.1 hk).2
      · intro hk
        refine ⟨?_, ?_⟩
        · unfold deltaLookup
          rw [List.find?_cons_of_neg _ (by simp [hq])]
          exact (ihr.2 hk).1
        · unfold snapLookup
          rw [List.find?_cons_of_neg _ (by simp [hq])]
          exact (ihr.2 hk).2

theorem mem_namesOf {recs : List VRec} {r : VRec} (hr : r ∈ recs) :
    r.name ∈ namesOf recs := List.mem_map_of_mem VRec.name hr

theorem idxOf_cons_self (c : Char) (s : Str) : idxOf (c :: s) c = some 0 := by
  unfold idxOf idxOfFrom
  rw [List.drop_zero, List.findIdx?_cons]
  simp

theorem idxOfFrom_one_none {p : Str} {c0 : Char} {rest : Str} (hp : p = c0 :: rest)
    (x : Char) (hx : x ∉ rest) : idxOfFrom p x 1 = none := by
  unfold idxOfFrom
  rw [hp]
  have : List.drop 1 (c0 :: rest) = rest := rfl
  rw [this]
  have hnone : List.findIdx? (fun d => d = x) rest = none := by
    rw [List.findIdx?_eq_none_iff]
    intro d hd
    simp only [decide_eq_false_iff_not]
    intro he
    exact hx (he ▸ hd)
  rw [hnone]

theorem resolveFuel_snap {recs : List VRec} (hnodup : (recs.map VRec.name).Nodup)
    {r : VRec} (hr : r ∈ recs) (hk : r.kind = VKind.snap) (hp : r.payload ≠ [])
    (fuel : Nat) : resolveFuel (fuel + 1) recs r.name = some r.payload := by
  unfold resolveFuel
  rw [if_pos (mem_namesOf hr)]
  have hlook := ((lookup_nodup hnodup hr).1 hk).1
  simp only [hlook]
  have htr : truthy (some r.payload) = true := by
    unfold truthy
    simp [hp]
  rw [if_pos htr]

theorem findIdx?_ge_start {p : Char → Bool} :
    ∀ (l : Str) (i j : Nat), List.findIdx? p l i = some j → i ≤ j
  | [], i, j, h => by simp at h
  | c :: t, i, j, h => by
    rw [List.findIdx?_cons] at h
    by_cases hc : p c = true
    · rw [if_pos hc] at h
      have := Option.some.inj h
      omega
    · rw [if_neg hc] at h
      have := findIdx?_ge_start t (i + 1) j h
      omega

theorem resolveFuel_plainDelta {recs : List VRec}
    (hnodup : (recs.map VRec.name).Nodup)
    {r : VRec} (hr : r ∈ recs) (hk : r.kind = VKind.delta)
    (hne : r.payload ≠ []) (hnoeq : '=' ∉ r.payload) (fuel : Nat) :
    resolveFuel (fuel + 1) recs r.name = replayPath recs r.name := by
  unfold resolveFuel
  rw [if_pos (mem_namesOf hr)]
  have hsnap := ((lookup_nodup hnodup hr).2 hk).2
  have hdelta := ((lookup_nodup hnodup hr).2 hk).1
  simp only [hsnap, hdelta, Option.getD_some]
  rw [if_neg (by unfold truthy; simp)]
  rw [if_neg (fun hcon => hnoeq hcon.2)]

theorem resolveFuel_eqDelta {recs : List VRec}
    (hnodup : (recs.map VRec.name).Nodup)
    {r : VRec} (hr : r ∈ recs) (hk : r.kind = VKind.delta)
    {c0 : Char} {prest : Str} (hshape : r.payload = c0 :: prest)
    (hc0 : c0 ≠ '=') (hmemeq : '=' ∈ r.payload) (fuel : Nat) :
    resolveFuel (fuel + 1) recs r.name = replayPath recs r.name := by
  unfold resolveFuel
  rw [if_pos (mem_namesOf hr)]
  have hsnap := ((lookup_nodup hnodup hr).2 hk).2
  have hdelta := ((lookup_nodup hnodup hr).2 hk).1
  simp only [hsnap, hdelta, Option.getD_some]
  rw [if_neg (by unfold truthy; simp)]
  rw [if_pos ⟨by unfold truthy; simp [hshape], hmemeq⟩]
  have hidx : idxOf r.payload '=' ≠ some 0 := by
    rw [hshape]
    unfold idxOf idxOfFrom
    rw [List.drop_zero, List.findIdx?_cons]
    rw [if_neg (by simp [hc0])]
    simp only [Nat.zero_add]
    cases hfi : List.findIdx? (fun d => d = '=') prest 1 with
    | none => simp
    | some j =>
      have h1 : 1 ≤ j := findIdx?_ge_start prest 1 j hfi
      show some j ≠ some 0
      intro hj0
      have := Option.some.inj hj0
      omega
  cases hcase : idxOf r.payload '=' with
  | none => rfl
  | some i =>
    cases i with
    | zero => exact absurd hcase hidx
    | succ j => rfl

theorem resolveFuel_pureRef {recs : List VRec}
    (hnodup : (recs.map VRec.name).Nodup)
    {r : VRec} (hr : r ∈ recs) (hk : r.kind = VKind.delta)
    {x : Str} (hpay : r.payload = '=' :: x) (hcolon : ':' ∉ x) (fuel : Nat) :
    resolveFuel (fuel + 1) recs r.name = resolveFuel fuel recs x := by
  conv_lhs => rw [resolveFuel]
  rw [if_pos (mem_namesOf hr)]
  have hsnap := ((lookup_nodup hnodup hr).2 hk).2
  have hdelta := ((lookup_nodup hnodup hr).2 hk).1
  simp only [hsnap, hdelta, Option.getD_some]
  rw [if_neg (by unfold truthy; simp)]
  rw [if_pos ⟨by unfold truthy; simp [hpay], by rw [hpay]; exact List.mem_cons_self '=' x⟩]
  rw [hpay, idxOf_cons_self, idxOfFrom_one_none rfl ':' hcolon]
  have hsub : substringFromJS ('=' :: x) 1 = x := by
    have h1 : ((1 : Nat) : Int) = (1 : Int) := rfl
    have := substringFromJS_nat ('=' :: x) 1 (by simp)
    rw [h1] at this
    rw [this]
    rfl
  rw [hsub]

theorem resolveFuel_hybrid {recs : List VRec}
    (hnodup : (recs.map VRec.name).Nodup)
    {r : VRec} (hr : r ∈ recs) (hk : r.kind = VKind.delta)
    {x ops : Str} (hpay : r.payload = '=' :: (x ++ ':' :: ops)) (hcolon : ':' ∉ x)
    (fuel : Nat) :
    resolveFuel (fuel + 1) recs r.name
      = some (applyDiff ((resolveFuel fuel recs x).getD []) (decodeDiff ops)) := by
  conv_lhs => rw [resolveFuel]
  rw [if_pos (mem_namesOf hr)]
  have hsnap := ((lookup_nodup hnodup hr).2 hk).2
  have hdelta := ((lookup_nodup hnodup hr).2 hk).1
  simp only [hsnap, hdelta, Option.getD_some]
  rw [if_neg (by unfold truthy; simp)]
  rw [if_pos ⟨by unfold truthy; simp [hpay],
    by rw [hpay]; exact List.mem_cons_self '=' (x ++ ':' :: ops)⟩]
  rw [hpay]
  have hci : idxOfFrom ('=' :: (x ++ ':' :: ops)) ':' 1 = some (1 + x.length) := by
    unfold idxOfFrom
    have hdrop : List.drop 1 ('=' :: (x ++ ':' :: ops)) = x ++ ':' :: ops := rfl
    rw [hdrop, findIdx?_colon x (fun c hc hce => hcolon (hce ▸ hc)) ops 0]
    simp
  have hname : substringJS ('=' :: (x ++ ':' :: ops)) 1 ((1 + x.length : Nat) : Int)
      = x := by
    have h1 : ((1 : Nat) : Int) = (1 : Int) := rfl
    rw [← h1, substringJS_nat ('=' :: (x ++ ':' :: ops)) 1 (1 + x.length) (by omega)
      (by simp [List.length_append]; omega)]
    have htake : List.take (1 + x.length) ('=' :: (x ++ ':' :: ops)) = '=' :: x := by
      have hshape : '=' :: (x ++ ':' :: ops) = ('=' :: x) ++ ':' :: ops := by simp
      rw [hshape]
      exact List.take_left' (by simp only [List.length_cons]; omega)
    rw [htake]
    rfl
  have hops : substringFromJS ('=' :: (x ++ ':' :: ops))
      (((1 + x.length : Nat) : Int) + 1) = ops := by
    have hc : (((1 + x.length : Nat) : Int) + 1) = ((1 + x.length + 1 : Nat) : Int) := by
      push_cast
      ring
    rw [hc, substringFromJS_nat ('=' :: (x ++ ':' :: ops)) (1 + x.length + 1)
      (by simp [List.length_append]; omega)]
    have hshape : '=' :: (x ++ ':' :: ops) = (('=' :: x) ++ [':']) ++ ops := by simp
    rw [hshape]
    refine List.drop_left' ?_
    simp
    omega
  simp only [idxOf_cons_self, hci, hname, hops]

/-- C8: committing the empty string into an empty storage produces a
storage with no records at all — the snapshot's serialized line is dropped
by the truthiness test — so `log` is empty, `show` of the assigned name is
`null`, and `latest` is the empty string.  This holds for every diff
provider and every requested name (given or hashed). -/
theorem c8_empty_first_commit (dmp : Str → Str → List (Int × Str))
    (name : Option Str) :
    commit dmp [] [] name = [] ∧
      logVersions (commit dmp [] [] name) = [] ∧
      showVersion (commit dmp [] [] name) (assignedName [] [] name) = none ∧
      latest (commit dmp [] [] name) = [] := by
  have h : commit dmp [] [] name = [] := rfl
  refine ⟨h, ?_, ?_, ?_⟩
  · rw [h]
    rfl
  · rw [h]
    rfl
  · rw [h]
    rfl

theorem findIdx?_append_first {α : Type} (p : α → Bool) :
    ∀ (pre : List α) (a : α) (post : List α), (∀ x ∈ pre, p x = false) →
      p a = true → ∀ i, List.findIdx? p (pre ++ a :: post) i = some (i + pre.length)
  | [], a, post, _, ha, i => by
    rw [List.nil_append, List.findIdx?_cons, if_pos ha]
    simp
  | x :: pre', a, post, hpre, ha, i => by
    rw [List.cons_append, List.findIdx?_cons,
      if_neg (by rw [hpre x (List.mem_cons_self x pre')]; simp),
      findIdx?_append_first p pre' a post
        (fun y hy => hpre y (List.mem_cons_of_mem x hy)) ha (i + 1)]
    congr 1
    simp
    omega

theorem namesOf_append (pre post : List VRec) (tgt : VRec) :
    namesOf (pre ++ tgt :: post) = namesOf pre ++ tgt.name :: namesOf post := by
  unfold namesOf
  simp

theorem indexOfName_append (pre post : List VRec) (tgt : VRec)
    (hnodup : ((pre ++ tgt :: post).map VRec.name).Nodup) :
    indexOfName (namesOf (pre ++ tgt :: post)) tgt.name = some pre.length := by
  rw [namesOf_append]
  unfold indexOfName
  have hdisj : ∀ x ∈ namesOf pre, (decide (x = tgt.name)) = false := by
    intro x hx
    simp only [decide_eq_false_iff_not]
    intro he
    rw [List.map_append] at hnodup
    have h1 := List.nodup_append.mp hnodup
    exact h1.2.2 hx (by rw [he]; exact List.mem_cons_self tgt.name _)
  have := findIdx?_append_first (fun x => decide (x = tgt.name)) (namesOf pre)
    tgt.name (namesOf post) hdisj (by simp) 0
  rw [this]
  congr 1
  unfold namesOf
  simp

theorem drop_mid (pre post : List VRec) (tgt : VRec) :
    (pre ++ tgt :: post).drop (pre.length + 1) = post := by
  have hshape : pre ++ tgt :: post = (pre ++ [tgt]) ++ post := by simp
  rw [hshape]
  refine List.drop_left' ?_
  simp

/-- C10: squash keeps later reference records without validating them.
With `tgt` the squash target resolving to non-empty `t`, and two kept
records whose payloads are a pure reference `=x` and a hybrid reference
`=x2:ops` to names that the squash deleted: squash succeeds, a subsequent
`show` of the pure reference returns not-found (`none`), and the hybrid
resolves by applying its edit script to the empty string — no error in
either case. -/
theorem c10_dangling_refs (storage : Str) (pre post : List VRec) (tgt : VRec)
    (t : Str) (r1 r2 : VRec) (x x2 ops : Str)
    (hparse : parseStorage storage = pre ++ tgt :: post)
    (hwf : WFStore (pre ++ tgt :: post))
    (hres : getVersionText (pre ++ tgt :: post) tgt.name = some t)
    (ht : t ≠ []) (hte : noEsc t)
    (hr1 : r1 ∈ post) (hk1 : r1.kind = VKind.delta)
    (hp1 : r1.payload = '=' :: x) (hx1c : ':' ∉ x)
    (hx1mem : x ∉ tgt.name :: namesOf post)
    (hr2 : r2 ∈ post) (hk2 : r2.kind = VKind.delta)
    (hp2 : r2.payload = '=' :: (x2 ++ ':' :: ops)) (hx2c : ':' ∉ x2)
    (hx2mem : x2 ∉ tgt.name :: namesOf post) :
    squash storage tgt.name
        = some (serializeStorage (⟨tgt.name, VKind.snap, t⟩ :: post)) ∧
      showVersion (serializeStorage (⟨tgt.name, VKind.snap, t⟩ :: post)) r1.name
        = none ∧
      showVersion (serializeStorage (⟨tgt.name, VKind.snap, t⟩ :: post)) r2.name
        = some (applyDiff [] (decodeDiff ops)) := by
  have htgtmem : tgt ∈ pre ++ tgt :: post :=
    List.mem_append.mpr (Or.inr (List.mem_cons_self tgt post))
  have hnewnames : namesOf (⟨tgt.name, VKind.snap, t⟩ :: post)
      = tgt.name :: namesOf post := rfl
  have hnodupnew : ((⟨tgt.name, VKind.snap, t⟩ :: post).map VRec.name).Nodup := by
    have h1 : ((pre ++ tgt :: post).map VRec.name).Nodup := hwf.1
    rw [List.map_append] at h1
    have h2 := (List.nodup_append.mp h1).2.1
    simpa using h2
  have hwfnew : WFStore (⟨tgt.name, VKind.snap, t⟩ :: post) := by
    refine ⟨hnodupnew, ?_⟩
    intro r hrm
    rcases List.mem_cons.mp hrm with rfl | hrm
    · exact ⟨(hwf.2 tgt htgtmem).1, ht, hte⟩
    · exact hwf.2 r (List.mem_append.mpr (Or.inr (List.mem_cons_of_mem tgt hrm)))
  have hroundtrip := roundtrip_of_wf hwfnew
  have hsquash : squash storage tgt.name
      = some (serializeStorage (⟨tgt.name, VKind.snap, t⟩ :: post)) := by
    simp only [squash, hparse, indexOfName_append pre post tgt hwf.1, hres, drop_mid]
  have hr1new : r1 ∈ (⟨tgt.name, VKind.snap, t⟩ :: post : List VRec) :=
    List.mem_cons_of_mem _ hr1
  have hr2new : r2 ∈ (⟨tgt.name, VKind.snap, t⟩ :: post : List VRec) :=
    List.mem_cons_of_mem _ hr2
  refine ⟨hsquash, ?_, ?_⟩
  · unfold showVersion getVersionText
    rw [hroundtrip]
    have hlen : (⟨tgt.name, VKind.snap, t⟩ :: post : List VRec).length
        = post.length + 1 := by simp
    rw [hlen]
    rw [resolveFuel_pureRef hnodupnew hr1new hk1 hp1 hx1c (post.length + 1)]
    exact resolveFuel_not_mem (by rw [hnewnames]; exact hx1mem) _
  · unfold showVersion getVersionText
    rw [hroundtrip]
    have hlen : (⟨tgt.name, VKind.snap, t⟩ :: post : List VRec).length
        = post.length + 1 := by simp
    rw [hlen]
    rw [resolveFuel_hybrid hnodupnew hr2new hk2 hp2 hx2c (post.length + 1)]
    rw [resolveFuel_not_mem (by rw [hnewnames]; exact hx2mem) _]
    rfl

instance : DecidablePred WFRec := fun r => by
  unfold WFRec
  infer_instance

instance : DecidablePred WFStore := fun recs => by
  unfold WFStore
  infer_instance

theorem c10_dangling_refs_witness :
    squash (":1:a:AB\n1:b:I1:B\n1:c:=a\n1:d:=a:I1:Q").toList ['b']
        = some (serializeStorage
            [⟨['b'], VKind.snap, ['B', 'A', 'B']⟩,
              ⟨['c'], VKind.delta, ['=', 'a']⟩,
              ⟨['d'], VKind.delta, ['=', 'a', ':', 'I', '1', ':', 'Q']⟩]) ∧
      showVersion (serializeStorage
            [⟨['b'], VKind.snap, ['B', 'A', 'B']⟩,
              ⟨['c'], VKind.delta, ['=', 'a']⟩,
              ⟨['d'], VKind.delta, ['=', 'a', ':', 'I', '1', ':', 'Q']⟩]) ['c'] = none ∧
      showVersion (serializeStorage
            [⟨['b'], VKind.snap, ['B', 'A', 'B']⟩,
              ⟨['c'], VKind.delta, ['=', 'a']⟩,
              ⟨['d'], VKind.delta, ['=', 'a', ':', 'I', '1', ':', 'Q']⟩]) ['d']
        = some (applyDiff [] (decodeDiff ['I', '1', ':', 'Q'])) :=
  c10_dangling_refs (":1:a:AB\n1:b:I1:B\n1:c:=a\n1:d:=a:I1:Q").toList
    [⟨['a'], VKind.snap, ['A', 'B']⟩]
    [⟨['c'], VKind.delta, ['=', 'a']⟩,
      ⟨['d'], VKind.delta, ['=', 'a', ':', 'I', '1', ':', 'Q']⟩]
    ⟨['b'], VKind.delta, ['I', '1', ':', 'B']⟩
    ['B', 'A', 'B']
    ⟨['c'], VKind.delta, ['=', 'a']⟩
    ⟨['d'], VKind.delta, ['=', 'a', ':', 'I', '1', ':', 'Q']⟩
    ['a'] ['a'] ['I', '1', ':', 'Q']
    (by decide) (by decide) (by decide) (by decide) (by decide)
    (by decide) (by decide) (by decide) (by decide) (by decide)
    (by decide) (by decide) (by decide) (by decide) (by decide)

/-- The effective text of the flat replay: fold the records' delta
payloads over the base text, applying exactly those with truthy,
`=`-free payloads (the others are skipped by the replay loop). -/
def replayText (s0 : Str) (ds : List VRec) : Str :=
  ds.foldl (fun cur d =>
    if ¬d.payload.isEmpty ∧ '=' ∉ d.payload then applyDiff cur (decodeDiff d.payload)
    else cur) s0

theorem replayText_append (s0 : Str) (a b : List VRec) :
    replayText s0 (a ++ b) = replayText (replayText s0 a) b := by
  unfold replayText
  rw [List.foldl_append]

theorem findSnapDown_plain (n0 s0 : Str) (tail : List VRec)
    (hnodup : ((⟨n0, VKind.snap, s0⟩ :: tail).map VRec.name).Nodup)
    (hs0 : s0 ≠ []) (htail : ∀ q ∈ tail, q.kind = VKind.delta) :
    ∀ j, j ≤ tail.length →
      findSnapDown (⟨n0, VKind.snap, s0⟩ :: tail)
        (namesOf (⟨n0, VKind.snap, s0⟩ :: tail)) j = some (0, s0) := by
  have hhead : (⟨n0, VKind.snap, s0⟩ : VRec) ∈ ⟨n0, VKind.snap, s0⟩ :: tail :=
    List.mem_cons_self _ _
  have hsnap0 : snapLookup (⟨n0, VKind.snap, s0⟩ :: tail) n0 = some s0 :=
    ((lookup_nodup hnodup hhead).1 rfl).1
  intro j
  induction j with
  | zero =>
    intro _
    unfold findSnapDown
    have hget : (namesOf (⟨n0, VKind.snap, s0⟩ :: tail)).get? 0 = some n0 := rfl
    simp only [hget, hsnap0]
    rw [if_pos (by unfold truthy; simp [hs0])]
    rfl
  | succ j ih =>
    intro hj
    unfold findSnapDown
    have hjlt : j < tail.length := by omega
    have hget : (namesOf (⟨n0, VKind.snap, s0⟩ :: tail)).get? (j + 1)
        = some (tail.get ⟨j, hjlt⟩).name := by
      show (namesOf tail).get? j = _
      unfold namesOf
      rw [List.get?_eq_getElem?, List.getElem?_map, List.getElem?_eq_getElem hjlt]
      rfl
    have hq : tail.get ⟨j, hjlt⟩ ∈ (⟨n0, VKind.snap, s0⟩ :: tail : List VRec) :=
      List.mem_cons_of_mem _ (List.get_mem tail j hjlt)
    have hnone : snapLookup (⟨n0, VKind.snap, s0⟩ :: tail) (tail.get ⟨j, hjlt⟩).name
        = none :=
      ((lookup_nodup hnodup hq).2 (htail _ (List.get_mem tail j hjlt))).2
    simp only [hget, hnone]
    rw [if_neg (by unfold truthy; simp)]
    exact ih (by omega)

theorem replayLoop_plain (n0 s0 : Str) (tail : List VRec)
    (hnodup : ((⟨n0, VKind.snap, s0⟩ :: tail).map VRec.name).Nodup)
    (htail : ∀ q ∈ tail, q.kind = VKind.delta) :
    ∀ (count j : Nat) (cur : Str), j + count ≤ tail.length →
      replayLoop (⟨n0, VKind.snap, s0⟩ :: tail)
          (namesOf (⟨n0, VKind.snap, s0⟩ :: tail)) cur (j + 1) count
        = replayText cur ((tail.drop j).take count) := by
  intro count
  induction count with
  | zero =>
    intro j cur _
    rfl
  | succ count ih =>
    intro j cur hle
    have hjlt : j < tail.length := by omega
    unfold replayLoop
    have hget : (namesOf (⟨n0, VKind.snap, s0⟩ :: tail)).get? (j + 1)
        = some (tail.get ⟨j, hjlt⟩).name := by
      show (namesOf tail).get? j = _
      unfold namesOf
      rw [List.get?_eq_getElem?, List.getElem?_map, List.getElem?_eq_getElem hjlt]
      rfl
    have hq : tail.get ⟨j, hjlt⟩ ∈ (⟨n0, VKind.snap, s0⟩ :: tail : List VRec) :=
      List.mem_cons_of_mem _ (List.get_mem tail j hjlt)
    have hdelta : deltaLookup (⟨n0, VKind.snap, s0⟩ :: tail) (tail.get ⟨j, hjlt⟩).name
        = some (tail.get ⟨j, hjlt⟩).payload :=
      ((lookup_nodup hnodup hq).2 (htail _ (List.get_mem tail j hjlt))).1
    simp only [hget, hdelta]
    have hdropj : tail.drop j = tail.get ⟨j, hjlt⟩ :: tail.drop (j + 1) := by
      rw [List.drop_eq_getElem_cons hjlt]
      rfl
    rw [hdropj]
    have htake : (tail.get ⟨j, hjlt⟩ :: tail.drop (j + 1)).take (count + 1)
        = tail.get ⟨j, hjlt⟩ :: (tail.drop (j + 1)).take count := rfl
    rw [htake]
    have hstep : replayText cur (tail.get ⟨j, hjlt⟩ :: (tail.drop (j + 1)).take count)
        = replayText
          (if ¬(tail.get ⟨j, hjlt⟩).payload.isEmpty ∧ '=' ∉ (tail.get ⟨j, hjlt⟩).payload
           then applyDiff cur (decodeDiff (tail.get ⟨j, hjlt⟩).payload) else cur)
          ((tail.drop (j + 1)).take count) := rfl
    rw [hstep]
    have hih := ih (j + 1) (if ¬(tail.get ⟨j, hjlt⟩).payload.isEmpty ∧
        '=' ∉ (tail.get ⟨j, hjlt⟩).payload
      then applyDiff cur (decodeDiff (tail.get ⟨j, hjlt⟩).payload) else cur) (by omega)
    rw [← hih]

theorem indexOfName_nodup_mid (n0 : Str) (pre suf : List VRec) (r : VRec)
    (hnodup : ((n0 :: namesOf (pre ++ r :: suf)) : List Str).Nodup) :
    indexOfName (n0 :: namesOf (pre ++ r :: suf)) r.name = some (pre.length + 1) := by
  have hshape : (n0 :: namesOf (pre ++ r :: suf) : List Str)
      = (n0 :: namesOf pre) ++ r.name :: namesOf suf := by
    unfold namesOf
    simp
  rw [hshape] at hnodup ⊢
  unfold indexOfName
  have hdisj : ∀ x ∈ n0 :: namesOf pre, (decide (x = r.name)) = false := by
    intro x hx
    simp only [decide_eq_false_iff_not]
    intro he
    have h1 := List.nodup_append.mp hnodup
    exact h1.2.2 hx (by rw [he]; exact List.mem_cons_self r.name _)
  have := findIdx?_append_first (fun x => decide (x = r.name)) (n0 :: namesOf pre)
    r.name (namesOf suf) hdisj (by simp) 0
  rw [this]
  congr 1
  unfold namesOf
  simp

theorem replayPath_plain_at (n0 s0 : Str) (pre suf : List VRec) (r : VRec)
    (hnodup : ((⟨n0, VKind.snap, s0⟩ :: (pre ++ r :: suf)).map VRec.name).Nodup)
    (hs0 : s0 ≠ [])
    (htail : ∀ q ∈ pre ++ r :: suf, q.kind = VKind.delta) :
    replayPath (⟨n0, VKind.snap, s0⟩ :: (pre ++ r :: suf)) r.name
      = some (replayText s0 (pre ++ [r])) := by
  unfold replayPath
  have hnames : namesOf (⟨n0, VKind.snap, s0⟩ :: (pre ++ r :: suf))
      = n0 :: namesOf (pre ++ r :: suf) := rfl
  have hidx : indexOfName (namesOf (⟨n0, VKind.snap, s0⟩ :: (pre ++ r :: suf))) r.name
      = some (pre.length + 1) := by
    rw [hnames]
    exact indexOfName_nodup_mid n0 pre suf r (by
      have := hnodup
      simpa [namesOf] using this)
  have hlen : (pre ++ r :: suf).length = pre.length + 1 + suf.length := by
    simp
    omega
  have hsnap := findSnapDown_plain n0 s0 (pre ++ r :: suf) hnodup hs0 htail
    (pre.length + 1) (by omega)
  simp only [hidx, hsnap]
  have hloop := replayLoop_plain n0 s0 (pre ++ r :: suf) hnodup htail
    (pre.length + 1) 0 s0 (by omega)
  have hdrop0 : (pre ++ r :: suf).drop 0 = pre ++ r :: suf := rfl
  rw [hdrop0] at hloop
  have htake : (pre ++ r :: suf).take (pre.length + 1) = pre ++ [r] := by
    have hshape : pre ++ r :: suf = (pre ++ [r]) ++ suf := by simp
    rw [hshape]
    exact List.take_left' (by simp)
  rw [htake] at hloop
  have hsub : pre.length + 1 - 0 = pre.length + 1 := by omega
  rw [hsub]
  rw [← hloop]

/-- C9: resolution classifies records as references purely by `includes('=')`.
A plain delta record whose encoded edit script merely contains `=` (not at
position 0) falls through to the snapshot-replay path, and the replay loop
skips every record whose payload contains `=` — including the record
itself.  Hence (a) resolving such a record yields the chain text *without*
its own edit, and (b) a later plain delta is applied on top of that text,
i.e. the chain continues without the skipped record's edit. -/
theorem c9_eq_classification (n0 s0 : Str) (ds : List VRec) (r1 r2 : VRec)
    (c0 : Char) (prest : Str)
    (hnodup2 : ((⟨n0, VKind.snap, s0⟩ :: (ds ++ [r1, r2])).map VRec.name).Nodup)
    (hs0 : s0 ≠ [])
    (hds : ∀ q ∈ ds, q.kind = VKind.delta)
    (hk1 : r1.kind = VKind.delta) (hp1 : r1.payload = c0 :: prest)
    (hc0 : c0 ≠ '=') (hmem1 : '=' ∈ r1.payload)
    (hk2 : r2.kind = VKind.delta) (hp2ne : r2.payload ≠ []) (hp2eq : '=' ∉ r2.payload) :
    getVersionText (⟨n0, VKind.snap, s0⟩ :: (ds ++ [r1])) r1.name
        = some (replayText s0 ds) ∧
      getVersionText (⟨n0, VKind.snap, s0⟩ :: (ds ++ [r1, r2])) r2.name
        = some (applyDiff (replayText s0 ds) (decodeDiff r2.payload)) := by
  have hsub : (⟨n0, VKind.snap, s0⟩ :: (ds ++ [r1]) : List VRec).Sublist
      (⟨n0, VKind.snap, s0⟩ :: (ds ++ [r1, r2])) := by
    refine List.Sublist.cons₂ _ ?_
    refine List.Sublist.append_left ?_ ds
    simp
  have hnodup1 : ((⟨n0, VKind.snap, s0⟩ :: (ds ++ [r1])).map VRec.name).Nodup :=
    List.Nodup.sublist (List.Sublist.map VRec.name hsub) hnodup2
  have htail1 : ∀ q ∈ ds ++ [r1], q.kind = VKind.delta := by
    intro q hq
    rcases List.mem_append.mp hq with h | h
    · exact hds q h
    · rcases List.mem_singleton.mp h with rfl
      exact hk1
  have htail2 : ∀ q ∈ ds ++ [r1, r2], q.kind = VKind.delta := by
    intro q hq
    rcases List.mem_append.mp hq with h | h
    · exact hds q h
    · rcases List.mem_cons.mp h with rfl | h
      · exact hk1
      · rcases List.mem_singleton.mp h with rfl
        exact hk2
  have hskip1 : replayText (replayText s0 ds) [r1] = replayText s0 ds := by
    unfold replayText
    simp only [List.foldl_cons, List.foldl_nil]
    rw [if_neg (fun hcon => hcon.2 hmem1)]
  constructor
  · have hlen : (⟨n0, VKind.snap, s0⟩ :: (ds ++ [r1]) : List VRec).length + 1
        = (ds.length + 1) + 1 + 1 := by simp
    unfold getVersionText
    rw [hlen]
    have hr1mem : r1 ∈ (⟨n0, VKind.snap, s0⟩ :: (ds ++ [r1]) : List VRec) :=
      List.mem_cons_of_mem _ (List.mem_append.mpr (Or.inr (List.mem_singleton.mpr rfl)))
    rw [resolveFuel_eqDelta hnodup1 hr1mem hk1 hp1 hc0 hmem1 (ds.length + 1 + 1)]
    have hshape : ds ++ [r1] = ds ++ r1 :: ([] : List VRec) := rfl
    rw [hshape] at hnodup1 htail1 ⊢
    rw [replayPath_plain_at n0 s0 ds [] r1 hnodup1 hs0 htail1]
    rw [replayText_append, hskip1]
  · have hlen : (⟨n0, VKind.snap, s0⟩ :: (ds ++ [r1, r2]) : List VRec).length + 1
        = (ds.length + 2) + 1 + 1 := by simp
    unfold getVersionText
    rw [hlen]
    have hr2mem : r2 ∈ (⟨n0, VKind.snap, s0⟩ :: (ds ++ [r1, r2]) : List VRec) := by
      refine List.mem_cons_of_mem _ ?_
      exact List.mem_append.mpr (Or.inr (by simp))
    rw [resolveFuel_plainDelta hnodup2 hr2mem hk2 hp2ne hp2eq (ds.length + 2 + 1)]
    have hshape : ds ++ [r1, r2] = (ds ++ [r1]) ++ r2 :: ([] : List VRec) := by simp
    rw [hshape] at hnodup2 htail2 ⊢
    rw [replayPath_plain_at n0 s0 (ds ++ [r1]) [] r2 hnodup2 hs0 htail2]
    rw [replayText_append, replayText_append, hskip1]
    have : replayText (replayText s0 ds) [r2]
        = applyDiff (replayText s0 ds) (decodeDiff r2.payload) := by
      unfold replayText
      simp only [List.foldl_cons, List.foldl_nil]
      rw [if_pos ⟨by simp [hp2ne], hp2eq⟩]
    rw [this]

theorem c9_eq_classification_witness :
    getVersionText (⟨['v'], VKind.snap, ['A']⟩ ::
        ([⟨['w'], VKind.delta, ['I', '1', ':', 'B']⟩]
          ++ [⟨['x'], VKind.delta, ['I', '3', ':', 'a', '=', 'b']⟩])) ['x']
        = some (replayText ['A'] [⟨['w'], VKind.delta, ['I', '1', ':', 'B']⟩]) ∧
      getVersionText (⟨['v'], VKind.snap, ['A']⟩ ::
        ([⟨['w'], VKind.delta, ['I', '1', ':', 'B']⟩]
          ++ [⟨['x'], VKind.delta, ['I', '3', ':', 'a', '=', 'b']⟩,
              ⟨['y'], VKind.delta, ['I', '1', ':', 'Q']⟩])) ['y']
        = some (applyDiff (replayText ['A'] [⟨['w'], VKind.delta, ['I', '1', ':', 'B']⟩])
            (decodeDiff ['I', '1', ':', 'Q'])) :=
  c9_eq_classification ['v'] ['A'] [⟨['w'], VKind.delta, ['I', '1', ':', 'B']⟩]
    ⟨['x'], VKind.delta, ['I', '3', ':', 'a', '=', 'b']⟩
    ⟨['y'], VKind.delta, ['I', '1', ':', 'Q']⟩
    'I' ['3', ':', 'a', '=', 'b']
    (by decide) (by decide) (by decide) (by decide) (by decide) (by decide)
    (by decide) (by decide) (by decide) (by decide)

/-! ### C6: the stored candidate is the earliest one of minimal serialized length -/

/-- Modelled from the spec's selection rule: among the candidate encodings,
pick the one with the smallest serialized byte length; on a tie keep the
earliest-computed candidate.  `firstMinByLen` returns the first pair of the
list attaining the minimal second component. -/
def firstMinByLen : List (Str × Nat) → Option (Str × Nat)
  | [] => none
  | x :: xs =>
    match firstMinByLen xs with
    | none => some x
    | some y => if x.2 ≤ y.2 then some x else some y

lemma firstMinByLen_cons (x : Str × Nat) (xs : List (Str × Nat)) :
    firstMinByLen (x :: xs) =
      match firstMinByLen xs with
      | none => some x
      | some y => if x.2 ≤ y.2 then some x else some y := by
  conv_lhs => rw [firstMinByLen]

lemma firstMinByLen_eq_none {l : List (Str × Nat)}
    (h : firstMinByLen l = none) : l = [] := by
  cases l with
  | nil => rfl
  | cons x xs =>
    rw [firstMinByLen_cons] at h
    cases hfm : firstMinByLen xs with
    | none => rw [hfm] at h; exact absurd h (by simp)
    | some y =>
      rw [hfm] at h
      by_cases hle : x.2 ≤ y.2 <;> simp [hle] at h

/-- The first minimum exists on a nonempty list, is a member, and its key is
minimal. -/
lemma firstMinByLen_spec :
    ∀ l : List (Str × Nat), l ≠ [] →
      ∃ m, firstMinByLen l = some m ∧ m ∈ l ∧ ∀ c ∈ l, m.2 ≤ c.2 := by
  intro l
  induction l with
  | nil => intro h; exact absurd rfl h
  | cons x xs ih =>
    intro _
    by_cases hxs : xs = []
    · subst hxs
      refine ⟨x, by rw [firstMinByLen_cons]; rfl, List.mem_cons_self x [], ?_⟩
      intro c hc
      rcases List.mem_cons.mp hc with rfl | hc
      · exact le_refl _
      · cases hc
    · obtain ⟨m, hmeq, hmmem, hmle⟩ := ih hxs
      rw [firstMinByLen_cons]
      simp only [hmeq]
      by_cases hle : x.2 ≤ m.2
      · refine ⟨x, by rw [if_pos hle], List.mem_cons_self x xs, ?_⟩
        intro c hc
        rcases List.mem_cons.mp hc with rfl | hc
        · exact le_refl _
        · exact le_trans hle (hmle c hc)
      · refine ⟨m, by rw [if_neg hle], List.mem_cons_of_mem x hmmem, ?_⟩
        intro c hc
        rcases List.mem_cons.mp hc with rfl | hc
        · exact le_of_not_le hle
        · exact hmle c hc

/-- The head of the stable sort by length is the first minimum: stability
makes the earliest-computed candidate win every tie. -/
lemma head?_sortByLen :
    ∀ l : List (Str × Nat), (sortByLen l).head? = firstMinByLen l := by
  intro l
  induction l with
  | nil => rfl
  | cons x xs ih =>
    rw [sortByLen, firstMinByLen_cons, ← ih]
    cases hs : sortByLen xs with
    | nil => simp [insertByLen]
    | cons y ys =>
      by_cases h : x.2 ≤ y.2 <;> simp [insertByLen, h]

lemma findBestDiffOption_eq (dmp : Str → Str → List (Int × Str))
    (oldRecs : List VRec) (text versionName : Str) :
    findBestDiffOption dmp oldRecs text versionName
      = (firstMinByLen (diffCandidates dmp oldRecs text versionName)).map Prod.fst := by
  rw [findBestDiffOption, head?_sortByLen]

/-- **C6.** When `commit` stores a non-first (the storage already holds
records), non-duplicate (no existing version resolves to the new text)
version, the payload it appends is the candidate with the smallest
serialized line length among the candidates of `diffCandidates` — the delta
against the immediate predecessor computed first, then one hybrid per
strictly earlier version in ascending position order — with ties going to
the earliest-computed candidate: the stored payload is exactly the first
minimal candidate chosen by `firstMinByLen`, which is a member of the
candidate list and whose serialized length is ≤ every candidate's. -/
theorem c6_best_candidate (dmp : Str → Str → List (Int × Str)) (storage : Str)
    (text : Str) (nameOpt : Option Str)
    (hne : parseStorage storage ≠ [])
    (hnodupe : ∀ e ∈ namesOf (parseStorage storage),
      getVersionText (parseStorage storage) e ≠ some text) :
    ∃ m, firstMinByLen (diffCandidates dmp (parseStorage storage) text
            (assignedName (parseStorage storage) text nameOpt)) = some m ∧
      m ∈ diffCandidates dmp (parseStorage storage) text
            (assignedName (parseStorage storage) text nameOpt) ∧
      (∀ c ∈ diffCandidates dmp (parseStorage storage) text
            (assignedName (parseStorage storage) text nameOpt), m.2 ≤ c.2) ∧
      commit dmp storage text nameOpt
        = serializeStorage (parseStorage storage ++
            [⟨assignedName (parseStorage storage) text nameOpt, VKind.delta, m.1⟩]) := by
  have hlen : 0 < (parseStorage storage).length := List.length_pos.mpr hne
  have hcne : diffCandidates dmp (parseStorage storage) text
      (assignedName (parseStorage storage) text nameOpt) ≠ [] := by
    rw [diffCandidates]
    simp only [if_pos hlen]
    simp
  obtain ⟨m, hmeq, hmmem, hmle⟩ := firstMinByLen_spec _ hcne
  refine ⟨m, hmeq, hmmem, hmle, ?_⟩
  have hdupe : findDupe (parseStorage storage) text = none := by
    rw [findDupe, List.find?_eq_none]
    intro v hv
    simp only [decide_eq_true_eq]
    exact hnodupe v hv
  have h0 : ¬ (parseStorage storage).length = 0 := by omega
  rw [commit]
  simp only [hdupe, if_neg h0]
  rw [findBestDiffOption_eq, hmeq]
  rfl

theorem c6_best_candidate_witness :
    ∃ m, firstMinByLen (diffCandidates dmpTrivial
            (parseStorage [':', '1', ':', 'a', ':', 'A', 'A']) ['A', 'B']
            (assignedName (parseStorage [':', '1', ':', 'a', ':', 'A', 'A'])
              ['A', 'B'] (some ['b']))) = some m ∧
      m ∈ diffCandidates dmpTrivial (parseStorage [':', '1', ':', 'a', ':', 'A', 'A'])
            ['A', 'B'] (assignedName (parseStorage [':', '1', ':', 'a', ':', 'A', 'A'])
              ['A', 'B'] (some ['b'])) ∧
      (∀ c ∈ diffCandidates dmpTrivial (parseStorage [':', '1', ':', 'a', ':', 'A', 'A'])
            ['A', 'B'] (assignedName (parseStorage [':', '1', ':', 'a', ':', 'A', 'A'])
              ['A', 'B'] (some ['b'])), m.2 ≤ c.2) ∧
      commit dmpTrivial [':', '1', ':', 'a', ':', 'A', 'A'] ['A', 'B'] (some ['b'])
        = serializeStorage (parseStorage [':', '1', ':', 'a', ':', 'A', 'A'] ++
            [⟨assignedName (parseStorage [':', '1', ':', 'a', ':', 'A', 'A'])
                ['A', 'B'] (some ['b']), VKind.delta, m.1⟩]) :=
  c6_best_candidate dmpTrivial [':', '1', ':', 'a', ':', 'A', 'A'] ['A', 'B']
    (some ['b']) (by decide) (by decide)

/-! ### C7: squash truncation and re-snapshot -/

/-- Counterexample to the unrestricted C7 claim: in the storage
`:1:a:A` + `1:b:D1` the version `b` is present and resolves to the empty
string (delete 1 over `A`).  `squash` accepts it (empty string is not
`null`), re-snapshots it as an empty snapshot, and the serializer's
truthiness test then drops the line: the squashed storage is empty, the
target has no log entry at all (so none reporting `isSnapshot == true`),
and `show` of the target returns `none` instead of its pre-squash text. -/
theorem c7_cex :
    ['b'] ∈ namesOf (parseStorage
        [':', '1', ':', 'a', ':', 'A', '\n', '1', ':', 'b', ':', 'D', '1']) ∧
      showVersion [':', '1', ':', 'a', ':', 'A', '\n', '1', ':', 'b', ':', 'D', '1']
        ['b'] = some [] ∧
      squash [':', '1', ':', 'a', ':', 'A', '\n', '1', ':', 'b', ':', 'D', '1']
        ['b'] = some [] ∧
      logVersions [] = [] ∧
      showVersion [] ['b'] = none := by
  decide

/-- **C7 (amended).** On a well-formed storage whose target resolves to a
*non-empty* (and escape-safe) text `t`: squash succeeds and returns the
serialization of the re-snapshotted target followed by the later records
verbatim; the first log entry of the result is the target with
`isSnapshot == true`; no log entry carries the name of a version that
preceded the target; `show` of the target returns `t` both before and
after the squash; `show` of any preceding version on the result is
not-found; and squash of an absent version name fails (`none`). -/
theorem c7_squash (storage : Str) (pre post : List VRec) (tgt : VRec) (t : Str)
    (hparse : parseStorage storage = pre ++ tgt :: post)
    (hwf : WFStore (pre ++ tgt :: post))
    (hres : getVersionText (pre ++ tgt :: post) tgt.name = some t)
    (ht : t ≠ []) (hte : noEsc t) :
    squash storage tgt.name
        = some (serializeStorage (⟨tgt.name, VKind.snap, t⟩ :: post)) ∧
      (logVersions (serializeStorage (⟨tgt.name, VKind.snap, t⟩ :: post))).head?
        = some (tgt.name, true) ∧
      (∀ e ∈ logVersions (serializeStorage (⟨tgt.name, VKind.snap, t⟩ :: post)),
        e.1 ∉ namesOf pre) ∧
      showVersion storage tgt.name = some t ∧
      showVersion (serializeStorage (⟨tgt.name, VKind.snap, t⟩ :: post)) tgt.name
        = some t ∧
      (∀ p ∈ namesOf pre,
        showVersion (serializeStorage (⟨tgt.name, VKind.snap, t⟩ :: post)) p
          = none) ∧
      (∀ v, v ∉ namesOf (pre ++ tgt :: post) → squash storage v = none) := by
  have htgtmem : tgt ∈ pre ++ tgt :: post :=
    List.mem_append.mpr (Or.inr (List.mem_cons_self tgt post))
  have hnodupnew : ((⟨tgt.name, VKind.snap, t⟩ :: post).map VRec.name).Nodup := by
    have h1 : ((pre ++ tgt :: post).map VRec.name).Nodup := hwf.1
    rw [List.map_append] at h1
    have h2 := (List.nodup_append.mp h1).2.1
    simpa using h2
  have hdisj : ∀ x ∈ namesOf pre, x ∉ tgt.name :: namesOf post := by
    have h1 : ((pre ++ tgt :: post).map VRec.name).Nodup := hwf.1
    rw [List.map_append] at h1
    have h2 := (List.nodup_append.mp h1).2.2
    intro x hx hmem
    exact h2 hx hmem
  have hwfnew : WFStore (⟨tgt.name, VKind.snap, t⟩ :: post) := by
    refine ⟨hnodupnew, ?_⟩
    intro r hrm
    rcases List.mem_cons.mp hrm with rfl | hrm
    · exact ⟨(hwf.2 tgt htgtmem).1, ht, hte⟩
    · exact hwf.2 r (List.mem_append.mpr (Or.inr (List.mem_cons_of_mem tgt hrm)))
  have hroundtrip := roundtrip_of_wf hwfnew
  have hsquash : squash storage tgt.name
      = some (serializeStorage (⟨tgt.name, VKind.snap, t⟩ :: post)) := by
    simp only [squash, hparse, indexOfName_append pre post tgt hwf.1, hres, drop_mid]
  have hsnaplook : snapLookup (⟨tgt.name, VKind.snap, t⟩ :: post) tgt.name
      = some t :=
    ((lookup_nodup hnodupnew (List.mem_cons_self _ _)).1 rfl).1
  have htr : truthy (some t) = true := by
    unfold truthy
    simp [ht]
  refine ⟨hsquash, ?_, ?_, ?_, ?_, ?_, ?_⟩
  · simp only [logVersions, hroundtrip]
    have hnames : namesOf (⟨tgt.name, VKind.snap, t⟩ :: post)
        = tgt.name :: namesOf post := rfl
    simp only [hnames, List.map_cons, List.head?_cons]
    rw [hsnaplook, htr]
  · intro e he
    simp only [logVersions, hroundtrip] at he
    obtain ⟨v, hv, rfl⟩ := List.mem_map.mp he
    intro hp
    exact hdisj v hp hv
  · unfold showVersion
    rw [hparse]
    exact hres
  · unfold showVersion getVersionText
    rw [hroundtrip]
    have hlen : (⟨tgt.name, VKind.snap, t⟩ :: post : List VRec).length
        = post.length + 1 := by simp
    rw [hlen]
    exact resolveFuel_snap hnodupnew (List.mem_cons_self _ _) rfl ht (post.length + 1)
  · intro p hp
    unfold showVersion getVersionText
    rw [hroundtrip]
    exact resolveFuel_not_mem (fun hmem => hdisj p hp hmem) _
  · intro v hv
    have hnone : indexOfName (namesOf (pre ++ tgt :: post)) v = none := by
      unfold indexOfName
      rw [List.findIdx?_eq_none_iff]
      intro x hx
      simp only [decide_eq_false_iff_not]
      intro he
      exact hv (he ▸ hx)
    simp only [squash, hparse, hnone]

theorem c7_squash_witness :
    squash (":1:a:AB\n1:b:I1:C\n1:e:D1").toList ['b']
        = some (serializeStorage
            [⟨['b'], VKind.snap, ['C', 'A', 'B']⟩,
              ⟨['e'], VKind.delta, ['D', '1']⟩]) ∧
      (logVersions (serializeStorage
            [⟨['b'], VKind.snap, ['C', 'A', 'B']⟩,
              ⟨['e'], VKind.delta, ['D', '1']⟩])).head? = some (['b'], true) ∧
      showVersion (":1:a:AB\n1:b:I1:C\n1:e:D1").toList ['b']
        = some ['C', 'A', 'B'] ∧
      showVersion (serializeStorage
            [⟨['b'], VKind.snap, ['C', 'A', 'B']⟩,
              ⟨['e'], VKind.delta, ['D', '1']⟩]) ['b'] = some ['C', 'A', 'B'] ∧
      showVersion (serializeStorage
            [⟨['b'], VKind.snap, ['C', 'A', 'B']⟩,
              ⟨['e'], VKind.delta, ['D', '1']⟩]) ['a'] = none ∧
      squash (":1:a:AB\n1:b:I1:C\n1:e:D1").toList ['z'] = none := by
  have h := c7_squash (":1:a:AB\n1:b:I1:C\n1:e:D1").toList
    [⟨['a'], VKind.snap, ['A', 'B']⟩]
    [⟨['e'], VKind.delta, ['D', '1']⟩]
    ⟨['b'], VKind.delta, ['I', '1', ':', 'C']⟩
    ['C', 'A', 'B']
    (by decide) (by decide) (by decide) (by decide) (by decide)
  exact ⟨h.1, h.2.1, h.2.2.2.1, h.2.2.2.2.1,
    h.2.2.2.2.2.1 ['a'] (by decide), h.2.2.2.2.2.2 ['z'] (by decide)⟩

/-! ### C5: the first record of a reachable storage is a snapshot -/

/-- Lines produced by `splitNl` contain no newline. -/
theorem not_nl_mem_splitNl : ∀ (s l : Str), l ∈ splitNl s → '\n' ∉ l
  | [], l, hl => by
    simp only [splitNl, List.mem_singleton] at hl
    subst hl
    simp
  | c :: rest, l, hl => by
    unfold splitNl at hl
    by_cases hc : c = '\n'
    · rw [if_pos hc] at hl
      rcases List.mem_cons.mp hl with rfl | hl
      · simp
      · exact not_nl_mem_splitNl rest l hl
    · rw [if_neg hc] at hl
      cases hs : splitNl rest with
      | nil =>
        rw [hs] at hl
        rcases List.mem_singleton.mp hl with rfl
        intro hm
        rcases List.mem_singleton.mp hm with rfl
        exact hc rfl
      | cons l0 ls =>
        rw [hs] at hl
        rcases List.mem_cons.mp hl with rfl | hl2
        · intro hm
          rcases List.mem_cons.mp hm with he | hm2
          · exact hc he.symm
          · exact not_nl_mem_splitNl rest l0 (hs ▸ List.mem_cons_self l0 ls) hm2
        · exact not_nl_mem_splitNl rest l (hs ▸ List.mem_cons_of_mem l0 hl2)

theorem mem_substringJS {c : Char} {s : Str} {a b : Int}
    (h : c ∈ substringJS s a b) : c ∈ s := by
  unfold substringJS at h
  exact List.mem_of_mem_take (List.mem_of_mem_drop h)

/-- Every character of a parsed record's name occurs in the parsed line. -/
theorem parseLine_name_sub {line : Str} {r : VRec} (hp : parseLine line = some r) :
    ∀ c ∈ r.name, c ∈ line := by
  intro c hc
  unfold parseLine at hp
  by_cases hh : line.head? = some ':'
  · rw [if_pos hh] at hp
    cases h1 : idxOf (line.drop 1) ':' with
    | none =>
      simp only [h1] at hp
      exact absurd hp (by simp)
    | some fc =>
      simp only [h1] at hp
      cases h2 : parseIntJS (substringJS (line.drop 1) 0 (fc : Int)) with
      | none =>
        simp only [h2] at hp
        exact absurd hp (by simp)
      | some len =>
        simp only [h2] at hp
        by_cases h3 : (substringFromJS (line.drop 1) ((fc : Int) + 1 + len)).head?
            = some ':'
        · rw [if_pos h3] at hp
          injection hp with hp
          subst hp
          exact List.mem_of_mem_drop (mem_substringJS hc)
        · rw [if_neg h3] at hp
          exact absurd hp (by simp)
  · rw [if_neg hh] at hp
    cases h1 : idxOf line ':' with
    | none =>
      simp only [h1] at hp
      exact absurd hp (by simp)
    | some fc =>
      simp only [h1] at hp
      cases h2 : parseIntJS (substringJS line 0 (fc : Int)) with
      | none =>
        simp only [h2] at hp
        exact absurd hp (by simp)
      | some len =>
        simp only [h2] at hp
        by_cases h3 : (substringFromJS line ((fc : Int) + 1 + len)).head? = some ':'
        · rw [if_pos h3] at hp
          injection hp with hp
          subst hp
          exact mem_substringJS hc
        · rw [if_neg h3] at hp
          exact absurd hp (by simp)

/-- Names of parsed records never contain a newline. -/
theorem parseStorage_name_no_nl (storage : Str) :
    ∀ r ∈ parseStorage storage, '\n' ∉ r.name := by
  intro r hr
  unfold parseStorage at hr
  by_cases hw : storage.all Char.isWhitespace
  · rw [if_pos hw] at hr
    cases hr
  · rw [if_neg hw] at hr
    obtain ⟨line, hline, hpl⟩ := List.mem_filterMap.mp hr
    have hlm : line ∈ splitNl storage := List.mem_of_mem_filter hline
    intro hnl
    exact not_nl_mem_splitNl storage line hlm (parseLine_name_sub hpl '\n' hnl)

theorem resolveNameGo_no_nl (existing : List Str) :
    ∀ (fuel : Nat) (cand : Str), '\n' ∉ cand →
      '\n' ∉ resolveNameGo existing fuel cand
  | 0, cand, h => h
  | fuel + 1, cand, h => by
    unfold resolveNameGo
    by_cases hm : cand ∈ existing
    · rw [if_pos hm]
      refine resolveNameGo_no_nl existing fuel (cand ++ ['#']) ?_
      intro hx
      rcases List.mem_append.mp hx with hx | hx
      · exact h hx
      · simp at hx
    · rw [if_neg hm]
      exact h

theorem resolveVersionName_no_nl (existing : List Str) (p : Str)
    (h : '\n' ∉ p) : '\n' ∉ resolveVersionName existing p := by
  unfold resolveVersionName
  by_cases hm : p ∈ existing
  · rw [if_pos hm]
    refine resolveNameGo_no_nl existing _ _ ?_
    intro hx
    rcases List.mem_append.mp hx with hx | hx
    · exact h hx
    · simp at hx
  · rw [if_neg hm]
    exact h

theorem base36Go_no_nl : ∀ (fuel n : Nat), '\n' ∉ base36Go fuel n
  | 0, n => by simp [base36Go]
  | fuel + 1, n => by
    have hb : ∀ d < 36, b36digit d ≠ '\n' := by decide
    unfold base36Go
    by_cases h : n < 36
    · rw [if_pos h]
      intro hm
      rcases List.mem_singleton.mp hm with he
      exact hb n h he.symm
    · rw [if_neg h]
      intro hm
      rcases List.mem_append.mp hm with hm | hm
      · exact base36Go_no_nl fuel (n / 36) hm
      · rcases List.mem_singleton.mp hm with he
        exact hb (n % 36) (Nat.mod_lt _ (by norm_num)) he.symm

theorem generateHash_no_nl (text : Str) : '\n' ∉ generateHash text :=
  base36Go_no_nl _ _

/-- The name `commit` assigns contains no newline whenever the given name
(if any) contains none. -/
theorem assignedName_no_nl (recs : List VRec) (text : Str) (nameOpt : Option Str)
    (h : ∀ v, nameOpt = some v → '\n' ∉ v) :
    '\n' ∉ assignedName recs text nameOpt := by
  cases nameOpt with
  | none => exact resolveVersionName_no_nl _ _ (generateHash_no_nl text)
  | some v =>
    by_cases hv : ¬v.isEmpty
    · have he : assignedName recs text (some v)
          = resolveVersionName (namesOf recs) v := by
        simp only [assignedName]
        rw [if_pos hv]
      rw [he]
      exact resolveVersionName_no_nl _ _ (h v rfl)
    · have he : assignedName recs text (some v)
          = resolveVersionName (namesOf recs) (generateHash text) := by
        simp only [assignedName]
        rw [if_neg hv]
      rw [he]
      exact resolveVersionName_no_nl _ _ (generateHash_no_nl text)

/-- Whether the first record (if any) is a snapshot with truthy payload. -/
def headSnap : List VRec → Bool
  | [] => true
  | r :: _ => decide (r.kind = VKind.snap) && !r.payload.isEmpty

/-- C5's invariant on a storage string: its first parsed record, when one
exists, is a snapshot with a truthy (non-empty) payload. -/
def FirstSnap (st : Str) : Prop := headSnap (parseStorage st) = true

theorem headSnap_cons (r : VRec) (l : List VRec) :
    headSnap (r :: l) = (decide (r.kind = VKind.snap) && !r.payload.isEmpty) := rfl

/-- Serialize-then-parse preserves the head-snapshot property: the first
record's line survives serialization (its payload is truthy) and comes
back as a snapshot with a still-non-empty payload. -/
theorem headSnap_parse_serialize (recs : List VRec)
    (hnm : ∀ r ∈ recs, '\n' ∉ r.name)
    (hh : headSnap recs = true) :
    headSnap (parseStorage (serializeStorage recs)) = true := by
  rw [parseStorage_serializeStorage recs hnm]
  cases recs with
  | nil => rfl
  | cons r rest =>
    rw [headSnap_cons] at hh
    have hand := (Bool.and_eq_true _ _).mp hh
    have hpe : (fun q : VRec => !q.payload.isEmpty) r = true := hand.2
    rw [List.filter_cons, if_pos hpe, List.map_cons, headSnap_cons]
    refine (Bool.and_eq_true _ _).mpr ⟨hand.1, ?_⟩
    have hne : r.payload ≠ [] := by
      intro h0
      have h2 := hand.2
      rw [h0] at h2
      simp at h2
    have hmne : (mangle r).payload ≠ [] :=
      unescapeString_ne_nil (escapeString_ne_nil hne)
    cases hmp : (mangle r).payload with
    | nil => exact absurd hmp hmne
    | cons a as => rfl

theorem findIdx?_mem {p : Str → Bool} :
    ∀ (l : List Str) (i j : Nat), List.findIdx? p l i = some j →
      ∃ x ∈ l, p x = true
  | [], i, j, h => absurd h (by simp)
  | x :: xs, i, j, h => by
    rw [List.findIdx?_cons] at h
    by_cases hx : p x = true
    · exact ⟨x, List.mem_cons_self _ _, hx⟩
    · rw [if_neg hx] at h
      obtain ⟨y, hy, hpy⟩ := findIdx?_mem xs (i + 1) j h
      exact ⟨y, List.mem_cons_of_mem _ hy, hpy⟩

/-- `commit` preserves the head-snapshot invariant (newline-free given
names). -/
theorem commit_keeps_firstSnap (dmp : Str → Str → List (Int × Str))
    (st text : Str) (nameOpt : Option Str)
    (hn : ∀ v, nameOpt = some v → '\n' ∉ v)
    (hfs : FirstSnap st) : FirstSnap (commit dmp st text nameOpt) := by
  have hnm := parseStorage_name_no_nl st
  have hnew : '\n' ∉ assignedName (parseStorage st) text nameOpt :=
    assignedName_no_nl _ _ _ hn
  unfold FirstSnap at hfs
  cases hrecs : parseStorage st with
  | nil =>
    rw [hrecs] at hnew
    have hc : commit dmp st text nameOpt
        = serializeStorage [⟨assignedName [] text nameOpt, VKind.snap, text⟩] := by
      unfold commit
      rw [hrecs]
      rfl
    unfold FirstSnap
    rw [hc]
    by_cases htxt : text = []
    · subst htxt
      rw [parseStorage_serializeStorage]
      · rfl
      · intro r hr
        rw [List.mem_singleton.mp hr]
        exact hnew
    · apply headSnap_parse_serialize
      · intro r hr
        rw [List.mem_singleton.mp hr]
        exact hnew
      · rw [headSnap_cons]
        refine (Bool.and_eq_true _ _).mpr ⟨rfl, ?_⟩
        cases text with
        | nil => exact absurd rfl htxt
        | cons a as => rfl
  | cons r rest =>
    rw [hrecs] at hnm hnew hfs
    cases hd : findDupe (r :: rest) text with
    | some ex =>
      have hc : commit dmp st text nameOpt
          = serializeStorage ((r :: rest)
              ++ [⟨assignedName (r :: rest) text nameOpt, VKind.delta,
                   '=' :: ex⟩]) := by
        unfold commit
        rw [hrecs]
        simp only [hd]
      unfold FirstSnap
      rw [hc]
      apply headSnap_parse_serialize
      · intro q hq
        rcases List.mem_append.mp hq with hq | hq
        · exact hnm q hq
        · rw [List.mem_singleton.mp hq]
          exact hnew
      · rw [List.cons_append, headSnap_cons]
        rw [headSnap_cons] at hfs
        exact hfs
    | none =>
      have h0 : ¬(r :: rest).length = 0 := by simp
      have hc : commit dmp st text nameOpt
          = serializeStorage ((r :: rest)
              ++ [⟨assignedName (r :: rest) text nameOpt, VKind.delta,
                   (findBestDiffOption dmp (r :: rest) text
                     (assignedName (r :: rest) text nameOpt)).getD []⟩]) := by
        unfold commit
        rw [hrecs]
        simp only [hd, if_neg h0]
      unfold FirstSnap
      rw [hc]
      apply headSnap_parse_serialize
      · intro q hq
        rcases List.mem_append.mp hq with hq | hq
        · exact hnm q hq
        · rw [List.mem_singleton.mp hq]
          exact hnew
      · rw [List.cons_append, headSnap_cons]
        rw [headSnap_cons] at hfs
        exact hfs

/-- `reset` preserves the head-snapshot invariant. -/
theorem reset_keeps_firstSnap (st v st2 : Str) (hfs : FirstSnap st)
    (h : reset st v = some st2) : FirstSnap st2 := by
  unfold reset at h
  cases hidx : indexOfName (namesOf (parseStorage st)) v with
  | none =>
    simp only [hidx] at h
    exact absurd h (by simp)
  | some idx =>
    simp only [hidx] at h
    injection h with h
    subst h
    have hnm := parseStorage_name_no_nl st
    unfold FirstSnap at hfs
    cases hrecs : parseStorage st with
    | nil =>
      rw [hrecs] at hidx
      exact absurd hidx (by simp [indexOfName, namesOf])
    | cons r rest =>
      rw [hrecs] at hnm hfs
      rw [List.take_succ_cons]
      unfold FirstSnap
      apply headSnap_parse_serialize
      · intro q hq
        rcases List.mem_cons.mp hq with rfl | hq
        · exact hnm q (List.mem_cons_self _ _)
        · exact hnm q (List.mem_cons_of_mem r (List.take_subset _ _ hq))
      · rw [headSnap_cons]
        rw [headSnap_cons] at hfs
        exact hfs

/-- `squash` onto a target that does not resolve to the empty text
establishes the head-snapshot invariant. -/
theorem squash_keeps_firstSnap (st v st2 : Str)
    (hne : getVersionText (parseStorage st) v ≠ some [])
    (h : squash st v = some st2) : FirstSnap st2 := by
  unfold squash at h
  cases hidx : indexOfName (namesOf (parseStorage st)) v with
  | none =>
    simp only [hidx] at h
    exact absurd h (by simp)
  | some idx =>
    simp only [hidx] at h
    cases hres : getVersionText (parseStorage st) v with
    | none =>
      simp only [hres] at h
      exact absurd h (by simp)
    | some t =>
      simp only [hres] at h
      injection h with h
      subst h
      have ht : t ≠ [] := by
        intro h0
        subst h0
        exact hne hres
      unfold FirstSnap
      apply headSnap_parse_serialize
      · intro q hq
        rcases List.mem_cons.mp hq with rfl | hq
        · show '\n' ∉ v
          obtain ⟨x, hx, hpx⟩ := findIdx?_mem _ _ _ hidx
          have hxv : x = v := of_decide_eq_true hpx
          subst hxv
          obtain ⟨rr, hrr, hrn⟩ := List.mem_map.mp hx
          rw [← hrn]
          exact parseStorage_name_no_nl st rr hrr
        · exact parseStorage_name_no_nl st q (List.drop_subset _ _ hq)
      · rw [headSnap_cons]
        refine (Bool.and_eq_true _ _).mpr ⟨rfl, ?_⟩
        cases t with
        | nil => exact absurd rfl ht
        | cons a as => rfl

instance : DecidablePred FirstSnap := fun st => by
  unfold FirstSnap
  infer_instance

/-- C5 counterexample: a storage reachable from the empty storage by three
commits and one squash whose single record is a *delta*.  Committing `A`,
then the empty text twice (the second empty commit is deduplicated into the
reference `=v2`), then squashing onto `v2`: the re-snapshotted `v2` has
empty text, its line is dropped by the serializer, and the surviving
storage `2:v3:=v2` starts with a delta record. -/
theorem c5_cex :
    squash
          (commit dmpTrivial
            (commit dmpTrivial
              (commit dmpTrivial [] ['A'] (some ['v', '1']))
              [] (some ['v', '2']))
            [] (some ['v', '3']))
          ['v', '2']
        = some ("2:v3:=v2").toList ∧
      (parseStorage (("2:v3:=v2").toList)).map VRec.kind = [VKind.delta] := by
  decide

/-- **C5 (amended).** The head-snapshot property — the first parsed record,
when one exists, is a snapshot with non-empty text — holds for the empty
storage and is preserved by `commit` (for given names without a newline),
by `reset`, and by `squash` whenever the squash target does not resolve to
the empty text.  Hence it holds in every storage reachable by such
operations; the unrestricted claim fails because squashing onto a version
that resolves to the empty text drops the re-snapshotted record and can
leave a delta first. -/
theorem c5_first_snapshot (dmp : Str → Str → List (Int × Str)) :
    FirstSnap [] ∧
    (∀ st text nameOpt, FirstSnap st → (∀ v, nameOpt = some v → '\n' ∉ v) →
      FirstSnap (commit dmp st text nameOpt)) ∧
    (∀ st v st2, FirstSnap st → reset st v = some st2 → FirstSnap st2) ∧
    (∀ st v st2, getVersionText (parseStorage st) v ≠ some [] →
      squash st v = some st2 → FirstSnap st2) := by
  refine ⟨rfl, ?_, ?_, ?_⟩
  · intro st text nameOpt hfs hn
    exact commit_keeps_firstSnap dmp st text nameOpt hn hfs
  · intro st v st2 hfs h
    exact reset_keeps_firstSnap st v st2 hfs h
  · intro st v st2 hne h
    exact squash_keeps_firstSnap st v st2 hne h

theorem c5_first_snapshot_witness :
    FirstSnap (commit dmpTrivial (":1:a:AB").toList ['Q'] (some ['b'])) ∧
      FirstSnap (serializeStorage [⟨['a'], VKind.snap, ['A', 'B']⟩]) :=
  ⟨(c5_first_snapshot dmpTrivial).2.1 (":1:a:AB").toList ['Q'] (some ['b'])
      (by decide)
      (fun v h => by injection h with h; subst h; decide),
    (c5_first_snapshot dmpTrivial).2.2.2 (":1:a:AB").toList ['a']
      (serializeStorage [⟨['a'], VKind.snap, ['A', 'B']⟩])
      (by decide) (by decide)⟩

/-! ### C1: resolve-after-commit -/

/-- Operations as the encoder actually produces them: retain/delete lengths
present (no `NaN`). -/
def goodOp : DiffOp → Bool
  | DiffOp.retain (some _) => true
  | DiffOp.retain none => false
  | DiffOp.delete (some _) => true
  | DiffOp.delete none => false
  | DiffOp.insert _ => true

/-- Reference semantics of `applyDiffGo` on a live (`some`) cursor: walk
the base text and append the implicit trailing retain at the end. -/
def semGo (text : Str) : Nat → List DiffOp → Str
  | cur, [] => if cur < text.length then text.drop cur else []
  | cur, DiffOp.retain (some n) :: rest =>
    substringO text (some cur) (some (cur + n)) ++ semGo text (cur + n) rest
  | _, DiffOp.retain none :: _ => []
  | cur, DiffOp.delete (some n) :: rest => semGo text (cur + n) rest
  | _, DiffOp.delete none :: _ => []
  | cur, DiffOp.insert t :: rest => t ++ semGo text cur rest

theorem applyDiffGo_sem (text : Str) :
    ∀ (ops : List DiffOp) (acc : Str) (cur : Nat),
      (∀ op ∈ ops, goodOp op = true) →
      applyDiffGo text acc (some cur) ops = acc ++ semGo text cur ops
  | [], acc, cur, _ => by
    show (if cur < text.length then acc ++ text.drop cur else acc)
      = acc ++ if cur < text.length then text.drop cur else []
    by_cases h : cur < text.length
    · rw [if_pos h, if_pos h]
    · rw [if_neg h, if_neg h, List.append_nil]
  | DiffOp.retain len :: rest, acc, cur, hg => by
    cases len with
    | none => exact absurd (hg _ (List.mem_cons_self _ _)) (by simp [goodOp])
    | some n =>
      show applyDiffGo text (acc ++ substringO text (some cur) (addO (some cur) (some n)))
          (addO (some cur) (some n)) rest
        = acc ++ (substringO text (some cur) (some (cur + n)) ++ semGo text (cur + n) rest)
      have haddO : addO (some cur) (some n) = some (cur + n) := rfl
      rw [haddO,
        applyDiffGo_sem text rest _ _ (fun op hop => hg op (List.mem_cons_of_mem _ hop)),
        List.append_assoc]
  | DiffOp.delete len :: rest, acc, cur, hg => by
    cases len with
    | none => exact absurd (hg _ (List.mem_cons_self _ _)) (by simp [goodOp])
    | some n =>
      show applyDiffGo text acc (addO (some cur) (some n)) rest
        = acc ++ semGo text (cur + n) rest
      have haddO : addO (some cur) (some n) = some (cur + n) := rfl
      rw [haddO,
        applyDiffGo_sem text rest _ _ (fun op hop => hg op (List.mem_cons_of_mem _ hop))]
  | DiffOp.insert t :: rest, acc, cur, hg => by
    show applyDiffGo text (acc ++ t) (some cur) rest
      = acc ++ (t ++ semGo text cur rest)
    rw [applyDiffGo_sem text rest _ _ (fun op hop => hg op (List.mem_cons_of_mem _ hop)),
      List.append_assoc]

theorem applyDiff_sem (text : Str) (ops : List DiffOp)
    (h : ∀ op ∈ ops, goodOp op = true) :
    applyDiff text ops = semGo text 0 ops := by
  unfold applyDiff
  rw [applyDiffGo_sem text ops [] 0 h]
  rfl

theorem substringO_exact (text : Str) (cur n : Nat) (h : cur + n ≤ text.length) :
    substringO text (some cur) (some (cur + n)) = (text.drop cur).take n := by
  show (text.take (max (min cur text.length) (min (cur + n) text.length))).drop
      (min (min cur text.length) (min (cur + n) text.length)) = (text.drop cur).take n
  rw [show min cur text.length = cur from by omega,
    show min (cur + n) text.length = cur + n from by omega,
    show max cur (cur + n) = cur + n from by omega,
    show min cur (cur + n) = cur from by omega]
  rw [List.drop_take]
  congr 1
  omega

theorem semGo_retains (text : Str) :
    ∀ (rets : List DiffOp), (∀ op ∈ rets, isRetain op = true ∧ goodOp op = true) →
      ∀ cur, semGo text cur rets = (if cur < text.length then text.drop cur else [])
  | [], _, cur => rfl
  | op :: rest, h, cur => by
    have hop := h op (List.mem_cons_self _ _)
    cases op with
    | delete len => exact absurd hop.1 (by simp [isRetain])
    | insert t => exact absurd hop.1 (by simp [isRetain])
    | retain len =>
      cases len with
      | none => exact absurd hop.2 (by simp [goodOp])
      | some n =>
        show substringO text (some cur) (some (cur + n)) ++ semGo text (cur + n) rest
          = if cur < text.length then text.drop cur else []
        rw [semGo_retains text rest (fun q hq => h q (List.mem_cons_of_mem _ hq)) (cur + n)]
        by_cases hc : cur < text.length
        · by_cases hcn : cur + n < text.length
          · rw [if_pos hcn, if_pos hc, substringO_exact text cur n (by omega)]
            have hdd : (text.drop cur).drop n = text.drop (cur + n) := by
              rw [List.drop_drop, Nat.add_comm]
            rw [← hdd, List.take_append_drop]
          · rw [if_neg hcn, if_pos hc, List.append_nil]
            show (text.take (max (min cur text.length) (min (cur + n) text.length))).drop
                (min (min cur text.length) (min (cur + n) text.length)) = text.drop cur
            rw [show min cur text.length = cur from by omega,
              show min (cur + n) text.length = text.length from by omega,
              show max cur text.length = text.length from by omega,
              show min cur text.length = cur from by omega,
              List.take_length]
        · rw [if_neg hc, if_neg (show ¬cur + n < text.length by omega), List.append_nil]
          show (text.take (max (min cur text.length) (min (cur + n) text.length))).drop
              (min (min cur text.length) (min (cur + n) text.length)) = []
          rw [show min cur text.length = text.length from by omega,
            show min (cur + n) text.length = text.length from by omega,
            show max text.length text.length = text.length from by omega,
            show min text.length text.length = text.length from by omega,
            List.take_length, List.drop_length]

theorem semGo_append_retains (text : Str) (rets : List DiffOp)
    (hr : ∀ op ∈ rets, isRetain op = true ∧ goodOp op = true) :
    ∀ (a : List DiffOp) (cur : Nat), (∀ op ∈ a, goodOp op = true) →
      semGo text cur (a ++ rets) = semGo text cur a
  | [], cur, _ => by
    rw [List.nil_append, semGo_retains text rets hr cur]
    rfl
  | DiffOp.retain len :: a', cur, hg => by
    cases len with
    | none => exact absurd (hg _ (List.mem_cons_self _ _)) (by simp [goodOp])
    | some n =>
      show substringO text (some cur) (some (cur + n)) ++ semGo text (cur + n) (a' ++ rets)
        = substringO text (some cur) (some (cur + n)) ++ semGo text (cur + n) a'
      rw [semGo_append_retains text rets hr a' (cur + n)
        (fun q hq => hg q (List.mem_cons_of_mem _ hq))]
  | DiffOp.delete len :: a', cur, hg => by
    cases len with
    | none => exact absurd (hg _ (List.mem_cons_self _ _)) (by simp [goodOp])
    | some n =>
      show semGo text (cur + n) (a' ++ rets) = semGo text (cur + n) a'
      exact semGo_append_retains text rets hr a' (cur + n)
        (fun q hq => hg q (List.mem_cons_of_mem _ hq))
  | DiffOp.insert t :: a', cur, hg => by
    show t ++ semGo text cur (a' ++ rets) = t ++ semGo text cur a'
    rw [semGo_append_retains text rets hr a' cur
      (fun q hq => hg q (List.mem_cons_of_mem _ hq))]

theorem takeWhile_mem_sat {p : DiffOp → Bool} :
    ∀ {l : List DiffOp} {op : DiffOp}, op ∈ l.takeWhile p → p op = true := by
  intro l
  induction l with
  | nil => intro op h; cases h
  | cons x xs ih =>
    intro op h
    rw [List.takeWhile_cons] at h
    by_cases hx : p x = true
    · rw [if_pos hx] at h
      rcases List.mem_cons.mp h with rfl | h
      · exact hx
      · exact ih h
    · rw [if_neg hx] at h
      cases h

theorem dtr_split (ops : List DiffOp) :
    ops = dropTrailingRetains ops ++ (ops.reverse.takeWhile isRetain).reverse := by
  unfold dropTrailingRetains
  rw [← List.reverse_append, List.takeWhile_append_dropWhile, List.reverse_reverse]

theorem mem_dtr {op : DiffOp} {ops : List DiffOp}
    (h : op ∈ dropTrailingRetains ops) : op ∈ ops := by
  unfold dropTrailingRetains at h
  rw [List.mem_reverse] at h
  have := (List.dropWhile_sublist isRetain).subset h
  rw [List.mem_reverse] at this
  exact this

/-- Dropping trailing retains does not change `applyDiff` (the implicit
trailing retain takes over). -/
theorem applyDiff_dtr (text : Str) (ops : List DiffOp)
    (h : ∀ op ∈ ops, goodOp op = true) :
    applyDiff text (dropTrailingRetains ops) = applyDiff text ops := by
  have hgd : ∀ op ∈ dropTrailingRetains ops, goodOp op = true :=
    fun op hop => h op (mem_dtr hop)
  have hrets : ∀ op ∈ (ops.reverse.takeWhile isRetain).reverse,
      isRetain op = true ∧ goodOp op = true := by
    intro op hop
    rw [List.mem_reverse] at hop
    refine ⟨takeWhile_mem_sat hop, ?_⟩
    have := (List.takeWhile_sublist isRetain).subset hop
    rw [List.mem_reverse] at this
    exact h op this
  rw [applyDiff_sem text _ hgd]
  conv_rhs => rw [dtr_split ops]
  rw [applyDiff_sem text _ (by
    intro op hop
    rcases List.mem_append.mp hop with hop | hop
    · exact hgd op hop
    · exact (hrets op hop).2)]
  rw [semGo_append_retains text _ hrets _ 0 hgd]

theorem flatMap_encode_head {ops : List DiffOp} :
    ∀ x, (ops.flatMap encodeOp).head? = some x → x = 'R' ∨ x = 'D' ∨ x = 'I' := by
  cases ops with
  | nil => intro x h; simp at h
  | cons op rest =>
    intro x h
    cases op with
    | retain len =>
      have he : ((DiffOp.retain len :: rest).flatMap encodeOp)
          = 'R' :: (numToStr len ++ rest.flatMap encodeOp) := by
        rw [List.flatMap_cons]; rfl
      rw [he, List.head?_cons] at h
      exact Or.inl (Option.some.inj h).symm
    | delete len =>
      have he : ((DiffOp.delete len :: rest).flatMap encodeOp)
          = 'D' :: (numToStr len ++ rest.flatMap encodeOp) := by
        rw [List.flatMap_cons]; rfl
      rw [he, List.head?_cons] at h
      exact Or.inr (Or.inl (Option.some.inj h).symm)
    | insert t =>
      have he : ((DiffOp.insert t :: rest).flatMap encodeOp)
          = 'I' :: ((natToStr t.length ++ ':' :: t) ++ rest.flatMap encodeOp) := by
        rw [List.flatMap_cons]; rfl
      rw [he, List.head?_cons] at h
      exact Or.inr (Or.inr (Option.some.inj h).symm)

theorem flatMap_encode_head_nondigit {ops : List DiffOp} :
    ∀ x, (ops.flatMap encodeOp).head? = some x → Char.isDigit x = false := by
  intro x h
  rcases flatMap_encode_head x h with rfl | rfl | rfl <;> decide

theorem decodeGo_encode :
    ∀ (ops : List DiffOp) (done : Str) (fuel : Nat),
      (∀ op ∈ ops, goodOp op = true) →
      (ops.flatMap encodeOp).length < fuel →
      decodeGo fuel done (ops.flatMap encodeOp) = ops
  | [], done, fuel, _, hf => by
    cases fuel with
    | zero => simp at hf
    | succ f => rfl
  | DiffOp.retain len :: rest, done, fuel, hg, hf => by
    cases len with
    | none => exact absurd (hg _ (List.mem_cons_self _ _)) (by simp [goodOp])
    | some n =>
      have henc : ((DiffOp.retain (some n) :: rest).flatMap encodeOp)
          = 'R' :: (natToStr n ++ rest.flatMap encodeOp) := by
        rw [List.flatMap_cons]; rfl
      rw [henc] at hf ⊢
      cases fuel with
      | zero => exact absurd hf (Nat.not_lt_zero _)
      | succ f =>
        have hdig : (natToStr n ++ rest.flatMap encodeOp).takeWhile Char.isDigit
            = natToStr n :=
          takeWhile_append_stop (natToStr n) (natToStr_digits n)
            flatMap_encode_head_nondigit
        have hdrop : (natToStr n ++ rest.flatMap encodeOp).dropWhile Char.isDigit
            = rest.flatMap encodeOp :=
          dropWhile_append_stop (natToStr n) (natToStr_digits n)
            flatMap_encode_head_nondigit
        conv_lhs => rw [decodeGo]
        rw [if_pos (show 'R' = 'R' ∨ 'R' = 'D' from Or.inl rfl)]
        simp only [hdig, hdrop, digitsVal_natToStr, if_true]
        rw [decodeGo_encode rest _ f
          (fun op hop => hg op (List.mem_cons_of_mem _ hop))
          (by
            simp only [List.length_cons, List.length_append] at hf
            omega)]
  | DiffOp.delete len :: rest, done, fuel, hg, hf => by
    cases len with
    | none => exact absurd (hg _ (List.mem_cons_self _ _)) (by simp [goodOp])
    | some n =>
      have henc : ((DiffOp.delete (some n) :: rest).flatMap encodeOp)
          = 'D' :: (natToStr n ++ rest.flatMap encodeOp) := by
        rw [List.flatMap_cons]; rfl
      rw [henc] at hf ⊢
      cases fuel with
      | zero => exact absurd hf (Nat.not_lt_zero _)
      | succ f =>
        have hdig : (natToStr n ++ rest.flatMap encodeOp).takeWhile Char.isDigit
            = natToStr n :=
          takeWhile_append_stop (natToStr n) (natToStr_digits n)
            flatMap_encode_head_nondigit
        have hdrop : (natToStr n ++ rest.flatMap encodeOp).dropWhile Char.isDigit
            = rest.flatMap encodeOp :=
          dropWhile_append_stop (natToStr n) (natToStr_digits n)
            flatMap_encode_head_nondigit
        conv_lhs => rw [decodeGo]
        rw [if_pos (show 'D' = 'R' ∨ 'D' = 'D' from Or.inr rfl)]
        simp only [hdig, hdrop, digitsVal_natToStr, if_false]
        rw [decodeGo_encode rest _ f
          (fun op hop => hg op (List.mem_cons_of_mem _ hop))
          (by
            simp only [List.length_cons, List.length_append] at hf
            omega)]
        rw [if_neg (by decide)]
  | DiffOp.insert t :: rest, done, fuel, hg, hf => by
    have henc : ((DiffOp.insert t :: rest).flatMap encodeOp)
        = 'I' :: (natToStr t.length ++ ':' :: (t ++ rest.flatMap encodeOp)) := by
      rw [List.flatMap_cons]
      show ('I' :: (natToStr t.length ++ ':' :: t)) ++ rest.flatMap encodeOp = _
      simp [List.append_assoc]
    rw [henc] at hf ⊢
    cases fuel with
    | zero => exact absurd hf (Nat.not_lt_zero _)
    | succ f =>
      have hlstr : (natToStr t.length ++ ':' :: (t ++ rest.flatMap encodeOp)).takeWhile
          (fun d => d ≠ ':') = natToStr t.length :=
        takeWhile_append_stop (natToStr t.length)
          (fun c hc => by
            simp only [ne_eq, decide_not, Bool.not_eq_eq_eq_not, Bool.not_true,
              decide_eq_false_iff_not]
            exact (digitChar_facts (natToStr_mem_digitChars _ c hc)).2.2.2.1)
          (fun x hx => by
            have : x = ':' := (Option.some.inj hx).symm
            subst this
            simp)
      have hafter : (natToStr t.length ++ ':' :: (t ++ rest.flatMap encodeOp)).dropWhile
          (fun d => d ≠ ':') = ':' :: (t ++ rest.flatMap encodeOp) :=
        dropWhile_append_stop (natToStr t.length)
          (fun c hc => by
            simp only [ne_eq, decide_not, Bool.not_eq_eq_eq_not, Bool.not_true,
              decide_eq_false_iff_not]
            exact (digitChar_facts (natToStr_mem_digitChars _ c hc)).2.2.2.1)
          (fun x hx => by
            have : x = ':' := (Option.some.inj hx).symm
            subst this
            simp)
      conv_lhs => rw [decodeGo]
      rw [if_neg (by decide)]
      rw [if_pos rfl]
      simp only [hlstr, hafter, parseIntJS_natToStr, List.drop_succ_cons,
        List.drop_zero]
      rw [if_neg (by omega)]
      rw [show ((t.length : Int)).toNat = t.length from by omega]
      rw [List.take_left, List.drop_left]
      rw [decodeGo_encode rest _ f
        (fun op hop => hg op (List.mem_cons_of_mem _ hop))
        (by
          simp only [List.length_cons, List.length_append] at hf
          omega)]

theorem decodeDiff_encodeDiff (ops : List DiffOp)
    (h : ∀ op ∈ ops, goodOp op = true) :
    decodeDiff (encodeDiff ops) = dropTrailingRetains ops := by
  unfold decodeDiff encodeDiff
  exact decodeGo_encode (dropTrailingRetains ops) [] _
    (fun op hop => h op (mem_dtr hop)) (Nat.lt_succ_self _)

/-- One provider pair's contribution to the converted operation list. -/
def dmpOpsOf (pr : Int × Str) : List DiffOp :=
  if pr.1 = 0 then
    (if 0 < pr.2.length then [DiffOp.retain (some pr.2.length)] else [])
  else if pr.1 = -1 then
    (if 0 < pr.2.length then [DiffOp.delete (some pr.2.length)] else [])
  else if pr.1 = 1 then
    (if 0 < pr.2.length then [DiffOp.insert pr.2] else [])
  else []

theorem mem_dmpOpsOf {op : DiffOp} {pr : Int × Str} (h : op ∈ dmpOpsOf pr) :
    0 < pr.2.length ∧
      ((pr.1 = 0 ∧ op = DiffOp.retain (some pr.2.length)) ∨
        (pr.1 = -1 ∧ op = DiffOp.delete (some pr.2.length)) ∨
        (pr.1 = 1 ∧ op = DiffOp.insert pr.2)) := by
  unfold dmpOpsOf at h
  by_cases h0 : pr.1 = 0
  · rw [if_pos h0] at h
    by_cases hl : 0 < pr.2.length
    · rw [if_pos hl] at h
      rcases List.mem_singleton.mp h with rfl
      exact ⟨hl, Or.inl ⟨h0, rfl⟩⟩
    · rw [if_neg hl] at h
      cases h
  · rw [if_neg h0] at h
    by_cases hm : pr.1 = -1
    · rw [if_pos hm] at h
      by_cases hl : 0 < pr.2.length
      · rw [if_pos hl] at h
        rcases List.mem_singleton.mp h with rfl
        exact ⟨hl, Or.inr (Or.inl ⟨hm, rfl⟩)⟩
      · rw [if_neg hl] at h
        cases h
    · rw [if_neg hm] at h
      by_cases h1 : pr.1 = 1
      · rw [if_pos h1] at h
        by_cases hl : 0 < pr.2.length
        · rw [if_pos hl] at h
          rcases List.mem_singleton.mp h with rfl
          exact ⟨hl, Or.inr (Or.inr ⟨h1, rfl⟩)⟩
        · rw [if_neg hl] at h
          cases h
      · rw [if_neg h1] at h
        cases h

theorem dmpOpsOf_good {op : DiffOp} {pr : Int × Str} (h : op ∈ dmpOpsOf pr) :
    goodOp op = true := by
  obtain ⟨hl, hc⟩ := mem_dmpOpsOf h
  rcases hc with ⟨-, rfl⟩ | ⟨-, rfl⟩ | ⟨-, rfl⟩ <;> rfl

theorem convert_eq_flatMap (diffs : List (Int × Str)) :
    convertDmpDiffsToOperations diffs = diffs.flatMap dmpOpsOf := by
  unfold convertDmpDiffsToOperations optimizeSimpleOperations
  have hsame : diffs.flatMap (fun pr =>
      if pr.1 = 0 then
        (if 0 < pr.2.length then [DiffOp.retain (some pr.2.length)] else [])
      else if pr.1 = -1 then
        (if 0 < pr.2.length then [DiffOp.delete (some pr.2.length)] else [])
      else if pr.1 = 1 then
        (if 0 < pr.2.length then [DiffOp.insert pr.2] else [])
      else []) = diffs.flatMap dmpOpsOf := rfl
  rw [hsame]
  rw [List.filter_eq_self.mpr]
  intro op hop
  obtain ⟨pr, hpr, hmem⟩ := List.mem_flatMap.mp hop
  obtain ⟨hl, hc⟩ := mem_dmpOpsOf hmem
  rcases hc with ⟨-, rfl⟩ | ⟨-, rfl⟩ | ⟨-, rfl⟩
  · exact decide_eq_true hl
  · exact decide_eq_true hl
  · cases hp2 : pr.2 with
    | nil => rw [hp2] at hl; simp at hl
    | cons a as => rfl

theorem oldParts_cons (pr : Int × Str) (rest : List (Int × Str)) :
    oldParts (pr :: rest)
      = (if pr.1 = 0 ∨ pr.1 = -1 then pr.2 else []) ++ oldParts rest := by
  unfold oldParts
  rw [List.filterMap_cons]
  by_cases h : pr.1 = 0 ∨ pr.1 = -1
  · rw [if_pos h, if_pos h, List.flatten_cons]
  · rw [if_neg h, if_neg h, List.nil_append]

theorem newParts_cons (pr : Int × Str) (rest : List (Int × Str)) :
    newParts (pr :: rest)
      = (if pr.1 = 0 ∨ pr.1 = 1 then pr.2 else []) ++ newParts rest := by
  unfold newParts
  rw [List.filterMap_cons]
  by_cases h : pr.1 = 0 ∨ pr.1 = 1
  · rw [if_pos h, if_pos h, List.flatten_cons]
  · rw [if_neg h, if_neg h, List.nil_append]

theorem semGo_dmpFlat (text : Str) :
    ∀ (diffs : List (Int × Str)) (cur : Nat),
      text.drop cur = oldParts diffs →
      semGo text cur (diffs.flatMap dmpOpsOf) = newParts diffs
  | [], cur, h => by
    have hl := congrArg List.length h
    simp only [List.length_drop] at hl
    have hop : (oldParts ([] : List (Int × Str))).length = 0 := rfl
    rw [hop] at hl
    show (if cur < text.length then text.drop cur else []) = newParts []
    rw [if_neg (by omega)]
    rfl
  | pr :: rest, cur, h => by
    rw [oldParts_cons] at h
    rw [List.flatMap_cons, newParts_cons]
    by_cases h0 : pr.1 = 0
    · rw [if_pos (Or.inl h0)] at h
      rw [if_pos (Or.inl h0 : pr.1 = 0 ∨ pr.1 = 1)]
      by_cases hl : 0 < pr.2.length
      · have hf : dmpOpsOf pr = [DiffOp.retain (some pr.2.length)] := by
          unfold dmpOpsOf
          rw [if_pos h0, if_pos hl]
        rw [hf, List.singleton_append]
        show substringO text (some cur) (some (cur + pr.2.length))
            ++ semGo text (cur + pr.2.length) (rest.flatMap dmpOpsOf)
          = pr.2 ++ newParts rest
        have hlen : cur + pr.2.length ≤ text.length := by
          have hld := congrArg List.length h
          simp only [List.length_drop, List.length_append] at hld
          omega
        rw [substringO_exact text cur pr.2.length hlen, h, List.take_left]
        rw [semGo_dmpFlat text rest (cur + pr.2.length) (by
          have hdd : text.drop (cur + pr.2.length)
              = (text.drop cur).drop pr.2.length := by
            rw [List.drop_drop]
          rw [hdd, h, List.drop_left])]
      · have hnil : pr.2 = [] := by
          cases hp : pr.2 with
          | nil => rfl
          | cons a as => rw [hp] at hl; simp at hl
        have hf : dmpOpsOf pr = [] := by
          unfold dmpOpsOf
          rw [if_pos h0, if_neg hl]
        rw [hf, List.nil_append, hnil, List.nil_append]
        rw [hnil, List.nil_append] at h
        exact semGo_dmpFlat text rest cur h
    · by_cases hm : pr.1 = -1
      · rw [if_pos (Or.inr hm)] at h
        rw [if_neg (by
          rintro (hc | hc)
          · exact h0 hc
          · rw [hc] at hm
            exact absurd hm (by decide))]
        rw [List.nil_append]
        by_cases hl : 0 < pr.2.length
        · have hf : dmpOpsOf pr = [DiffOp.delete (some pr.2.length)] := by
            unfold dmpOpsOf
            rw [if_neg h0, if_pos hm, if_pos hl]
          rw [hf, List.singleton_append]
          show semGo text (cur + pr.2.length) (rest.flatMap dmpOpsOf) = newParts rest
          exact semGo_dmpFlat text rest (cur + pr.2.length) (by
            have hdd : text.drop (cur + pr.2.length)
                = (text.drop cur).drop pr.2.length := by
              rw [List.drop_drop]
            rw [hdd, h, List.drop_left])
        · have hnil : pr.2 = [] := by
            cases hp : pr.2 with
            | nil => rfl
            | cons a as => rw [hp] at hl; simp at hl
          have hf : dmpOpsOf pr = [] := by
            unfold dmpOpsOf
            rw [if_neg h0, if_pos hm, if_neg hl]
          rw [hf, List.nil_append]
          rw [hnil, List.nil_append] at h
          exact semGo_dmpFlat text rest cur h
      · by_cases h1 : pr.1 = 1
        · rw [if_neg (by
            rintro (hc | hc)
            · exact h0 hc
            · exact hm hc), List.nil_append] at h
          rw [if_pos (Or.inr h1 : pr.1 = 0 ∨ pr.1 = 1)]
          by_cases hl : 0 < pr.2.length
          · have hf : dmpOpsOf pr = [DiffOp.insert pr.2] := by
              unfold dmpOpsOf
              rw [if_neg h0, if_neg hm, if_pos h1, if_pos hl]
            rw [hf, List.singleton_append]
            show pr.2 ++ semGo text cur (rest.flatMap dmpOpsOf)
              = pr.2 ++ newParts rest
            rw [semGo_dmpFlat text rest cur h]
          · have hnil : pr.2 = [] := by
              cases hp : pr.2 with
              | nil => rfl
              | cons a as => rw [hp] at hl; simp at hl
            have hf : dmpOpsOf pr = [] := by
              unfold dmpOpsOf
              rw [if_neg h0, if_neg hm, if_pos h1, if_neg hl]
            rw [hf, List.nil_append, hnil, List.nil_append]
            exact semGo_dmpFlat text rest cur h
        · rw [if_neg (by
            rintro (hc | hc)
            · exact h0 hc
            · exact hm hc), List.nil_append] at h
          rw [if_neg (by
            rintro (hc | hc)
            · exact h0 hc
            · exact h1 hc), List.nil_append]
          have hf : dmpOpsOf pr = [] := by
            unfold dmpOpsOf
            rw [if_neg h0, if_neg hm, if_neg h1]
          rw [hf, List.nil_append]
          exact semGo_dmpFlat text rest cur h

theorem calculateDiff_good (dmp : Str → Str → List (Int × Str)) (old new : Str) :
    ∀ op ∈ calculateDiff dmp old new, goodOp op = true := by
  intro op hop
  unfold calculateDiff at hop
  by_cases he : old = new
  · rw [if_pos he] at hop
    by_cases hl : 0 < old.length
    · rw [if_pos hl] at hop
      rcases List.mem_singleton.mp hop with rfl
      rfl
    · rw [if_neg hl] at hop
      cases hop
  · rw [if_neg he] at hop
    by_cases ho : old.length = 0
    · rw [if_pos ho] at hop
      by_cases hl : 0 < new.length
      · rw [if_pos hl] at hop
        rcases List.mem_singleton.mp hop with rfl
        rfl
      · rw [if_neg hl] at hop
        cases hop
    · rw [if_neg ho] at hop
      by_cases hn : new.length = 0
      · rw [if_pos hn] at hop
        rcases List.mem_singleton.mp hop with rfl
        rfl
      · rw [if_neg hn] at hop
        rw [convert_eq_flatMap] at hop
        obtain ⟨pr, -, hmem⟩ := List.mem_flatMap.mp hop
        exact dmpOpsOf_good hmem

theorem applyDiff_calculateDiff (dmp : Str → Str → List (Int × Str))
    (hdmp : DmpValid dmp) (old new : Str) (hne : old ≠ new) (hnew : new ≠ []) :
    applyDiff old (calculateDiff dmp old new) = new := by
  unfold calculateDiff
  rw [if_neg hne]
  by_cases ho : old.length = 0
  · rw [if_pos ho]
    have hon : old = [] := by
      cases old with
      | nil => rfl
      | cons a as => simp at ho
    subst hon
    rw [if_pos (by
      cases new with
      | nil => exact absurd rfl hnew
      | cons a as => simp)]
    rw [applyDiff_sem _ _ (by
      intro op hop
      rcases List.mem_singleton.mp hop with rfl
      rfl)]
    show new ++ semGo [] 0 [] = new
    show new ++ (if 0 < ([] : Str).length then ([] : Str).drop 0 else []) = new
    rw [if_neg (by simp), List.append_nil]
  · rw [if_neg ho]
    rw [if_neg (fun h => hnew (by
      cases new with
      | nil => exact absurd rfl hnew
      | cons a as => simp at h))]
    have hd := hdmp old new hne (fun h => ho (by rw [h]; rfl)) hnew
    rw [convert_eq_flatMap]
    rw [applyDiff_sem _ _ (fun op hop => by
      obtain ⟨pr, -, hmem⟩ := List.mem_flatMap.mp hop
      exact dmpOpsOf_good hmem)]
    rw [semGo_dmpFlat old (dmp old new) 0 (by
      rw [List.drop_zero, hd.1])]
    exact hd.2

/-- The full stored-edit round trip: encoding the computed diff, decoding
it back (dropping trailing retains on the way) and applying it to the old
text reconstructs the new text. -/
theorem applyDiff_codec (dmp : Str → Str → List (Int × Str))
    (hdmp : DmpValid dmp) (old new : Str) (hne : old ≠ new) (hnew : new ≠ []) :
    applyDiff old (decodeDiff (encodeDiff (calculateDiff dmp old new))) = new := by
  rw [decodeDiff_encodeDiff _ (calculateDiff_good dmp old new),
    applyDiff_dtr _ _ (calculateDiff_good dmp old new),
    applyDiff_calculateDiff dmp hdmp old new hne hnew]

theorem mem_encodeDiff {c : Char} {ops : List DiffOp}
    (hg : ∀ op ∈ ops, goodOp op = true) (hc : c ∈ encodeDiff ops) :
    c = 'R' ∨ c = 'D' ∨ c = 'I' ∨ c = ':' ∨ c ∈ digitChars ∨
      ∃ t, DiffOp.insert t ∈ ops ∧ c ∈ t := by
  unfold encodeDiff at hc
  obtain ⟨op, hop, hcc⟩ := List.mem_flatMap.mp hc
  have hopm := mem_dtr hop
  cases op with
  | retain len =>
    cases len with
    | none => exact absurd (hg _ hopm) (by simp [goodOp])
    | some n =>
      have he : encodeOp (DiffOp.retain (some n)) = 'R' :: natToStr n := rfl
      rw [he] at hcc
      rcases List.mem_cons.mp hcc with rfl | hcd
      · exact Or.inl rfl
      · exact Or.inr (Or.inr (Or.inr (Or.inr (Or.inl
          (natToStr_mem_digitChars n c hcd)))))
  | delete len =>
    cases len with
    | none => exact absurd (hg _ hopm) (by simp [goodOp])
    | some n =>
      have he : encodeOp (DiffOp.delete (some n)) = 'D' :: natToStr n := rfl
      rw [he] at hcc
      rcases List.mem_cons.mp hcc with rfl | hcd
      · exact Or.inr (Or.inl rfl)
      · exact Or.inr (Or.inr (Or.inr (Or.inr (Or.inl
          (natToStr_mem_digitChars n c hcd)))))
  | insert t =>
    have he : encodeOp (DiffOp.insert t)
        = 'I' :: (natToStr t.length ++ ':' :: t) := rfl
    rw [he] at hcc
    rcases List.mem_cons.mp hcc with rfl | hcd
    · exact Or.inr (Or.inr (Or.inl rfl))
    · rcases List.mem_append.mp hcd with hcd | hcd
      · exact Or.inr (Or.inr (Or.inr (Or.inr (Or.inl
          (natToStr_mem_digitChars t.length c hcd)))))
      · rcases List.mem_cons.mp hcd with rfl | hcd
        · exact Or.inr (Or.inr (Or.inr (Or.inl rfl)))
        · exact Or.inr (Or.inr (Or.inr (Or.inr (Or.inr ⟨t, hopm, hcd⟩))))

theorem calculateDiff_insert_sub (dmp : Str → Str → List (Int × Str))
    (hdmp : DmpValid dmp) (old new : Str) (hne : old ≠ new) (hnew : new ≠ []) :
    ∀ t, DiffOp.insert t ∈ calculateDiff dmp old new → ∀ c ∈ t, c ∈ new := by
  intro t ht c hc
  unfold calculateDiff at ht
  rw [if_neg hne] at ht
  by_cases ho : old.length = 0
  · rw [if_pos ho] at ht
    by_cases hl : 0 < new.length
    · rw [if_pos hl] at ht
      have heq := List.mem_singleton.mp ht
      injection heq with heq
      subst heq
      exact hc
    · rw [if_neg hl] at ht
      cases ht
  · rw [if_neg ho] at ht
    by_cases hn : new.length = 0
    · rw [if_pos hn] at ht
      have heq := List.mem_singleton.mp ht
      exact absurd heq (by simp)
    · rw [if_neg hn, convert_eq_flatMap] at ht
      obtain ⟨pr, hpr, hmem⟩ := List.mem_flatMap.mp ht
      obtain ⟨hl, hcase⟩ := mem_dmpOpsOf hmem
      rcases hcase with ⟨-, heq⟩ | ⟨-, heq⟩ | ⟨h1, heq⟩
      · exact absurd heq (by simp)
      · exact absurd heq (by simp)
      · injection heq with heq
        subst heq
        have hpr2 : pr.2 ∈ (dmp old new).filterMap (fun q =>
            if q.1 = 0 ∨ q.1 = 1 then some q.2 else none) :=
          List.mem_filterMap.mpr ⟨pr, hpr, by rw [if_pos (Or.inr h1)]⟩
        have hcm : c ∈ newParts (dmp old new) := by
          unfold newParts
          exact List.mem_flatten.mpr ⟨pr.2, hpr2, hc⟩
        rw [(hdmp old new hne (fun h => ho (by rw [h]; rfl)) hnew).2] at hcm
        exact hcm

/-- Character classification of a stored delta payload: tags, digits, the
colon, or a character of the new text. -/
theorem mem_encode_calc {c : Char} (dmp : Str → Str → List (Int × Str))
    (hdmp : DmpValid dmp) (old new : Str) (hne : old ≠ new) (hnew : new ≠ [])
    (hc : c ∈ encodeDiff (calculateDiff dmp old new)) :
    c = 'R' ∨ c = 'D' ∨ c = 'I' ∨ c = ':' ∨ c ∈ digitChars ∨ c ∈ new := by
  refine (mem_encodeDiff (calculateDiff_good dmp old new) hc).imp id
    (Or.imp id (Or.imp id (Or.imp id (Or.imp id ?_))))
  rintro ⟨t, htmem, hct⟩
  exact calculateDiff_insert_sub dmp hdmp old new hne hnew t htmem c hct

theorem encode_calc_no_eq (dmp : Str → Str → List (Int × Str))
    (hdmp : DmpValid dmp) (old new : Str) (hne : old ≠ new) (hnew : new ≠ [])
    (hsafe : '=' ∉ new) : '=' ∉ encodeDiff (calculateDiff dmp old new) := by
  intro hc
  rcases mem_encode_calc dmp hdmp old new hne hnew hc with h | h | h | h | h | h
  · exact absurd h (by decide)
  · exact absurd h (by decide)
  · exact absurd h (by decide)
  · exact absurd h (by decide)
  · exact absurd h (by decide)
  · exact hsafe h

theorem encode_calc_no_bs (dmp : Str → Str → List (Int × Str))
    (hdmp : DmpValid dmp) (old new : Str) (hne : old ≠ new) (hnew : new ≠ [])
    (hsafe : '\\' ∉ new) : '\\' ∉ encodeDiff (calculateDiff dmp old new) := by
  intro hc
  rcases mem_encode_calc dmp hdmp old new hne hnew hc with h | h | h | h | h | h
  · exact absurd h (by decide)
  · exact absurd h (by decide)
  · exact absurd h (by decide)
  · exact absurd h (by decide)
  · exact absurd h (by decide)
  · exact hsafe h

theorem allRetains_parts :
    ∀ (diffs : List (Int × Str)),
      (∀ op ∈ diffs.flatMap dmpOpsOf, isRetain op = true) →
      oldParts diffs = newParts diffs
  | [], _ => rfl
  | pr :: rest, h => by
    have htail : ∀ op ∈ rest.flatMap dmpOpsOf, isRetain op = true := by
      intro op hop
      refine h op ?_
      rw [List.flatMap_cons]
      exact List.mem_append.mpr (Or.inr hop)
    have hih := allRetains_parts rest htail
    rw [oldParts_cons, newParts_cons]
    by_cases h0 : pr.1 = 0
    · rw [if_pos (Or.inl h0), if_pos (Or.inl h0 : pr.1 = 0 ∨ pr.1 = 1), hih]
    · by_cases hm : pr.1 = -1
      · have hnil : ¬0 < pr.2.length := by
          intro hl
          have hd : DiffOp.delete (some pr.2.length) ∈ dmpOpsOf pr := by
            unfold dmpOpsOf
            rw [if_neg h0, if_pos hm, if_pos hl]
            exact List.mem_singleton.mpr rfl
          have := h (DiffOp.delete (some pr.2.length)) (by
            rw [List.flatMap_cons]
            exact List.mem_append.mpr (Or.inl hd))
          exact absurd this (by simp [isRetain])
        have hnil2 : pr.2 = [] := by
          cases hp : pr.2 with
          | nil => rfl
          | cons a as => rw [hp] at hnil; simp at hnil
        rw [if_pos (Or.inr hm), if_neg (by
          rintro (hc | hc)
          · exact h0 hc
          · rw [hc] at hm
            exact absurd hm (by decide)), hnil2, List.nil_append,
          List.nil_append, hih]
      · by_cases h1 : pr.1 = 1
        · have hnil : ¬0 < pr.2.length := by
            intro hl
            have hd : DiffOp.insert pr.2 ∈ dmpOpsOf pr := by
              unfold dmpOpsOf
              rw [if_neg h0, if_neg hm, if_pos h1, if_pos hl]
              exact List.mem_singleton.mpr rfl
            have := h (DiffOp.insert pr.2) (by
              rw [List.flatMap_cons]
              exact List.mem_append.mpr (Or.inl hd))
            exact absurd this (by simp [isRetain])
          have hnil2 : pr.2 = [] := by
            cases hp : pr.2 with
            | nil => rfl
            | cons a as => rw [hp] at hnil; simp at hnil
          rw [if_neg (by
            rintro (hc | hc)
            · exact h0 hc
            · exact hm hc), if_pos (Or.inr h1 : pr.1 = 0 ∨ pr.1 = 1), hnil2,
            List.nil_append, List.nil_append, hih]
        · rw [if_neg (by
            rintro (hc | hc)
            · exact h0 hc
            · exact hm hc), if_neg (by
            rintro (hc | hc)
            · exact h0 hc
            · exact h1 hc), List.nil_append, List.nil_append, hih]

theorem calc_has_nonretain (dmp : Str → Str → List (Int × Str))
    (hdmp : DmpValid dmp) (old new : Str) (hne : old ≠ new) (hnew : new ≠ []) :
    ∃ op ∈ calculateDiff dmp old new, isRetain op = false := by
  unfold calculateDiff
  rw [if_neg hne]
  by_cases ho : old.length = 0
  · rw [if_pos ho, if_pos (by
      cases new with
      | nil => exact absurd rfl hnew
      | cons a as => simp)]
    exact ⟨DiffOp.insert new, List.mem_singleton.mpr rfl, rfl⟩
  · rw [if_neg ho]
    by_cases hn : new.length = 0
    · rw [if_pos hn]
      exact ⟨DiffOp.delete (some old.length), List.mem_singleton.mpr rfl, rfl⟩
    · rw [if_neg hn, convert_eq_flatMap]
      by_contra hall
      push_neg at hall
      have hallret : ∀ op ∈ (dmp old new).flatMap dmpOpsOf, isRetain op = true := by
        intro op hop
        have := hall op hop
        cases hr : isRetain op with
        | false => exact absurd hr this
        | true => rfl
      have hparts := allRetains_parts (dmp old new) hallret
      have hd := hdmp old new hne (fun h => ho (by rw [h]; rfl)) hnew
      exact hne (hd.1.symm.trans (hparts.trans hd.2))

theorem dtr_ne_nil {ops : List DiffOp} {op : DiffOp} (hop : op ∈ ops)
    (hnr : isRetain op = false) : dropTrailingRetains ops ≠ [] := by
  intro h
  unfold dropTrailingRetains at h
  rw [List.reverse_eq_nil_iff] at h
  rw [List.dropWhile_eq_nil_iff] at h
  have := h op (List.mem_reverse.mpr hop)
  rw [hnr] at this
  cases this

theorem encodeOp_ne_nil (op : DiffOp) : encodeOp op ≠ [] := by
  cases op with
  | retain len => simp [encodeOp]
  | delete len => simp [encodeOp]
  | insert t => simp [encodeOp]

theorem encodeDiff_ne_nil {ops : List DiffOp}
    (h : dropTrailingRetains ops ≠ []) : encodeDiff ops ≠ [] := by
  unfold encodeDiff
  cases hd : dropTrailingRetains ops with
  | nil => exact absurd hd h
  | cons op rest =>
    rw [List.flatMap_cons]
    intro hc
    rcases List.append_eq_nil.mp hc with ⟨h1, -⟩
    exact encodeOp_ne_nil op h1

/-- A stored delta payload is never empty on genuinely different texts. -/
theorem encode_calc_ne_nil (dmp : Str → Str → List (Int × Str))
    (hdmp : DmpValid dmp) (old new : Str) (hne : old ≠ new) (hnew : new ≠ []) :
    encodeDiff (calculateDiff dmp old new) ≠ [] := by
  obtain ⟨op, hop, hnr⟩ := calc_has_nonretain dmp hdmp old new hne hnew
  exact encodeDiff_ne_nil (dtr_ne_nil hop hnr)

theorem filter_length_mono {p q : Str → Bool} :
    ∀ (l : List Str), (∀ e ∈ l, q e = true → p e = true) →
      (l.filter q).length ≤ (l.filter p).length
  | [], _ => le_refl _
  | a :: l', h => by
    have ht := filter_length_mono l' (fun e he => h e (List.mem_cons_of_mem a he))
    by_cases hq : q a = true
    · rw [List.filter_cons, if_pos hq, List.filter_cons, if_pos (h a (List.mem_cons_self a l') hq)]
      simpa using ht
    · rw [List.filter_cons, if_neg hq, List.filter_cons]
      by_cases hp : p a = true
      · rw [if_pos hp]
        simp only [List.length_cons]
        omega
      · rw [if_neg hp]
        exact ht

theorem filter_length_strict {p q : Str → Bool} :
    ∀ (l : List Str), (∀ e ∈ l, q e = true → p e = true) →
      ∀ x, x ∈ l → p x = true → q x = false →
        (l.filter q).length < (l.filter p).length
  | [], _, x, hx, _, _ => by cases hx
  | a :: l', h, x, hx, hpx, hqx => by
    have himp := fun e he => h e (List.mem_cons_of_mem a he)
    by_cases hq : q a = true
    · have hax : a ≠ x := by
        intro he
        rw [he, hqx] at hq
        cases hq
      have hx' : x ∈ l' := by
        rcases List.mem_cons.mp hx with he | hx'
        · exact absurd he.symm hax
        · exact hx'
      rw [List.filter_cons, if_pos hq, List.filter_cons,
        if_pos (h a (List.mem_cons_self a l') hq)]
      simp only [List.length_cons]
      exact Nat.succ_lt_succ (filter_length_strict l' himp x hx' hpx hqx)
    · rw [List.filter_cons, if_neg hq, List.filter_cons]
      by_cases hax : a = x
      · subst hax
        rw [if_pos hpx]
        simp only [List.length_cons]
        exact Nat.lt_succ_of_le (filter_length_mono l' himp)
      · have hx' : x ∈ l' := by
          rcases List.mem_cons.mp hx with he | hx'
          · exact absurd he.symm hax
          · exact hx'
        by_cases hp : p a = true
        · rw [if_pos hp]
          simp only [List.length_cons]
          exact Nat.lt_succ_of_lt (filter_length_strict l' himp x hx' hpx hqx)
        · rw [if_neg hp]
          exact filter_length_strict l' himp x hx' hpx hqx

/-- The `#`-suffix loop terminates on a fresh name: candidate lengths grow
strictly, so each collision shrinks the set of existing names at least as
long as the candidate, and the fuel `existing.length + 1` always suffices. -/
theorem resolveNameGo_fresh (existing : List Str) :
    ∀ (fuel : Nat) (cand : Str),
      (existing.filter (fun e => cand.length ≤ e.length)).length < fuel →
      resolveNameGo existing fuel cand ∉ existing
  | 0, cand, h => absurd h (Nat.not_lt_zero _)
  | fuel + 1, cand, h => by
    unfold resolveNameGo
    by_cases hm : cand ∈ existing
    · rw [if_pos hm]
      refine resolveNameGo_fresh existing fuel (cand ++ ['#']) ?_
      have hstrict := @filter_length_strict
        (fun e => decide (cand.length ≤ e.length))
        (fun e => decide ((cand ++ ['#']).length ≤ e.length))
        existing
        (fun e he hq => by
          simp only [decide_eq_true_eq] at hq ⊢
          simp only [List.length_append, List.length_cons, List.length_nil] at hq
          omega)
        cand hm (by simp) (by simp)
      omega
    · rw [if_neg hm]
      exact hm

theorem resolveVersionName_fresh (existing : List Str) (p : Str) :
    resolveVersionName existing p ∉ existing := by
  unfold resolveVersionName
  by_cases hm : p ∈ existing
  · rw [if_pos hm]
    apply resolveNameGo_fresh
    have := List.length_filter_le (fun e => ((p ++ ['#']).length ≤ e.length : Bool))
      existing
    omega
  · rw [if_neg hm]
    exact hm

/-- The name `commit` assigns is always fresh. -/
theorem assignedName_fresh (recs : List VRec) (text : Str) (nameOpt : Option Str) :
    assignedName recs text nameOpt ∉ namesOf recs := by
  cases nameOpt with
  | none => exact resolveVersionName_fresh _ _
  | some v =>
    by_cases hv : ¬v.isEmpty
    · have he : assignedName recs text (some v)
          = resolveVersionName (namesOf recs) v := by
        simp only [assignedName]
        rw [if_pos hv]
      rw [he]
      exact resolveVersionName_fresh _ _
    · have he : assignedName recs text (some v)
          = resolveVersionName (namesOf recs) (generateHash text) := by
        simp only [assignedName]
        rw [if_neg hv]
      rw [he]
      exact resolveVersionName_fresh _ _

/-- A version name that survives the line format and both reference
syntaxes: no newline (line separator), no colon (hybrid separator), no
equals (reference classifier), no backslash (escape opener). -/
def GoodName (n : Str) : Prop := '\n' ∉ n ∧ ':' ∉ n ∧ '=' ∉ n ∧ '\\' ∉ n

theorem goodName_append_hash {cand : Str} (h : GoodName cand) :
    GoodName (cand ++ ['#']) := by
  obtain ⟨h1, h2, h3, h4⟩ := h
  refine ⟨?_, ?_, ?_, ?_⟩ <;>
    · intro hx
      rcases List.mem_append.mp hx with hx | hx
      · first
        | exact h1 hx
        | exact h2 hx
        | exact h3 hx
        | exact h4 hx
      · rcases List.mem_singleton.mp hx with he
        cases he

theorem resolveNameGo_goodName (existing : List Str) :
    ∀ (fuel : Nat) (cand : Str), GoodName cand →
      GoodName (resolveNameGo existing fuel cand)
  | 0, _, h => h
  | fuel + 1, cand, h => by
    unfold resolveNameGo
    by_cases hm : cand ∈ existing
    · rw [if_pos hm]
      exact resolveNameGo_goodName existing fuel _ (goodName_append_hash h)
    · rw [if_neg hm]
      exact h

theorem resolveVersionName_goodName (existing : List Str) (p : Str)
    (h : GoodName p) : GoodName (resolveVersionName existing p) := by
  unfold resolveVersionName
  by_cases hm : p ∈ existing
  · rw [if_pos hm]
    exact resolveNameGo_goodName existing _ _ (goodName_append_hash h)
  · rw [if_neg hm]
    exact h

theorem base36Go_goodChar :
    ∀ (fuel n : Nat) (c : Char), c ∈ base36Go fuel n →
      ∃ d, d < 36 ∧ c = b36digit d
  | 0, n, c, h => by simp [base36Go] at h
  | fuel + 1, n, c, h => by
    unfold base36Go at h
    by_cases hn : n < 36
    · rw [if_pos hn] at h
      rcases List.mem_singleton.mp h with rfl
      exact ⟨n, hn, rfl⟩
    · rw [if_neg hn] at h
      rcases List.mem_append.mp h with h | h
      · exact base36Go_goodChar fuel (n / 36) c h
      · rcases List.mem_singleton.mp h with rfl
        exact ⟨n % 36, Nat.mod_lt _ (by norm_num), rfl⟩

theorem generateHash_goodName (text : Str) : GoodName (generateHash text) := by
  have hb : ∀ d, d < 36 → b36digit d ≠ '\n' ∧ b36digit d ≠ ':' ∧
      b36digit d ≠ '=' ∧ b36digit d ≠ '\\' := by decide
  refine ⟨?_, ?_, ?_, ?_⟩ <;>
    · intro hc
      obtain ⟨d, hd, he⟩ := base36Go_goodChar _ _ _ hc
      first
      | exact (hb d hd).1 he.symm
      | exact (hb d hd).2.1 he.symm
      | exact (hb d hd).2.2.1 he.symm
      | exact (hb d hd).2.2.2 he.symm

theorem assignedName_goodName (recs : List VRec) (text : Str)
    (nameOpt : Option Str) (h : ∀ v, nameOpt = some v → GoodName v) :
    GoodName (assignedName recs text nameOpt) := by
  cases nameOpt with
  | none => exact resolveVersionName_goodName _ _ (generateHash_goodName text)
  | some v =>
    by_cases hv : ¬v.isEmpty
    · have he : assignedName recs text (some v)
          = resolveVersionName (namesOf recs) v := by
        simp only [assignedName]
        rw [if_pos hv]
      rw [he]
      exact resolveVersionName_goodName _ _ (h v rfl)
    · have he : assignedName recs text (some v)
          = resolveVersionName (namesOf recs) (generateHash text) := by
        simp only [assignedName]
        rw [if_neg hv]
      rw [he]
      exact resolveVersionName_goodName _ _ (generateHash_goodName text)

theorem resolve_at_plain (n0 s0 : Str) (pre suf : List VRec) (r : VRec)
    (hnodup : ((⟨n0, VKind.snap, s0⟩ :: (pre ++ r :: suf)).map VRec.name).Nodup)
    (hs0 : s0 ≠ [])
    (htail : ∀ q ∈ pre ++ r :: suf, q.kind = VKind.delta)
    (hrp : r.payload ≠ []) (hre : '=' ∉ r.payload) (fuel : Nat) :
    resolveFuel (fuel + 1) (⟨n0, VKind.snap, s0⟩ :: (pre ++ r :: suf)) r.name
      = some (replayText s0 (pre ++ [r])) := by
  have hmem : r ∈ (⟨n0, VKind.snap, s0⟩ :: (pre ++ r :: suf) : List VRec) :=
    List.mem_cons_of_mem _ (List.mem_append.mpr (Or.inr (List.mem_cons_self _ _)))
  rw [resolveFuel_plainDelta hnodup hmem
    (htail r (List.mem_append.mpr (Or.inr (List.mem_cons_self _ _)))) hrp hre fuel]
  exact replayPath_plain_at n0 s0 pre suf r hnodup hs0 htail

/-- Every version of a snapshot-rooted plain chain resolves, to the same
value before and after appending one delta-kind record of any payload. -/
theorem chain_resolve_both (n0 s0 : Str) (ds : List VRec) (newRec : VRec)
    (hnodup' : ((⟨n0, VKind.snap, s0⟩ :: (ds ++ [newRec])).map VRec.name).Nodup)
    (hs0 : s0 ≠ [])
    (hds : ∀ d ∈ ds, d.kind = VKind.delta ∧ d.payload ≠ [] ∧ '=' ∉ d.payload)
    (hnewk : newRec.kind = VKind.delta)
    (b : Str) (hb : b ∈ namesOf (⟨n0, VKind.snap, s0⟩ :: ds)) :
    ∃ tb, (∀ fuel, resolveFuel (fuel + 1) (⟨n0, VKind.snap, s0⟩ :: ds) b = some tb)
      ∧ (∀ fuel,
          resolveFuel (fuel + 1) (⟨n0, VKind.snap, s0⟩ :: (ds ++ [newRec])) b
            = some tb) := by
  have hsub : ((⟨n0, VKind.snap, s0⟩ :: ds : List VRec).map VRec.name).Sublist
      ((⟨n0, VKind.snap, s0⟩ :: (ds ++ [newRec]) : List VRec).map VRec.name) := by
    refine List.Sublist.map VRec.name ?_
    exact List.Sublist.cons₂ _ (List.sublist_append_left ds [newRec])
  have hnodup : ((⟨n0, VKind.snap, s0⟩ :: ds : List VRec).map VRec.name).Nodup :=
    hnodup'.sublist hsub
  unfold namesOf at hb
  obtain ⟨q, hq, rfl⟩ := List.mem_map.mp hb
  rcases List.mem_cons.mp hq with rfl | hq
  · exact ⟨s0,
      fun fuel => resolveFuel_snap hnodup (List.mem_cons_self _ _) rfl hs0 fuel,
      fun fuel => resolveFuel_snap hnodup' (List.mem_cons_self _ _) rfl hs0 fuel⟩
  · obtain ⟨pre, suf, rfl⟩ := List.append_of_mem hq
    refine ⟨replayText s0 (pre ++ [q]), ?_, ?_⟩
    · intro fuel
      exact resolve_at_plain n0 s0 pre suf q hnodup hs0
        (fun d hd => (hds d hd).1)
        (hds q (List.mem_append.mpr (Or.inr (List.mem_cons_self _ _)))).2.1
        (hds q (List.mem_append.mpr (Or.inr (List.mem_cons_self _ _)))).2.2 fuel
    · intro fuel
      have hshape : (pre ++ q :: suf) ++ [newRec] = pre ++ q :: (suf ++ [newRec]) := by
        simp
      rw [hshape] at hnodup' ⊢
      refine resolve_at_plain n0 s0 pre (suf ++ [newRec]) q hnodup' hs0 ?_
        (hds q (List.mem_append.mpr (Or.inr (List.mem_cons_self _ _)))).2.1
        (hds q (List.mem_append.mpr (Or.inr (List.mem_cons_self _ _)))).2.2 fuel
      intro d hd
      rcases List.mem_append.mp hd with hd | hd
      · exact (hds d (List.mem_append.mpr (Or.inl hd))).1
      · rcases List.mem_cons.mp hd with rfl | hd
        · exact (hds d (List.mem_append.mpr (Or.inr (List.mem_cons_self _ _)))).1
        · rcases List.mem_append.mp hd with hd | hd
          · exact (hds d (List.mem_append.mpr (Or.inr (List.mem_cons_of_mem _ hd)))).1
          · rcases List.mem_singleton.mp hd with rfl
            exact hnewk

/-- The chain's newest version resolves to the full flat replay value. -/
theorem resolve_latest (n0 s0 : Str) (ds : List VRec)
    (hnodup : ((⟨n0, VKind.snap, s0⟩ :: ds).map VRec.name).Nodup)
    (hs0 : s0 ≠ [])
    (hds : ∀ d ∈ ds, d.kind = VKind.delta ∧ d.payload ≠ [] ∧ '=' ∉ d.payload)
    (fuel : Nat) :
    resolveFuel (fuel + 1) (⟨n0, VKind.snap, s0⟩ :: ds)
        ((namesOf (⟨n0, VKind.snap, s0⟩ :: ds)).getLast?.getD [])
      = some (replayText s0 ds) := by
  rcases List.eq_nil_or_concat ds with rfl | ⟨ds', dlast, rfl⟩
  · have hlast : (namesOf ([⟨n0, VKind.snap, s0⟩] : List VRec)).getLast?.getD [] = n0 :=
      rfl
    rw [hlast]
    exact resolveFuel_snap hnodup (List.mem_cons_self _ _) rfl hs0 fuel
  · rw [List.concat_eq_append] at hnodup hds ⊢
    have hshape : namesOf (⟨n0, VKind.snap, s0⟩ :: (ds' ++ [dlast]))
        = (n0 :: namesOf ds') ++ [dlast.name] := by
      unfold namesOf
      simp
    rw [hshape, List.getLast?_concat]
    have hgd : (some dlast.name).getD [] = dlast.name := rfl
    rw [hgd]
    exact resolve_at_plain n0 s0 ds' [] dlast hnodup hs0
      (fun d hd => (hds d hd).1)
      (hds dlast (List.mem_append.mpr (Or.inr (List.mem_cons_self _ _)))).2.1
      (hds dlast (List.mem_append.mpr (Or.inr (List.mem_cons_self _ _)))).2.2 fuel

/-- A good chain plus one fresh escape-safe record is a well-formed store. -/
theorem chainWF (n0 s0 : Str) (ds : List VRec) (newRec : VRec)
    (hnodup : ((⟨n0, VKind.snap, s0⟩ :: ds).map VRec.name).Nodup)
    (hn0 : '\n' ∉ n0) (hs0 : s0 ≠ []) (hs0bs : '\\' ∉ s0)
    (hds : ∀ d ∈ ds, '\n' ∉ d.name ∧ d.payload ≠ [] ∧ '\\' ∉ d.payload)
    (hfresh : newRec.name ∉ namesOf (⟨n0, VKind.snap, s0⟩ :: ds))
    (hnm : '\n' ∉ newRec.name) (hp : newRec.payload ≠ [])
    (hpbs : '\\' ∉ newRec.payload) :
    WFStore ((⟨n0, VKind.snap, s0⟩ :: ds) ++ [newRec]) := by
  constructor
  · rw [List.map_append]
    refine List.nodup_append.mpr ⟨hnodup, by simp, ?_⟩
    intro a ha hb
    rcases List.mem_singleton.mp (by simpa using hb) with rfl
    exact hfresh ha
  · intro r hr
    rcases List.mem_append.mp hr with hr | hr
    · rcases List.mem_cons.mp hr with rfl | hr
      · exact ⟨hn0, hs0, noEsc_of_not_mem_bs s0 hs0bs⟩
      · exact ⟨(hds r hr).1, (hds r hr).2.1,
          noEsc_of_not_mem_bs _ (hds r hr).2.2⟩
    · rcases List.mem_singleton.mp hr with rfl
      exact ⟨hnm, hp, noEsc_of_not_mem_bs _ hpbs⟩

/-- The two candidate payload shapes of `findBestDiffOption`. -/
theorem mem_diffCandidates {dmp : Str → Str → List (Int × Str)}
    {recs : List VRec} {text vn : Str} {m : Str × Nat}
    (hlen : 0 < recs.length) (h : m ∈ diffCandidates dmp recs text vn) :
    m.1 = encodeDiff (calculateDiff dmp
        ((getVersionText recs ((namesOf recs).getLast?.getD [])).getD []) text) ∨
      ∃ b ∈ (namesOf recs).dropLast,
        m.1 = ('=' :: b) ++ ':' :: encodeDiff (calculateDiff dmp
          ((getVersionText recs b).getD []) text) := by
  unfold diffCandidates at h
  rw [if_pos hlen] at h
  rcases List.mem_append.mp h with h | h
  · rcases List.mem_singleton.mp h with rfl
    exact Or.inl rfl
  · obtain ⟨b, hb, he⟩ := List.mem_map.mp h
    exact Or.inr ⟨b, hb, by rw [← he]⟩

theorem commit_chain_dupe (dmp : Str → Str → List (Int × Str))
    (storage text : Str) (nameOpt : Option Str) (n0 s0 : Str) (ds : List VRec)
    (vn : Str)
    (hparse : parseStorage storage = ⟨n0, VKind.snap, s0⟩ :: ds)
    (hvn : assignedName (⟨n0, VKind.snap, s0⟩ :: ds) text nameOpt = vn)
    (hnodup : ((⟨n0, VKind.snap, s0⟩ :: ds).map VRec.name).Nodup)
    (hn0 : GoodName n0) (hs0 : s0 ≠ []) (hs0bs : '\\' ∉ s0)
    (hds : ∀ d ∈ ds, d.kind = VKind.delta ∧ d.payload ≠ [] ∧ '=' ∉ d.payload ∧
      '\\' ∉ d.payload ∧ GoodName d.name)
    (hgiven : ∀ v, nameOpt = some v → GoodName v)
    (ex : Str)
    (hdupe : findDupe (⟨n0, VKind.snap, s0⟩ :: ds) text = some ex) :
    showVersion (commit dmp storage text nameOpt) vn = some text := by
  have hvnfresh : vn ∉ namesOf (⟨n0, VKind.snap, s0⟩ :: ds) :=
    hvn ▸ assignedName_fresh (⟨n0, VKind.snap, s0⟩ :: ds) text nameOpt
  have hvngood : GoodName vn :=
    hvn ▸ assignedName_goodName (⟨n0, VKind.snap, s0⟩ :: ds) text nameOpt hgiven
  have hnames_good : ∀ b ∈ namesOf (⟨n0, VKind.snap, s0⟩ :: ds), GoodName b := by
    intro b hb
    obtain ⟨q, hq, rfl⟩ := List.mem_map.mp hb
    rcases List.mem_cons.mp hq with rfl | hq
    · exact hn0
    · exact (hds q hq).2.2.2.2
  have hexmem : ex ∈ namesOf (⟨n0, VKind.snap, s0⟩ :: ds) := by
    unfold findDupe at hdupe
    exact List.mem_of_find?_eq_some hdupe
  have hexval : getVersionText (⟨n0, VKind.snap, s0⟩ :: ds) ex = some text := by
    unfold findDupe at hdupe
    have := List.find?_some hdupe
    simpa using this
  have hc : commit dmp storage text nameOpt
      = serializeStorage ((⟨n0, VKind.snap, s0⟩ :: ds)
          ++ [⟨vn, VKind.delta, '=' :: ex⟩]) := by
    unfold commit
    rw [hparse]
    simp only [hdupe, hvn]
  have hwf := chainWF n0 s0 ds ⟨vn, VKind.delta, '=' :: ex⟩ hnodup hn0.1 hs0 hs0bs
    (fun d hd => ⟨(hds d hd).2.2.2.2.1, (hds d hd).2.1, (hds d hd).2.2.2.1⟩)
    hvnfresh hvngood.1 (by simp)
    (by
      intro hm
      rcases List.mem_cons.mp hm with he | hm
      · exact absurd he (by decide)
      · exact (hnames_good ex hexmem).2.2.2 hm)
  have hrt := roundtrip_of_wf hwf
  unfold showVersion
  rw [hc, hrt]
  have hcons : (⟨n0, VKind.snap, s0⟩ :: ds) ++ [(⟨vn, VKind.delta, '=' :: ex⟩ : VRec)]
      = ⟨n0, VKind.snap, s0⟩ :: (ds ++ [⟨vn, VKind.delta, '=' :: ex⟩]) := rfl
  rw [hcons]
  unfold getVersionText
  have hlen : (⟨n0, VKind.snap, s0⟩ ::
      (ds ++ [(⟨vn, VKind.delta, '=' :: ex⟩ : VRec)]) : List VRec).length + 1
      = (ds.length + 1 + 1) + 1 := by simp
  rw [hlen]
  have hnodup' : ((⟨n0, VKind.snap, s0⟩ ::
      (ds ++ [(⟨vn, VKind.delta, '=' :: ex⟩ : VRec)])).map VRec.name).Nodup := hwf.1
  have hmemnew : (⟨vn, VKind.delta, '=' :: ex⟩ : VRec)
      ∈ ⟨n0, VKind.snap, s0⟩ :: (ds ++ [⟨vn, VKind.delta, '=' :: ex⟩]) :=
    List.mem_cons_of_mem _ (List.mem_append.mpr (Or.inr (List.mem_cons_self _ _)))
  have hstep := resolveFuel_pureRef hnodup' hmemnew rfl rfl
    (hnames_good ex hexmem).2.1 (ds.length + 1 + 1)
  rw [show (⟨vn, VKind.delta, '=' :: ex⟩ : VRec).name = vn from rfl] at hstep
  rw [hstep]
  obtain ⟨tex, hres1, hres2⟩ := chain_resolve_both n0 s0 ds
    ⟨vn, VKind.delta, '=' :: ex⟩ hnodup' hs0
    (fun d hd => ⟨(hds d hd).1, (hds d hd).2.1, (hds d hd).2.2.1⟩) rfl ex hexmem
  have htex : tex = text := by
    unfold getVersionText at hexval
    have hlenr : (⟨n0, VKind.snap, s0⟩ :: ds : List VRec).length + 1
        = ds.length + 1 + 1 := by simp
    rw [hlenr, hres1 (ds.length + 1)] at hexval
    exact Option.some.inj hexval
  rw [hres2 (ds.length + 1), htex]

theorem commit_chain_delta (dmp : Str → Str → List (Int × Str))
    (hdmp : DmpValid dmp)
    (storage text : Str) (nameOpt : Option Str) (n0 s0 : Str) (ds : List VRec)
    (vn : Str)
    (hparse : parseStorage storage = ⟨n0, VKind.snap, s0⟩ :: ds)
    (hvn : assignedName (⟨n0, VKind.snap, s0⟩ :: ds) text nameOpt = vn)
    (hnodup : ((⟨n0, VKind.snap, s0⟩ :: ds).map VRec.name).Nodup)
    (hn0 : GoodName n0) (hs0 : s0 ≠ []) (hs0bs : '\\' ∉ s0)
    (hds : ∀ d ∈ ds, d.kind = VKind.delta ∧ d.payload ≠ [] ∧ '=' ∉ d.payload ∧
      '\\' ∉ d.payload ∧ GoodName d.name)
    (htext : text ≠ []) (hteq : '=' ∉ text) (htbs : '\\' ∉ text)
    (hgiven : ∀ v, nameOpt = some v → GoodName v)
    (hdupe : findDupe (⟨n0, VKind.snap, s0⟩ :: ds) text = none) :
    showVersion (commit dmp storage text nameOpt) vn = some text := by
  have hvnfresh : vn ∉ namesOf (⟨n0, VKind.snap, s0⟩ :: ds) :=
    hvn ▸ assignedName_fresh (⟨n0, VKind.snap, s0⟩ :: ds) text nameOpt
  have hvngood : GoodName vn :=
    hvn ▸ assignedName_goodName (⟨n0, VKind.snap, s0⟩ :: ds) text nameOpt hgiven
  have hnames_good : ∀ b ∈ namesOf (⟨n0, VKind.snap, s0⟩ :: ds), GoodName b := by
    intro b hb
    obtain ⟨q, hq, rfl⟩ := List.mem_map.mp hb
    rcases List.mem_cons.mp hq with rfl | hq
    · exact hn0
    · exact (hds q hq).2.2.2.2
  have hds3 : ∀ d ∈ ds, d.kind = VKind.delta ∧ d.payload ≠ [] ∧ '=' ∉ d.payload :=
    fun d hd => ⟨(hds d hd).1, (hds d hd).2.1, (hds d hd).2.2.1⟩
  have hnone : ∀ b ∈ namesOf (⟨n0, VKind.snap, s0⟩ :: ds),
      getVersionText (⟨n0, VKind.snap, s0⟩ :: ds) b ≠ some text := by
    intro b hb heq
    unfold findDupe at hdupe
    have := List.find?_eq_none.mp hdupe b hb
    exact this (by simpa using heq)
  have hlenr : (⟨n0, VKind.snap, s0⟩ :: ds : List VRec).length + 1
      = ds.length + 1 + 1 := by simp
  have hlenpos : 0 < (⟨n0, VKind.snap, s0⟩ :: ds : List VRec).length := by simp
  have hcne : diffCandidates dmp (⟨n0, VKind.snap, s0⟩ :: ds) text vn ≠ [] := by
    rw [diffCandidates]
    simp only [if_pos hlenpos]
    simp
  obtain ⟨m, hmeq, hmmem, -⟩ := firstMinByLen_spec _ hcne
  have hbest : findBestDiffOption dmp (⟨n0, VKind.snap, s0⟩ :: ds) text vn
      = some m.1 := by
    rw [findBestDiffOption_eq, hmeq]
    rfl
  have hc : commit dmp storage text nameOpt
      = serializeStorage ((⟨n0, VKind.snap, s0⟩ :: ds)
          ++ [⟨vn, VKind.delta, m.1⟩]) := by
    unfold commit
    rw [hparse]
    simp only [hdupe, hvn, hbest]
    rw [if_neg (by simp)]
    rfl
  have hnodup' : ((⟨n0, VKind.snap, s0⟩ ::
      (ds ++ [(⟨vn, VKind.delta, m.1⟩ : VRec)])).map VRec.name).Nodup := by
    have h1 : (((⟨n0, VKind.snap, s0⟩ :: ds)
        ++ [(⟨vn, VKind.delta, m.1⟩ : VRec)]).map VRec.name).Nodup := by
      rw [List.map_append]
      refine List.nodup_append.mpr ⟨hnodup, by simp, ?_⟩
      intro a ha hb2
      rcases List.mem_singleton.mp (by simpa using hb2) with rfl
      exact hvnfresh ha
    exact h1
  have hnnames : namesOf (⟨n0, VKind.snap, s0⟩ :: ds) ≠ [] := by simp [namesOf]
  have hlastmem : (namesOf (⟨n0, VKind.snap, s0⟩ :: ds)).getLast?.getD []
      ∈ namesOf (⟨n0, VKind.snap, s0⟩ :: ds) := by
    rw [List.getLast?_eq_getLast _ hnnames]
    exact List.getLast_mem hnnames
  have hlatest : getVersionText (⟨n0, VKind.snap, s0⟩ :: ds)
      ((namesOf (⟨n0, VKind.snap, s0⟩ :: ds)).getLast?.getD [])
      = some (replayText s0 ds) := by
    unfold getVersionText
    rw [hlenr]
    exact resolve_latest n0 s0 ds hnodup hs0 hds3 (ds.length + 1)
  rcases mem_diffCandidates hlenpos hmmem with hshape | ⟨b, hbdrop, hshape⟩
  · rw [hlatest] at hshape
    have hgd : (some (replayText s0 ds)).getD [] = replayText s0 ds := rfl
    rw [hgd] at hshape
    have hne1 : replayText s0 ds ≠ text := by
      intro he
      exact hnone _ hlastmem (by rw [hlatest, he])
    have hpne : m.1 ≠ [] := by
      rw [hshape]
      exact encode_calc_ne_nil dmp hdmp _ _ hne1 htext
    have hpeq : '=' ∉ m.1 := by
      rw [hshape]
      exact encode_calc_no_eq dmp hdmp _ _ hne1 htext hteq
    have hpbs : '\\' ∉ m.1 := by
      rw [hshape]
      exact encode_calc_no_bs dmp hdmp _ _ hne1 htext htbs
    have hwf := chainWF n0 s0 ds ⟨vn, VKind.delta, m.1⟩ hnodup hn0.1 hs0 hs0bs
      (fun d hd => ⟨(hds d hd).2.2.2.2.1, (hds d hd).2.1, (hds d hd).2.2.2.1⟩)
      hvnfresh hvngood.1 hpne hpbs
    have hrt := roundtrip_of_wf hwf
    unfold showVersion
    rw [hc, hrt]
    have hcons : (⟨n0, VKind.snap, s0⟩ :: ds) ++ [(⟨vn, VKind.delta, m.1⟩ : VRec)]
        = ⟨n0, VKind.snap, s0⟩ :: (ds ++ [⟨vn, VKind.delta, m.1⟩]) := rfl
    rw [hcons]
    unfold getVersionText
    have hlen2 : (⟨n0, VKind.snap, s0⟩ ::
        (ds ++ [(⟨vn, VKind.delta, m.1⟩ : VRec)]) : List VRec).length + 1
        = (ds.length + 1 + 1) + 1 := by simp
    rw [hlen2]
    have hstep := resolve_at_plain n0 s0 ds [] ⟨vn, VKind.delta, m.1⟩ hnodup' hs0
      (by
        intro d hd
        rcases List.mem_append.mp hd with hd | hd
        · exact (hds d hd).1
        · rcases List.mem_cons.mp hd with rfl | hd
          · rfl
          · cases hd)
      hpne hpeq (ds.length + 1 + 1)
    rw [show (⟨vn, VKind.delta, m.1⟩ : VRec).name = vn from rfl] at hstep
    rw [hstep, replayText_append]
    have happ : replayText (replayText s0 ds) [⟨vn, VKind.delta, m.1⟩]
        = applyDiff (replayText s0 ds) (decodeDiff m.1) := by
      unfold replayText
      simp only [List.foldl_cons, List.foldl_nil]
      rw [if_pos ⟨by simp [hpne], hpeq⟩]
    rw [happ, hshape,
      applyDiff_codec dmp hdmp _ _ hne1 htext]
  · have hbmem : b ∈ namesOf (⟨n0, VKind.snap, s0⟩ :: ds) :=
      (List.dropLast_sublist _).subset hbdrop
    have hbgood := hnames_good b hbmem
    obtain ⟨tb, hres1, hres2⟩ := chain_resolve_both n0 s0 ds
      ⟨vn, VKind.delta, m.1⟩ hnodup' hs0 hds3 rfl b hbmem
    have hbval : (getVersionText (⟨n0, VKind.snap, s0⟩ :: ds) b).getD [] = tb := by
      unfold getVersionText
      rw [hlenr, hres1 (ds.length + 1)]
      rfl
    rw [hbval] at hshape
    have htbne : tb ≠ text := by
      intro he
      refine hnone b hbmem ?_
      unfold getVersionText
      rw [hlenr, hres1 (ds.length + 1), he]
    have hpne : m.1 ≠ [] := by
      rw [hshape]
      simp
    have hpbs : '\\' ∉ m.1 := by
      rw [hshape]
      intro hm
      rcases List.mem_append.mp hm with hm | hm
      · rcases List.mem_cons.mp hm with he | hm
        · exact absurd he (by decide)
        · exact hbgood.2.2.2 hm
      · rcases List.mem_cons.mp hm with he | hm
        · exact absurd he (by decide)
        · exact encode_calc_no_bs dmp hdmp _ _ htbne htext htbs hm
    have hwf := chainWF n0 s0 ds ⟨vn, VKind.delta, m.1⟩ hnodup hn0.1 hs0 hs0bs
      (fun d hd => ⟨(hds d hd).2.2.2.2.1, (hds d hd).2.1, (hds d hd).2.2.2.1⟩)
      hvnfresh hvngood.1 hpne hpbs
    have hrt := roundtrip_of_wf hwf
    unfold showVersion
    rw [hc, hrt]
    have hcons : (⟨n0, VKind.snap, s0⟩ :: ds) ++ [(⟨vn, VKind.delta, m.1⟩ : VRec)]
        = ⟨n0, VKind.snap, s0⟩ :: (ds ++ [⟨vn, VKind.delta, m.1⟩]) := rfl
    rw [hcons]
    unfold getVersionText
    have hlen2 : (⟨n0, VKind.snap, s0⟩ ::
        (ds ++ [(⟨vn, VKind.delta, m.1⟩ : VRec)]) : List VRec).length + 1
        = (ds.length + 1 + 1) + 1 := by simp
    rw [hlen2]
    have hmemnew : (⟨vn, VKind.delta, m.1⟩ : VRec)
        ∈ ⟨n0, VKind.snap, s0⟩ :: (ds ++ [⟨vn, VKind.delta, m.1⟩]) :=
      List.mem_cons_of_mem _ (List.mem_append.mpr (Or.inr (List.mem_cons_self _ _)))
    have hpay : (⟨vn, VKind.delta, m.1⟩ : VRec).payload
        = '=' :: (b ++ ':' :: encodeDiff (calculateDiff dmp tb text)) := by
      rw [show (⟨vn, VKind.delta, m.1⟩ : VRec).payload = m.1 from rfl, hshape]
      rfl
    have hstep := resolveFuel_hybrid hnodup' hmemnew rfl hpay
      hbgood.2.1 (ds.length + 1 + 1)
    rw [show (⟨vn, VKind.delta, m.1⟩ : VRec).name = vn from rfl] at hstep
    rw [hres2 (ds.length + 1)] at hstep
    simp only [Option.getD_some] at hstep
    rw [hstep, applyDiff_codec dmp hdmp _ _ htbne htext]

theorem commit_empty_snapshot (dmp : Str → Str → List (Int × Str))
    (storage text : Str) (nameOpt : Option Str) (vn : Str)
    (hparse : parseStorage storage = [])
    (hvn : assignedName [] text nameOpt = vn)
    (htext : text ≠ []) (htbs : '\\' ∉ text)
    (hgiven : ∀ v, nameOpt = some v → GoodName v) :
    showVersion (commit dmp storage text nameOpt) vn = some text := by
  have hvngood : GoodName vn :=
    hvn ▸ assignedName_goodName [] text nameOpt hgiven
  have hc : commit dmp storage text nameOpt
      = serializeStorage [⟨vn, VKind.snap, text⟩] := by
    unfold commit
    rw [hparse]
    simp only [hvn]
    rfl
  have hwf : WFStore [⟨vn, VKind.snap, text⟩] := by
    refine ⟨by simp, ?_⟩
    intro r hr
    rcases List.mem_singleton.mp hr with rfl
    exact ⟨hvngood.1, htext, noEsc_of_not_mem_bs text htbs⟩
  have hrt := roundtrip_of_wf hwf
  unfold showVersion
  rw [hc, hrt]
  unfold getVersionText
  have hlen : ([(⟨vn, VKind.snap, text⟩ : VRec)] : List VRec).length + 1 = 1 + 1 := rfl
  rw [hlen]
  have hstep := resolveFuel_snap hwf.1 (List.mem_cons_self _ _) rfl htext 1
  rw [show (⟨vn, VKind.snap, text⟩ : VRec).name = vn from rfl] at hstep
  exact hstep

/-- C1 counterexample: committing the two-character text backslash-`n` to
the empty storage and showing the assigned version returns
backslash-newline, not the committed text — the escape defect breaks
resolve-after-commit already for the very first snapshot. -/
theorem c1_cex :
    showVersion (commit dmpTrivial [] ['\\', 'n'] (some ['v', '1']))
        (assignedName (parseStorage []) ['\\', 'n'] (some ['v', '1']))
      ≠ some ['\\', 'n'] := by
  decide

/-- **C1 (amended).** Resolve-after-commit holds under the conditions the
engine itself maintains: the diff provider satisfies its contract, the
committed text is non-empty and free of `=` and backslash, the given name
(if any) is free of newline/colon/equals/backslash, and the storage parses
either to nothing or to a snapshot-rooted chain of plain deltas with
unique well-formed names and escape-safe payloads.  Then
`show(commit(storage, text, name), assignedName) = text`, where
`assignedName` is the `#`-deduplicated name the commit assigns.  Without
these restrictions the claim fails (see the counterexample: a text hitting
the escape defect comes back altered). -/
theorem c1_resolve_after_commit (dmp : Str → Str → List (Int × Str))
    (hdmp : DmpValid dmp) (storage text : Str) (nameOpt : Option Str)
    (htext : text ≠ []) (hteq : '=' ∉ text) (htbs : '\\' ∉ text)
    (hgiven : ∀ v, nameOpt = some v → GoodName v) :
    (parseStorage storage = [] →
      showVersion (commit dmp storage text nameOpt)
        (assignedName (parseStorage storage) text nameOpt) = some text) ∧
    (∀ n0 s0 ds, parseStorage storage = ⟨n0, VKind.snap, s0⟩ :: ds →
      ((⟨n0, VKind.snap, s0⟩ :: ds).map VRec.name).Nodup →
      GoodName n0 → s0 ≠ [] → '\\' ∉ s0 →
      (∀ d ∈ ds, d.kind = VKind.delta ∧ d.payload ≠ [] ∧ '=' ∉ d.payload ∧
        '\\' ∉ d.payload ∧ GoodName d.name) →
      showVersion (commit dmp storage text nameOpt)
        (assignedName (parseStorage storage) text nameOpt) = some text) := by
  constructor
  · intro hparse
    rw [hparse]
    exact commit_empty_snapshot dmp storage text nameOpt _ hparse rfl htext htbs
      hgiven
  · intro n0 s0 ds hparse hnodup hn0 hs0 hs0bs hds
    rw [hparse]
    cases hdupe : findDupe (⟨n0, VKind.snap, s0⟩ :: ds) text with
    | some ex =>
      exact commit_chain_dupe dmp storage text nameOpt n0 s0 ds _ hparse rfl
        hnodup hn0 hs0 hs0bs hds hgiven ex hdupe
    | none =>
      exact commit_chain_delta dmp hdmp storage text nameOpt n0 s0 ds _ hparse rfl
        hnodup hn0 hs0 hs0bs hds htext hteq htbs hgiven hdupe

theorem c1_resolve_after_commit_witness :
    showVersion (commit dmpTrivial (":1:a:AB\n1:b:I1:C").toList ['Q'] (some ['c']))
        (assignedName (parseStorage (":1:a:AB\n1:b:I1:C").toList) ['Q'] (some ['c']))
      = some ['Q'] :=
  (c1_resolve_after_commit dmpTrivial dmpTrivial_valid
      (":1:a:AB\n1:b:I1:C").toList ['Q'] (some ['c'])
      (by decide) (by decide) (by decide)
      (fun v h => by
        injection h with h
        subst h
        exact ⟨by decide, by decide, by decide, by decide⟩)).2
    ['a'] ['A', 'B'] [⟨['b'], VKind.delta, ['I', '1', ':', 'C']⟩]
    (by decide) (by decide)
    ⟨by decide, by decide, by decide, by decide⟩
    (by decide) (by decide)
    (by
      intro d hd
      rcases List.mem_singleton.mp hd with rfl
      exact ⟨rfl, by decide, by decide, by decide,
        ⟨by decide, by decide, by decide, by decide⟩⟩)
